import Mathlib

/-!
Verification of the priority-expiry cache (`priority_expiry` package).

The development shallowly embeds `src/priority_expiry/data_structures.py`
(the quadtree: `Entry`, `Node`, `Quadtree`) and `src/priority_expiry/mappings.py`
(the `Cache` facade) as executable Lean functions, and proves the behavioural
claims about `prune_expired`, `prune_lowest_priority`, `evict`, the quadrant
invariant, the set/get laws, the error taxonomy, the context manager and the
LRU-queue deletion scan.

Modelling conventions:
* `Time` and `Priority` are `Int` (Python integers; monotonic clock values).
* Keys and values are specialised to `Nat` (the Python code is generic in
  `KT`/`VT`; nothing in the claims depends on the key/value types beyond
  hashability/equality).
* Python `dict` is an insertion-ordered association list; `dict` assignment
  overwrites in place, `pop`/`del` raise `KeyError` on a missing key.
* Python object identity of `Entry` objects (the `is` comparison in
  `Node.delete_entry`) is modelled by an `eid : Nat` field: the cache creates
  every `Entry` with a fresh `eid`, so `eid` equality is identity.
* In-place mutation plus the parent-callback pattern of `Node.clean`
  (`self.parent.delete(self)` / `self.parent.replace(child)`) is modelled by
  returning a `CleanOutcome` that the caller (the parent `Node`, or the
  `Quadtree` when the node is the root) applies to its own quadrant mapping.
* Fallible operations (`KeyError`, `EmptyNode`, `EmptyTree`, the
  "entry unexpectedly missing for lru queue" raise, the `assert` in
  `__setitem__`) return `Except Err`.
* Python iterates `OLDER_QUADS & set(self.quadrants)` and
  `list(self.quadrants.values())` in unspecified set order / dict insertion
  order.  The model iterates quadrants in the fixed order ONE, TWO, THREE,
  FOUR; on states satisfying the quadrant (region) invariant each child's
  structural effects are confined to its own slot, so the iteration order is
  immaterial there and the model agrees with the source.
-/

namespace PEC

/-- Error kinds of the Python code: `KeyError`, `EmptyNode`, `EmptyTree`,
the `Exception("entry unexpectedly missing for lru queue")` raise in
`Node.delete_entry`, `KeyDoesNotExist` and `KeyExpired` from `mappings.py`,
the `assert expiry > now` in `Cache.__setitem__`, and fuel exhaustion of the
fueled recursion (never reached from the public entry points on well-formed
trees). -/
inductive Err where
  | keyError
  | emptyNode
  | emptyTree
  | lruMissing
  | keyDoesNotExist
  | keyExpired
  | assertFail
  | fuel
  deriving DecidableEq, Repr

/-- Python `Entry` dataclass (`data_structures.py` lines 47-58): ordered by
`last_used` only; `key` and `value` do not compare.  The extra `eid` field
models CPython object identity (see the header comment). -/
structure Entry where
  last_used : Int
  key : Nat
  value : Nat
  eid : Nat
  deriving DecidableEq, Repr

instance : Inhabited Entry := ⟨⟨0, 0, 0, 0⟩⟩

/-- The four quadrant indexes (`QuadrantIndex`, lines 17-30).  The two
booleans of the Python enum values are (older-or-equal expiry,
strictly-higher priority, i.e. numerically smaller priority value). -/
inductive QI where
  | one | two | three | four
  deriving DecidableEq, Repr

/-- `QuadrantIndex((b1, b2))`: builds the quadrant index from the two
booleans `(expiry <= self.expiry, priority < self.priority)`. -/
def QI.ofBools : Bool → Bool → QI
  | true, true => .one
  | true, false => .two
  | false, true => .three
  | false, false => .four

/-- A node of the quadtree (`Node`, lines 180-206): its (expiry, priority)
point, the four optional child quadrants, the `_data` dict and the
`_lru_queue` deque. -/
inductive Node : Type where
  | mk (expiry priority : Int) (q1 q2 q3 q4 : Option Node)
       (data : List (Nat × Entry)) (lru : List Entry)
  deriving Repr

namespace Node

def expiry : Node → Int | .mk e _ _ _ _ _ _ _ => e
def priority : Node → Int | .mk _ p _ _ _ _ _ _ => p
def data : Node → List (Nat × Entry) | .mk _ _ _ _ _ _ d _ => d
def lru : Node → List Entry | .mk _ _ _ _ _ _ _ l => l

def getQuad : Node → QI → Option Node
  | .mk _ _ a _ _ _ _ _, .one => a
  | .mk _ _ _ b _ _ _ _, .two => b
  | .mk _ _ _ _ c _ _ _, .three => c
  | .mk _ _ _ _ _ d _ _, .four => d

def setQuad : Node → QI → Option Node → Node
  | .mk e p _ b c d dt l, .one, x => .mk e p x b c d dt l
  | .mk e p a _ c d dt l, .two, x => .mk e p a x c d dt l
  | .mk e p a b _ d dt l, .three, x => .mk e p a b x d dt l
  | .mk e p a b c _ dt l, .four, x => .mk e p a b c x dt l

/-- Replaces the `_data` dict and `_lru_queue` of a node, keeping its point
and quadrants (in-place mutation of those two attributes). -/
def withDataLru : Node → List (Nat × Entry) → List Entry → Node
  | .mk e p a b c d _ _, dt, l => .mk e p a b c d dt l

/-- Number of occupied quadrant slots (`len(self.quadrants)`). -/
def quadCount (n : Node) : Nat :=
  (if (n.getQuad .one).isSome then 1 else 0) + (if (n.getQuad .two).isSome then 1 else 0) +
  (if (n.getQuad .three).isSome then 1 else 0) + (if (n.getQuad .four).isSome then 1 else 0)

/-- Python `Node.empty` property (line 308): no entries in the lru queue. -/
def empty (n : Node) : Bool := n.lru.isEmpty

/-- Python `Node.expired` (line 318): `self.expiry < now`. -/
def expired (n : Node) (now : Int) : Bool := n.expiry < now

/-- Python `Node.quadrant_index` (line 329): the quadrant a node would be
placed in on this node, from `(node.expiry <= self.expiry,
node.priority < self.priority)`. -/
def quadrant_index (self other : Node) : QI :=
  QI.ofBools (decide (other.expiry ≤ self.expiry)) (decide (other.priority < self.priority))

/-- Python `Node.clear_entries` (line 283). -/
def clear_entries (n : Node) : Node := n.withDataLru [] []

/-- Total variant of the `Node.lru_time` property (line 292): `last_used` of
the head of the lru queue.  The Python property raises `EmptyNode` on an
empty node; every use in the source is guarded by an emptiness check, and the
model only evaluates it under the same guards. -/
def lru_time (n : Node) : Int := (n.lru.headD default).last_used

end Node

/-- Size of an optional subtree (number of nodes); the termination measure
for the structural recursions. -/
def osize : Option Node → Nat
  | none => 0
  | some (.mk _ _ a b c d _ _) => 1 + osize a + osize b + osize c + osize d

def Node.size (n : Node) : Nat := osize (some n)

/-- Entries (lru queues) of every node of an optional subtree, in preorder. -/
def oEntries : Option Node → List Entry
  | none => []
  | some (.mk _ _ a b c d _ l) => l ++ (oEntries a ++ (oEntries b ++ (oEntries c ++ oEntries d)))

/-- Number of entries in an optional subtree. -/
def oEntryCount (o : Option Node) : Nat := (oEntries o).length

/-- All nodes of an optional subtree, in preorder. -/
def oNodes : Option Node → List Node
  | none => []
  | some (.mk e p a b c d dt l) =>
      .mk e p a b c d dt l :: (oNodes a ++ (oNodes b ++ (oNodes c ++ oNodes d)))

/-- The (expiry, priority) points of every node of an optional subtree. -/
def oPoints : Option Node → List (Int × Int)
  | none => []
  | some (.mk e p a b c d _ _) => (e, p) :: (oPoints a ++ (oPoints b ++ (oPoints c ++ oPoints d)))

/-- Boolean "every node of the subtree satisfies `f`". -/
def oAllNodes (f : Node → Bool) : Option Node → Bool
  | none => true
  | some (.mk e p a b c d dt l) =>
      f (.mk e p a b c d dt l) && (oAllNodes f a && (oAllNodes f b && (oAllNodes f c && oAllNodes f d)))

/-- Python `Node.deep_empty` property (line 312): this node and all of its
descendants have no entries. -/
def Node.deep_empty : Node → Bool
  | n => oAllNodes (fun m => m.empty) (some n)

namespace Node

theorem size_getQuad {n : Node} {i : QI} {c : Node} (h : n.getQuad i = some c) :
    c.size < n.size := by
  cases n with
  | mk e p a b c' d dt l =>
    cases i <;> simp [getQuad] at h <;> subst h <;> simp [size, osize] <;> omega

end Node

/-! Python `dict` operations on insertion-ordered association lists. -/

/-- Python `d[k]` read: first (unique) binding for `k`. -/
def dictGet (d : List (Nat × α)) (k : Nat) : Option α :=
  match d with
  | [] => none
  | (k', v) :: rest => if k' = k then some v else dictGet rest k

/-- Python `d[k] = v`: overwrite in place, or append a new binding. -/
def dictSet (d : List (Nat × α)) (k : Nat) (v : α) : List (Nat × α) :=
  match d with
  | [] => [(k, v)]
  | (k', v') :: rest => if k' = k then (k, v) :: rest else (k', v') :: dictSet rest k v

/-- Python `d.pop(k)`: the removed value and the remaining dict, or `none`
for the `KeyError` case. -/
def dictPop (d : List (Nat × α)) (k : Nat) : Option (α × List (Nat × α)) :=
  match d with
  | [] => none
  | (k', v) :: rest =>
    if k' = k then some (v, rest)
    else match dictPop rest k with
      | none => none
      | some (v', rest') => some (v', (k', v) :: rest')

/-- Total erasure: `d.pop(k)` where a missing key is a no-op (used to model
the `try: del ... except KeyError: pass` pattern in `Cache.evict`). -/
def dictErase (d : List (Nat × α)) (k : Nat) : List (Nat × α) :=
  match dictPop d k with
  | none => d
  | some (_, d') => d'

namespace Node

/-- Python `Node.add_entry` (lines 208-220): builds `Entry(now, key, value)`,
stores it in `_data[key]` and appends it to the tail of `_lru_queue`.
`eid` is the identity of the freshly created `Entry` object. -/
def add_entry (n : Node) (key value : Nat) (now : Int) (eid : Nat) : Node :=
  let e : Entry := ⟨now, key, value, eid⟩
  n.withDataLru (dictSet n.data key e) (n.lru ++ [e])

end Node

/-- The loop of CPython `bisect.bisect_left(a, x, lo, hi)`; the comparison
`a[mid] < x` is the `Entry` dataclass order, which compares `last_used`
only, so `x` is passed as the `last_used` value. -/
def bisectLeftGo (a : List Entry) (x : Int) (lo hi : Nat) : Nat :=
  if h : lo < hi then
    let mid := (lo + hi) / 2
    if (a.getD mid default).last_used < x then bisectLeftGo a x (mid + 1) hi
    else bisectLeftGo a x lo mid
  else lo
termination_by hi - lo
decreasing_by
  all_goals omega

/-- `bisect_left(self._lru_queue, entry)` in `Node.delete_entry`. -/
def bisectLeft (a : List Entry) (x : Int) : Nat := bisectLeftGo a x 0 a.length

/-- The scan loop of `Node.delete_entry` (lines 235-244): starting from the
bisect index, while the current element has the same `last_used`, look for
the element that `is entry` (same `eid`) and delete it; falling off the
equal-timestamp run (or the end of the queue) without a match is the
`raise Exception("entry unexpectedly missing for lru queue")` branch,
returned as `none`. -/
def lruScan (l : List Entry) (x : Entry) (idx : Nat) : Option (List Entry) :=
  if h : idx < l.length then
    let e := l.getD idx default
    if e.last_used = x.last_used then
      if e.eid = x.eid then some (l.eraseIdx idx) else lruScan l x (idx + 1)
    else none
  else none
termination_by l.length - idx
decreasing_by
  all_goals omega

/-- One quadrant's contribution to the result of `Node.clean`:
what the node asks its parent to do. -/
inductive CleanOutcome where
  | keep (n : Node)
  | deleteMe (n : Node)
  | promote (remnant child : Node)
  deriving Repr

namespace Node

/-- The single occupied quadrant slot, for the `popitem` in `Node.clean`
(when `len(self.quadrants) == 1` there is exactly one, so the dict order of
`popitem` is immaterial). -/
def onlyQuad (n : Node) : Option (QI × Node) :=
  match n.getQuad .one with
  | some c => some (.one, c)
  | none => match n.getQuad .two with
    | some c => some (.two, c)
    | none => match n.getQuad .three with
      | some c => some (.three, c)
      | none => match n.getQuad .four with
        | some c => some (.four, c)
        | none => none

/-- Python `Node.clean` (lines 375-383): if the node has no entries, either
ask the parent to delete it (no quadrants) or to replace it with its only
child (`self.quadrants.popitem()` empties the slot first); otherwise (two or
more quadrants, or the node still has entries) nothing happens. -/
def clean (n : Node) : CleanOutcome :=
  if n.empty then
    if n.quadCount = 0 then .deleteMe n
    else if n.quadCount = 1 then
      match n.onlyQuad with
      | some (i, c) => .promote (n.setQuad i none) c
      | none => .keep n
    else .keep n
  else .keep n

/-- Python `Node.delete_entry` without the final clean (lines 233-244):
`self._data.pop(key)` (`KeyError` if absent), then the bisect-and-scan
removal from `_lru_queue` (`lruMissing` is the unreachable raise). -/
def deleteEntryRaw (n : Node) (key : Nat) : Except Err Node :=
  match dictPop n.data key with
  | none => .error .keyError
  | some (entry, data') =>
    match lruScan n.lru entry (bisectLeft n.lru entry.last_used) with
    | none => .error .lruMissing
    | some lru' => .ok (n.withDataLru data' lru')

/-- Python `Node.delete_entry` (lines 222-246): delete the entry, then run
the cleaning rule when `clean` is true. -/
def delete_entry (n : Node) (key : Nat) (cl : Bool) : Except Err CleanOutcome := do
  let n' ← n.deleteEntryRaw key
  if cl then pure n'.clean else pure (.keep n')

/-- Python `Node.pop_lru` (lines 248-261): `EmptyNode` on an empty node;
otherwise pop the head of the lru queue, `del self._data[least_recent.key]`
(`KeyError` if absent), clean, and return the key. -/
def pop_lru (n : Node) : Except Err (Nat × CleanOutcome) :=
  if n.empty then .error .emptyNode
  else
    let least := n.lru.headD default
    match dictPop n.data least.key with
    | none => .error .keyError
    | some (_, data') => .ok (least.key, (n.withDataLru data' n.lru.tail).clean)

/-- Python `Node.access_entry` (lines 263-281): read the value
(`KeyError` if absent), `delete_entry(key, clean=False)`, then re-add the
entry with the current time (a fresh `Entry` object, identity `eid`). -/
def access_entry (n : Node) (key : Nat) (now : Int) (eid : Nat) : Except Err (Nat × Node) := do
  match dictGet n.data key with
  | none => .error .keyError
  | some e =>
    let n' ← n.deleteEntryRaw key
    pure (e.value, n'.add_entry key e.value now eid)

/-- Python `Node.insert` (lines 335-358): route the (priority, expiry) point
to its quadrant; recurse into an existing child, otherwise create the new
node there.  Returns the updated subtree (the Python method returns the
created node; the cache re-locates it by its point). -/
def insertN (n : Node) (pr ex : Int) : Node :=
  let i := QI.ofBools (decide (ex ≤ n.expiry)) (decide (pr < n.priority))
  match h : n.getQuad i with
  | some c => n.setQuad i (some (c.insertN pr ex))
  | none => n.setQuad i (some (.mk ex pr none none none none [] []))
termination_by n.size
decreasing_by
  exact Node.size_getQuad h

end Node

/-- Applies a child's `CleanOutcome` to this node's quadrant mapping, for a
child that occupied `slot`.  `keep` is in-place mutation of the child.
`deleteMe` is `Node.delete` (line 370): `del self.quadrants[self.quadrant_index(node)]`,
a `KeyError` when that slot is empty.  `promote` is `Node.replace`
(line 360): assign the promoted child at `self.quadrant_index(child)` (on
region-invariant trees this is exactly the outgoing child's slot). -/
def applyOutcome (p : Node) (slot : QI) (out : CleanOutcome) : Except Err Node :=
  match out with
  | .keep n' => .ok (p.setQuad slot (some n'))
  | .deleteMe final =>
    let p1 := p.setQuad slot (some final)
    let s' := p1.quadrant_index final
    match p1.getQuad s' with
    | none => .error .keyError
    | some _ => .ok (p1.setQuad s' none)
  | .promote rem child =>
    let p1 := p.setQuad slot (some rem)
    .ok (p1.setQuad (p1.quadrant_index child) (some child))

/-- Locates the node with exactly the point `(ex, pr)` by quadrant routing
(the model of a live `point_index` / `key_index` weak reference: on trees
satisfying the region invariant the routing path is where such a node
lives). -/
def findPoint (n : Node) (ex pr : Int) : Option Node :=
  if n.expiry = ex ∧ n.priority = pr then some n
  else
    match h : n.getQuad (QI.ofBools (decide (ex ≤ n.expiry)) (decide (pr < n.priority))) with
    | none => none
    | some c => findPoint c ex pr
termination_by n.size
decreasing_by
  exact Node.size_getQuad h

/-- Runs an operation on the node with point `(ex, pr)` (an operation that
ends in the cleaning rule, hence returns a `CleanOutcome`); each ancestor
applies its child's outcome to its own quadrants, and is itself kept
unchanged (the Python entry-level operations clean only the node itself). -/
def updAtPoint (n : Node) (ex pr : Int) (op : Node → Except Err (α × CleanOutcome)) :
    Except Err (α × CleanOutcome) :=
  if n.expiry = ex ∧ n.priority = pr then op n
  else
    let i := QI.ofBools (decide (ex ≤ n.expiry)) (decide (pr < n.priority))
    match h : n.getQuad i with
    | none => .error .keyError
    | some c => do
      let (a, out) ← updAtPoint c ex pr op
      let n' ← applyOutcome n i out
      pure (a, .keep n')
termination_by n.size
decreasing_by
  exact Node.size_getQuad h

/-- Child nodes in the fixed slot order ONE, TWO, THREE, FOUR (Python:
`self.quadrants.values()` in dict insertion order). -/
def Node.allQuads (n : Node) : List Node :=
  ((n.getQuad .one).toList ++ (n.getQuad .two).toList) ++
    ((n.getQuad .three).toList ++ (n.getQuad .four).toList)

/-- Python `Node.lower_priority_nodes` (lines 416-421): the children in the
`WORST_QUADS` slots TWO and FOUR (set iteration order is unspecified; the
model uses the fixed order TWO, FOUR). -/
def Node.lower_priority_nodes (n : Node) : List Node :=
  (n.getQuad .two).toList ++ (n.getQuad .four).toList

/-- One step of the two `prune_expired` child loops: recurse into the
current occupant of `slot` (if any) and apply its outcome. -/
def pruneChildAt (pruneF : Node → Except Err (Bool × CleanOutcome))
    (p : Node) (slot : QI) (r : Bool) : Except Err (Bool × Node) :=
  match p.getQuad slot with
  | none => .ok (r, p)
  | some c => do
    let (b, out) ← pruneF c
    let p' ← applyOutcome p slot out
    pure (r || b, p')

/-- Python `Node.prune_expired` (lines 385-414), with explicit fuel for the
recursion (the in-place loops re-read `self.quadrants`, which child cleans
mutate).  Expired node: record whether it had entries, detach the
older-or-equal-expiry quadrants ONE and TWO (recording whether they held any
entry), recurse into the snapshot of remaining children, clear the node's
own entries.  Then (expired or not) recurse into the older-or-equal-expiry
quadrants present at this point, and finish with the cleaning rule. -/
def pruneEx : Nat → Node → Int → Except Err (Bool × CleanOutcome)
  | 0, _, _ => .error .fuel
  | fuel + 1, n, now => do
    let (r1, n1) ←
      if n.expired now then do
        let r := !n.empty
        let r := r || (match n.getQuad .one with | some c => !c.deep_empty | none => false)
        let r := r || (match n.getQuad .two with | some c => !c.deep_empty | none => false)
        let n' := (n.setQuad .one none).setQuad .two none
        let (r, n') ← pruneChildAt (fun c => pruneEx fuel c now) n' .three r
        let (r, n') ← pruneChildAt (fun c => pruneEx fuel c now) n' .four r
        pure (r, n'.clear_entries)
      else pure (false, n)
    let (r2, n2) ← pruneChildAt (fun c => pruneEx fuel c now) n1 .one r1
    let (r3, n3) ← pruneChildAt (fun c => pruneEx fuel c now) n2 .two r2
    pure (r3, n3.clean)

/-- Python `Quadtree` (lines 61-177): the optional root. -/
structure Quadtree where
  root : Option Node
  deriving Repr

namespace Quadtree

/-- Applies the root's `CleanOutcome` at the tree: `Quadtree.delete`
(line 96, asserts the node is the root and clears it) and
`Quadtree.replace` (line 83, replaces the root). -/
def applyTop (out : CleanOutcome) : Quadtree :=
  match out with
  | .keep n => ⟨some n⟩
  | .deleteMe _ => ⟨none⟩
  | .promote _ child => ⟨some child⟩

/-- Python `Quadtree.insert` (lines 73-81). -/
def insertQ (t : Quadtree) (pr ex : Int) : Quadtree :=
  match t.root with
  | none => ⟨some (.mk ex pr none none none none [] [])⟩
  | some r => ⟨some (r.insertN pr ex)⟩

/-- Finds a live node by its (expiry, priority) point. -/
def findPointQ (t : Quadtree) (pt : Int × Int) : Option Node :=
  match t.root with
  | none => none
  | some r => findPoint r pt.1 pt.2

/-- Runs a cleaning entry-level operation on the node with the given point. -/
def updAtPointQ (t : Quadtree) (pt : Int × Int) (op : Node → Except Err (α × CleanOutcome)) :
    Except Err (α × Quadtree) :=
  match t.root with
  | none => .error .keyError
  | some r => do
    let (a, out) ← updAtPoint r pt.1 pt.2 op
    pure (a, applyTop out)

/-- Python `Quadtree.prune_expired` (lines 110-134). -/
def prune_expired (t : Quadtree) (now : Int) : Except Err (Bool × Quadtree) :=
  match t.root with
  | none => .ok (false, t)
  | some r => do
    let (b, out) ← pruneEx r.size r now
    pure (b, applyTop out)

/-- Number of entries in the tree. -/
def entryCountQ (t : Quadtree) : Nat := oEntryCount t.root

/-- All entries in the tree. -/
def entriesQ (t : Quadtree) : List Entry := oEntries t.root

/-- All nodes in the tree. -/
def nodesQ (t : Quadtree) : List Node := oNodes t.root

/-- All points in the tree. -/
def pointsQ (t : Quadtree) : List (Int × Int) := oPoints t.root

end Quadtree

/-- The search loop of `Quadtree.prune_lowest_priority` (lines 161-172):
a stack-driven traversal keeping the best candidate so far.  Empty nodes
fan out into all of their children; a non-empty node replaces the candidate
when the candidate is empty, when it has a numerically larger priority, or
on a priority tie with a strictly smaller `lru_time`; only its
lower-priority children are pushed. -/
def lowestGo : List Node → Node → Node
  | [], lowest => lowest
  | node :: rest, lowest =>
    if node.empty then lowestGo (node.allQuads ++ rest) lowest
    else
      let lowest' :=
        if lowest.empty then node
        else if node.priority > lowest.priority ∨
            (node.priority = lowest.priority ∧ node.lru_time < lowest.lru_time) then node
        else lowest
      lowestGo (node.lower_priority_nodes ++ rest) lowest'
termination_by stack _ => (stack.map Node.size).sum
decreasing_by
  · simp only [List.map_append, List.sum_append, List.map_cons, List.sum_cons]
    have : (node.allQuads.map Node.size).sum < node.size := by
      cases node with
      | mk e p a b c d dt l =>
        cases a <;> cases b <;> cases c <;> cases d <;>
          simp [Node.allQuads, Node.getQuad, Node.size, osize] <;> omega
    omega
  · simp only [List.map_append, List.sum_append, List.map_cons, List.sum_cons]
    have : (node.lower_priority_nodes.map Node.size).sum < node.size := by
      cases node with
      | mk e p a b c d dt l =>
        cases b <;> cases d <;>
          simp [Node.lower_priority_nodes, Node.getQuad, Node.size, osize] <;> omega
    omega

/-- Python `Quadtree.prune_lowest_priority` (lines 136-177): `EmptyTree` on
a rootless tree; run the pruned search from the root; `EmptyTree` if no node
with entries was found; otherwise `pop_lru` the found node (located in the
tree by its point) and return the popped key with the updated tree. -/
def Quadtree.prune_lowest_priority (t : Quadtree) : Except Err (Nat × Quadtree) :=
  match t.root with
  | none => .error .emptyTree
  | some r =>
    let lowest := if r.empty then lowestGo r.allQuads r else lowestGo r.lower_priority_nodes r
    if lowest.empty then .error .emptyTree
    else t.updAtPointQ (lowest.expiry, lowest.priority) (fun m => m.pop_lru)

/-- Python `Cache` (`mappings.py` lines 36-248).  `keyNodes` models the
`_key_nodes` WeakValueDictionary as key ↦ the node's (expiry, priority)
point: a binding is live exactly when the tree still holds a node with that
point (nodes never change their point, and `findPointQ` locates live nodes).
The `_expiry_priority_nodes` weak dict is likewise modelled by point lookup
in the tree.  The clock is passed in as `now` at each operation; `nextEid`
supplies fresh `Entry` identities. -/
structure Cache where
  tree : Quadtree
  keyNodes : List (Nat × (Int × Int))
  default_expiry_duration : Int
  default_priority : Int
  ctx_expiry_duration : Int
  ctx_priority : Int
  nextEid : Nat
  deriving Repr

namespace Cache

/-- Python `Cache.__init__` (lines 79-96). -/
def init (default_expiry_duration default_priority : Int) : Cache :=
  { tree := ⟨none⟩, keyNodes := []
    default_expiry_duration, default_priority
    ctx_expiry_duration := default_expiry_duration
    ctx_priority := default_priority
    nextEid := 0 }

/-- Entering `Cache.context` (lines 150-157): install the overrides, or
re-assert the defaults for fields given as `None`. -/
def contextEnter (c : Cache) (priority : Option Int) (expiry_duration : Option Int) : Cache :=
  { c with
    ctx_priority := match priority with | some p => p | none => c.default_priority
    ctx_expiry_duration :=
      match expiry_duration with | some d => d | none => c.default_expiry_duration }

/-- Exiting `Cache.context` (the `finally` block, lines 160-162): restore
the constructor defaults. -/
def contextExit (c : Cache) : Cache :=
  { c with
    ctx_priority := c.default_priority
    ctx_expiry_duration := c.default_expiry_duration }

/-- Python `Cache.__delitem__` (lines 164-168): `self._key_nodes.pop(key)`
(`KeyError` when absent or when the weak reference is dead), then
`node.delete_entry(key)` with the cleaning rule. -/
def delOp (c : Cache) (k : Nat) : Except Err Cache :=
  match dictGet c.keyNodes k with
  | none => .error .keyError
  | some pt =>
    if (c.tree.findPointQ pt).isSome then do
      let (_, t') ← c.tree.updAtPointQ pt (fun n => do
        let out ← n.delete_entry k true
        pure ((), out))
      pure { c with tree := t', keyNodes := dictErase c.keyNodes k }
    else .error .keyError

/-- Python `Cache.__getitem__` (lines 170-186): `KeyDoesNotExist` when the
key is not in the (weak) key index, `KeyExpired` when the node has expired,
otherwise `node.access_entry(key, now)` (which re-places the entry at the
tail of the node's lru queue with the current time). -/
def getOp (c : Cache) (now : Int) (k : Nat) : Except Err (Nat × Cache) :=
  match dictGet c.keyNodes k with
  | none => .error .keyDoesNotExist
  | some pt =>
    match c.tree.findPointQ pt with
    | none => .error .keyDoesNotExist
    | some n =>
      if n.expired now then .error .keyExpired
      else do
        let (v, t') ← c.tree.updAtPointQ pt (fun m => do
          let (v, m') ← m.access_entry k now c.nextEid
          pure (v, .keep m'))
        pure (v, { c with tree := t', nextEid := c.nextEid + 1 })

/-- Python `Cache.__setitem__` (lines 217-248): `expiry := now + duration`
(assert `expiry > now`); delete the key first when it is (live) in the key
index; locate the (expiry, priority) node through the point index, or
`tree.insert` on a miss; `node.add_entry(key, value, now)` and update both
indices. -/
def setOp (c : Cache) (now : Int) (k v : Nat) : Except Err Cache := do
  let expiry := now + c.ctx_expiry_duration
  if expiry ≤ now then .error .assertFail else
  let priority := c.ctx_priority
  let c1 ←
    match dictGet c.keyNodes k with
    | some pt => if (c.tree.findPointQ pt).isSome then c.delOp k else pure c
    | none => pure c
  let t1 :=
    if (c1.tree.findPointQ (expiry, priority)).isSome then c1.tree
    else c1.tree.insertQ priority expiry
  let (_, t2) ← t1.updAtPointQ (expiry, priority) (fun n =>
    pure ((), .keep (n.add_entry k v now c.nextEid)))
  pure { c1 with tree := t2
                 keyNodes := dictSet c1.keyNodes k (expiry, priority)
                 nextEid := c.nextEid + 1 }

/-- Python `Cache.evict` (lines 98-127): prune expired entries; stop if any
entry was removed; otherwise prune the lowest-priority entry, swallowing
`EmptyTree`, and drop the returned key from the key index, swallowing a
`KeyError` (the weak reference may already have removed it). -/
def evictOp (c : Cache) (now : Int) : Except Err Cache := do
  let (anyRemoved, t1) ← c.tree.prune_expired now
  if anyRemoved then pure { c with tree := t1 }
  else
    match t1.prune_lowest_priority with
    | .error .emptyTree => pure { c with tree := t1 }
    | .error e => .error e
    | .ok (key, t2) => pure { c with tree := t2, keyNodes := dictErase c.keyNodes key }

end Cache

/-! Invariants.  All are executable so that concrete witnesses evaluate. -/

/-- The defining predicate of quadrant `i` relative to a parent point
`(e0, p0)`: the two booleans of `QuadrantIndex` (older-or-equal expiry,
strictly higher priority) applied to a point. -/
def inRegion (e0 p0 : Int) (i : QI) (pt : Int × Int) : Bool :=
  match i with
  | .one => decide (pt.1 ≤ e0) && decide (pt.2 < p0)
  | .two => decide (pt.1 ≤ e0) && decide (p0 ≤ pt.2)
  | .three => decide (e0 < pt.1) && decide (pt.2 < p0)
  | .four => decide (e0 < pt.1) && decide (p0 ≤ pt.2)

/-- Region invariant: every node of the subtree stored under quadrant `i`
of a node has its whole point inside region `i` of that node (the
closure of the quadrant invariant that insertion routing establishes). -/
def oRegionWF : Option Node → Bool
  | none => true
  | some (.mk e p a b c d _ _) =>
    ((oPoints a).all (inRegion e p .one) && (oPoints b).all (inRegion e p .two)) &&
    ((oPoints c).all (inRegion e p .three) && (oPoints d).all (inRegion e p .four)) &&
    ((oRegionWF a && oRegionWF b) && (oRegionWF c && oRegionWF d))

/-- The literal local quadrant invariant of the claim: for any node `N` and
any child `C` stored in quadrant `Q`, the pair
`(C.expiry <= N.expiry, C.priority < N.priority)` matches `Q`'s defining
booleans. -/
def oQuadInv : Option Node → Bool
  | none => true
  | some (.mk e p a b c d _ _) =>
    ((a.all fun m => inRegion e p .one (m.expiry, m.priority)) &&
     (b.all fun m => inRegion e p .two (m.expiry, m.priority))) &&
    ((c.all fun m => inRegion e p .three (m.expiry, m.priority)) &&
     (d.all fun m => inRegion e p .four (m.expiry, m.priority))) &&
    ((oQuadInv a && oQuadInv b) && (oQuadInv c && oQuadInv d))

/-- Ascending (non-strict) sortedness of the lru queue by `last_used`. -/
def sortedLU : List Entry → Bool
  | [] => true
  | [_] => true
  | x :: y :: rest => decide (x.last_used ≤ y.last_used) && sortedLU (y :: rest)

/-- All entry identities in the list are distinct. -/
def nodupEids : List Entry → Bool
  | [] => true
  | x :: rest => !(rest.any fun e => e.eid == x.eid) && nodupEids rest

/-- All dict keys are distinct (a Python dict cannot hold duplicates). -/
def nodupKeys (d : List (Nat × α)) : Bool :=
  match d with
  | [] => true
  | kv :: rest => !(rest.any fun kv' => kv'.1 == kv.1) && nodupKeys rest

/-- No two points in the list coincide (spec invariant 5: no two nodes in
the tree share an (expiry, priority) point). -/
def nodupPoints : List (Int × Int) → Bool
  | [] => true
  | pt :: rest => !(rest.any fun pt' => pt' == pt) && nodupPoints rest

/-- Consistency of one node's `_data` dict with its `_lru_queue`
(spec data-model bullet: `data` and `lru` are kept mutually consistent, the
queue is sorted ascending by `last_used`): the dict is exactly the queue
indexed by key, the queue is sorted, and entry identities and keys are
unique. -/
def Node.consistB (n : Node) : Bool :=
  decide (n.data = n.lru.map fun e => (e.key, e)) &&
  (sortedLU n.lru && (nodupEids n.lru && nodupKeys n.data))

/-- Well-formedness of a tree: region invariant, per-node consistency, and
uniqueness of (expiry, priority) points. -/
def Quadtree.treeWF (t : Quadtree) : Bool :=
  oRegionWF t.root && (oAllNodes Node.consistB t.root && nodupPoints (oPoints t.root))

/-- Well-formedness of a cache state at time `T` (the last clock reading):
the tree is well-formed; every entry was last used at or before `T` and has
an identity below the freshness counter; every live key-index binding
points to a node that either still holds the key or has expired (its
entries were cleared by a prune), every dead binding's point has expired
(so a reinserted point can never capture a stale binding); every stored
entry is registered in the key index under its node's point; and the key
index has no duplicate keys. -/
def Cache.wfB (c : Cache) (T : Int) : Bool :=
  c.tree.treeWF &&
  (oAllNodes (fun m => m.lru.all fun e =>
      decide (e.last_used ≤ T) && decide (e.eid < c.nextEid)) c.tree.root &&
   (c.keyNodes.all (fun kv =>
      match c.tree.findPointQ kv.2 with
      | some n => (dictGet n.data kv.1).isSome || decide (n.expiry < T)
      | none => decide (kv.2.1 < T)) &&
    ((oNodes c.tree.root).all (fun m => m.data.all fun ke =>
        dictGet c.keyNodes ke.1 == some (m.expiry, m.priority)) &&
     nodupKeys c.keyNodes)))

/-! Structural lemmas: accessors, slot updates, traversal decompositions. -/

namespace Node

@[simp] theorem expiry_setQuad (n : Node) (i : QI) (x : Option Node) :
    (n.setQuad i x).expiry = n.expiry := by
  cases n <;> cases i <;> rfl

@[simp] theorem priority_setQuad (n : Node) (i : QI) (x : Option Node) :
    (n.setQuad i x).priority = n.priority := by
  cases n <;> cases i <;> rfl

@[simp] theorem data_setQuad (n : Node) (i : QI) (x : Option Node) :
    (n.setQuad i x).data = n.data := by
  cases n <;> cases i <;> rfl

@[simp] theorem lru_setQuad (n : Node) (i : QI) (x : Option Node) :
    (n.setQuad i x).lru = n.lru := by
  cases n <;> cases i <;> rfl

@[simp] theorem getQuad_setQuad_self (n : Node) (i : QI) (x : Option Node) :
    (n.setQuad i x).getQuad i = x := by
  cases n <;> cases i <;> rfl

theorem getQuad_setQuad_ne (n : Node) {i j : QI} (x : Option Node) (h : j ≠ i) :
    (n.setQuad i x).getQuad j = n.getQuad j := by
  cases n <;> cases i <;> cases j <;> first | rfl | exact absurd rfl h

@[simp] theorem expiry_withDataLru (n : Node) (d : List (Nat × Entry)) (l : List Entry) :
    (n.withDataLru d l).expiry = n.expiry := by cases n <;> rfl

@[simp] theorem priority_withDataLru (n : Node) (d : List (Nat × Entry)) (l : List Entry) :
    (n.withDataLru d l).priority = n.priority := by cases n <;> rfl

@[simp] theorem data_withDataLru (n : Node) (d : List (Nat × Entry)) (l : List Entry) :
    (n.withDataLru d l).data = d := by cases n <;> rfl

@[simp] theorem lru_withDataLru (n : Node) (d : List (Nat × Entry)) (l : List Entry) :
    (n.withDataLru d l).lru = l := by cases n <;> rfl

@[simp] theorem getQuad_withDataLru (n : Node) (d : List (Nat × Entry)) (l : List Entry)
    (i : QI) : (n.withDataLru d l).getQuad i = n.getQuad i := by
  cases n <;> cases i <;> rfl

@[simp] theorem expiry_add_entry (n : Node) (k v : Nat) (now : Int) (eid : Nat) :
    (n.add_entry k v now eid).expiry = n.expiry := by
  cases n <;> rfl

@[simp] theorem priority_add_entry (n : Node) (k v : Nat) (now : Int) (eid : Nat) :
    (n.add_entry k v now eid).priority = n.priority := by
  cases n <;> rfl

@[simp] theorem getQuad_add_entry (n : Node) (k v : Nat) (now : Int) (eid : Nat) (i : QI) :
    (n.add_entry k v now eid).getQuad i = n.getQuad i := by
  cases n <;> cases i <;> rfl

@[simp] theorem data_add_entry (n : Node) (k v : Nat) (now : Int) (eid : Nat) :
    (n.add_entry k v now eid).data = dictSet n.data k ⟨now, k, v, eid⟩ := by
  cases n <;> rfl

@[simp] theorem lru_add_entry (n : Node) (k v : Nat) (now : Int) (eid : Nat) :
    (n.add_entry k v now eid).lru = n.lru ++ [⟨now, k, v, eid⟩] := by
  cases n <;> rfl

end Node

theorem osize_some (n : Node) :
    osize (some n) = 1 + osize (n.getQuad .one) + osize (n.getQuad .two) +
      osize (n.getQuad .three) + osize (n.getQuad .four) := by
  cases n
  simp [osize, Node.getQuad]

theorem oPoints_some (n : Node) :
    oPoints (some n) = (n.expiry, n.priority) ::
      (oPoints (n.getQuad .one) ++ (oPoints (n.getQuad .two) ++
        (oPoints (n.getQuad .three) ++ oPoints (n.getQuad .four)))) := by
  cases n
  simp [oPoints, Node.getQuad, Node.expiry, Node.priority]

theorem oEntries_some (n : Node) :
    oEntries (some n) = n.lru ++ (oEntries (n.getQuad .one) ++
      (oEntries (n.getQuad .two) ++ (oEntries (n.getQuad .three) ++
        oEntries (n.getQuad .four)))) := by
  cases n
  simp [oEntries, Node.getQuad, Node.lru]

theorem oNodes_some (n : Node) :
    oNodes (some n) = n :: (oNodes (n.getQuad .one) ++ (oNodes (n.getQuad .two) ++
      (oNodes (n.getQuad .three) ++ oNodes (n.getQuad .four)))) := by
  cases n
  simp [oNodes, Node.getQuad]

theorem oAllNodes_some (f : Node → Bool) (n : Node) :
    oAllNodes f (some n) = (f n && (oAllNodes f (n.getQuad .one) &&
      (oAllNodes f (n.getQuad .two) && (oAllNodes f (n.getQuad .three) &&
        oAllNodes f (n.getQuad .four))))) := by
  cases n
  simp [oAllNodes, Node.getQuad]

theorem oRegionWF_some (n : Node) :
    oRegionWF (some n) =
      (((oPoints (n.getQuad .one)).all (inRegion n.expiry n.priority .one) &&
        (oPoints (n.getQuad .two)).all (inRegion n.expiry n.priority .two)) &&
       ((oPoints (n.getQuad .three)).all (inRegion n.expiry n.priority .three) &&
        (oPoints (n.getQuad .four)).all (inRegion n.expiry n.priority .four)) &&
       ((oRegionWF (n.getQuad .one) && oRegionWF (n.getQuad .two)) &&
        (oRegionWF (n.getQuad .three) && oRegionWF (n.getQuad .four)))) := by
  cases n
  simp [oRegionWF, Node.getQuad, Node.expiry, Node.priority]

theorem oQuadInv_some (n : Node) :
    oQuadInv (some n) =
      (((n.getQuad .one).all (fun m => inRegion n.expiry n.priority .one (m.expiry, m.priority)) &&
        (n.getQuad .two).all (fun m => inRegion n.expiry n.priority .two (m.expiry, m.priority))) &&
       ((n.getQuad .three).all (fun m => inRegion n.expiry n.priority .three (m.expiry, m.priority)) &&
        (n.getQuad .four).all (fun m => inRegion n.expiry n.priority .four (m.expiry, m.priority))) &&
       ((oQuadInv (n.getQuad .one) && oQuadInv (n.getQuad .two)) &&
        (oQuadInv (n.getQuad .three) && oQuadInv (n.getQuad .four)))) := by
  cases n
  simp [oQuadInv, Node.getQuad, Node.expiry, Node.priority]

/-- The consistency check reads only the `data` and `lru` fields. -/
theorem consistB_congr {m m' : Node} (hd : m.data = m'.data) (hl : m.lru = m'.lru) :
    m.consistB = m'.consistB := by
  simp [Node.consistB, hd, hl]

/-- Occurrence count in a list (self-contained to keep one decidable-equality
instance throughout the development). -/
def cnt {α : Type} [DecidableEq α] (a : α) : List α → Nat
  | [] => 0
  | x :: t => (if x = a then 1 else 0) + cnt a t

@[simp] theorem cnt_nil {α : Type} [DecidableEq α] (a : α) : cnt a [] = 0 := rfl

@[simp] theorem cnt_cons {α : Type} [DecidableEq α] (a x : α) (t : List α) :
    cnt a (x :: t) = (if x = a then 1 else 0) + cnt a t := rfl

@[simp] theorem cnt_append {α : Type} [DecidableEq α] (a : α) (l1 l2 : List α) :
    cnt a (l1 ++ l2) = cnt a l1 + cnt a l2 := by
  induction l1 with
  | nil => simp
  | cons x t ih => simp [ih]; omega

theorem cnt_pos_iff_mem {α : Type} [DecidableEq α] {a : α} {l : List α} :
    0 < cnt a l ↔ a ∈ l := by
  induction l with
  | nil => simp
  | cons x t ih =>
    by_cases hx : x = a
    · subst hx; simp
    · simp [hx, ih, Ne.symm hx]

theorem cnt_le_all {α : Type} [DecidableEq α] {A' A : List α}
    (hc : ∀ a : α, cnt a A' ≤ cnt a A) {f : α → Bool} (hA : A.all f = true) :
    A'.all f = true := by
  simp only [List.all_eq_true] at hA ⊢
  intro a ha
  have h1 : 0 < cnt a A' := cnt_pos_iff_mem.mpr ha
  have h2 : 0 < cnt a A := lt_of_lt_of_le h1 (hc a)
  exact hA a (cnt_pos_iff_mem.mp h2)

theorem nodupPoints_iff {l : List (Int × Int)} : nodupPoints l = true ↔ l.Nodup := by
  induction l with
  | nil => simp [nodupPoints]
  | cons pt rest ih =>
    simp only [nodupPoints, Bool.and_eq_true, Bool.not_eq_true', List.any_eq_false,
      beq_iff_eq, List.nodup_cons, ih]
    constructor
    · rintro ⟨h1, h2⟩
      exact ⟨fun hmem => h1 pt hmem rfl, h2⟩
    · rintro ⟨h1, h2⟩
      exact ⟨fun x hx heq => h1 (heq ▸ hx), h2⟩

theorem nodupPoints_cnt {l : List (Int × Int)} :
    nodupPoints l = true ↔ ∀ pt, cnt pt l ≤ 1 := by
  rw [nodupPoints_iff]
  induction l with
  | nil => simp
  | cons x t ih =>
    rw [List.nodup_cons, ih]
    constructor
    · rintro ⟨hx, ht⟩ pt
      by_cases hpt : x = pt
      · subst hpt
        have : cnt x t = 0 := by
          by_contra hcon
          exact hx (cnt_pos_iff_mem.mp (by omega))
        simp [this]
      · simp [hpt]
        exact ht pt
    · intro h
      constructor
      · intro hmem
        have h1 : 0 < cnt x t := cnt_pos_iff_mem.mpr hmem
        have h2 := h x
        simp at h2
        omega
      · intro pt
        have h2 := h pt
        by_cases hpt : x = pt <;> simp [hpt] at h2 <;> omega

theorem cnt_le_nodupPoints {A' A : List (Int × Int)}
    (hc : ∀ pt, cnt pt A' ≤ cnt pt A) (hA : nodupPoints A = true) :
    nodupPoints A' = true := by
  rw [nodupPoints_cnt] at hA ⊢
  intro pt
  exact le_trans (hc pt) (hA pt)

theorem osize_setQuad (n : Node) (i : QI) (x : Option Node) :
    osize (some (n.setQuad i x)) + osize (n.getQuad i) = osize (some n) + osize x := by
  cases n <;> cases i <;> simp [Node.setQuad, Node.getQuad, osize] <;> omega

theorem oPoints_count_setQuad (n : Node) (i : QI) (x : Option Node) (pt : Int × Int) :
    cnt pt (oPoints (some (n.setQuad i x))) + cnt pt (oPoints (n.getQuad i)) =
      cnt pt (oPoints (some n)) + cnt pt (oPoints x) := by
  cases n <;> cases i <;>
    simp [Node.setQuad, Node.getQuad, oPoints] <;>
    omega

theorem oEntryCount_setQuad (n : Node) (i : QI) (x : Option Node) :
    oEntryCount (some (n.setQuad i x)) + oEntryCount (n.getQuad i) =
      oEntryCount (some n) + oEntryCount x := by
  cases n <;> cases i <;>
    simp [Node.setQuad, Node.getQuad, oEntries, oEntryCount] <;> omega

theorem oEntries_setQuad_sublist (n : Node) (i : QI) {x : Option Node}
    (h : (oEntries x).Sublist (oEntries (n.getQuad i))) :
    (oEntries (some (n.setQuad i x))).Sublist (oEntries (some n)) := by
  cases n <;> cases i <;> simp only [Node.setQuad, Node.getQuad, oEntries] at h ⊢
  · exact (List.Sublist.refl _).append (h.append (List.Sublist.refl _))
  · exact (List.Sublist.refl _).append
      ((List.Sublist.refl _).append (h.append (List.Sublist.refl _)))
  · exact (List.Sublist.refl _).append ((List.Sublist.refl _).append
      ((List.Sublist.refl _).append (h.append (List.Sublist.refl _))))
  · exact (List.Sublist.refl _).append ((List.Sublist.refl _).append
      ((List.Sublist.refl _).append ((List.Sublist.refl _).append h)))

theorem oNodes_setQuad_mem (n : Node) (i : QI) (x : Option Node) :
    ∀ m ∈ oNodes (some (n.setQuad i x)),
      m = n.setQuad i x ∨ m ∈ oNodes x ∨ m ∈ oNodes (some n) := by
  intro m hm
  cases n <;> cases i <;>
    (simp only [Node.setQuad, Node.getQuad, oNodes, List.mem_cons, List.mem_append] at hm ⊢ <;>
     tauto)

theorem oRegionWF_setQuad {n : Node} (i : QI) {x : Option Node}
    (hn : oRegionWF (some n) = true)
    (hx : (oPoints x).all (inRegion n.expiry n.priority i) = true)
    (hwx : oRegionWF x = true) :
    oRegionWF (some (n.setQuad i x)) = true := by
  cases n <;> cases i <;>
    simp_all [oRegionWF, Node.setQuad, Node.getQuad, Node.expiry, Node.priority]

theorem oAllNodes_setQuad {f : Node → Bool} {n : Node} (i : QI) {x : Option Node}
    (hn : oAllNodes f (some n) = true) (hx : oAllNodes f x = true)
    (hf : f (n.setQuad i x) = f n) :
    oAllNodes f (some (n.setQuad i x)) = true := by
  cases n <;> cases i <;>
    simp_all [oAllNodes, Node.setQuad, Node.getQuad]

theorem oAllNodes_self {f : Node → Bool} {n : Node} (h : oAllNodes f (some n) = true) :
    f n = true := by
  rw [oAllNodes_some] at h
  simp at h
  exact h.1

theorem oAllNodes_quad {f : Node → Bool} {n : Node} (i : QI)
    (h : oAllNodes f (some n) = true) :
    oAllNodes f (n.getQuad i) = true := by
  rw [oAllNodes_some] at h
  simp at h
  cases i <;> tauto

theorem oRegionWF_quad {n : Node} (i : QI) (h : oRegionWF (some n) = true) :
    oRegionWF (n.getQuad i) = true := by
  rw [oRegionWF_some] at h
  simp at h
  cases i <;> tauto

theorem oRegionWF_quad_points {n : Node} (i : QI) (h : oRegionWF (some n) = true) :
    (oPoints (n.getQuad i)).all (inRegion n.expiry n.priority i) = true := by
  rw [oRegionWF_some] at h
  simp at h
  cases i <;> simp [List.all_eq_true] <;> tauto

theorem oPoints_eq_map : ∀ fuel (o : Option Node), osize o ≤ fuel →
    oPoints o = (oNodes o).map (fun m => (m.expiry, m.priority)) := by
  intro fuel
  induction fuel with
  | zero =>
    intro o ho
    cases o with
    | none => simp [oPoints, oNodes]
    | some n => rw [osize_some] at ho; omega
  | succ f ih =>
    intro o ho
    cases o with
    | none => simp [oPoints, oNodes]
    | some n =>
      rw [osize_some] at ho
      rw [oPoints_some, oNodes_some]
      simp only [List.map_cons, List.map_append]
      rw [ih (n.getQuad .one) (by omega), ih (n.getQuad .two) (by omega),
        ih (n.getQuad .three) (by omega), ih (n.getQuad .four) (by omega)]

theorem oEntries_eq_bind : ∀ fuel (o : Option Node), osize o ≤ fuel →
    oEntries o = (oNodes o).bind Node.lru := by
  intro fuel
  induction fuel with
  | zero =>
    intro o ho
    cases o with
    | none => simp [oEntries, oNodes]
    | some n => rw [osize_some] at ho; omega
  | succ f ih =>
    intro o ho
    cases o with
    | none => simp [oEntries, oNodes]
    | some n =>
      rw [osize_some] at ho
      rw [oEntries_some, oNodes_some]
      simp only [List.cons_bind, List.append_bind]
      rw [ih (n.getQuad .one) (by omega), ih (n.getQuad .two) (by omega),
        ih (n.getQuad .three) (by omega), ih (n.getQuad .four) (by omega)]

theorem oAllNodes_iff_mem (f : Node → Bool) : ∀ fuel (o : Option Node), osize o ≤ fuel →
    (oAllNodes f o = true ↔ ∀ m ∈ oNodes o, f m = true) := by
  intro fuel
  induction fuel with
  | zero =>
    intro o ho
    cases o with
    | none => simp [oAllNodes, oNodes]
    | some n => rw [osize_some] at ho; omega
  | succ f' ih =>
    intro o ho
    cases o with
    | none => simp [oAllNodes, oNodes]
    | some n =>
      rw [osize_some] at ho
      rw [oAllNodes_some, oNodes_some]
      simp only [Bool.and_eq_true, List.mem_cons, List.mem_append]
      rw [ih (n.getQuad .one) (by omega), ih (n.getQuad .two) (by omega),
        ih (n.getQuad .three) (by omega), ih (n.getQuad .four) (by omega)]
      constructor
      · rintro ⟨h0, h1, h2, h3, h4⟩ m hm
        rcases hm with hm | hm | hm | hm | hm
        · exact hm ▸ h0
        · exact h1 m hm
        · exact h2 m hm
        · exact h3 m hm
        · exact h4 m hm
      · intro h
        exact ⟨h n (Or.inl rfl),
          fun m hm => h m (Or.inr (Or.inl hm)),
          fun m hm => h m (Or.inr (Or.inr (Or.inl hm))),
          fun m hm => h m (Or.inr (Or.inr (Or.inr (Or.inl hm)))),
          fun m hm => h m (Or.inr (Or.inr (Or.inr (Or.inr hm))))⟩

/-- `oAllNodes` without the fuel bookkeeping. -/
theorem oAllNodes_mem {f : Node → Bool} {o : Option Node} :
    oAllNodes f o = true ↔ ∀ m ∈ oNodes o, f m = true :=
  oAllNodes_iff_mem f (osize o) o (le_refl _)

theorem oPoints_map {o : Option Node} :
    oPoints o = (oNodes o).map (fun m => (m.expiry, m.priority)) :=
  oPoints_eq_map (osize o) o (le_refl _)

theorem oEntries_bind {o : Option Node} :
    oEntries o = (oNodes o).bind Node.lru :=
  oEntries_eq_bind (osize o) o (le_refl _)

theorem setQuad_setQuad (n : Node) (i : QI) (x y : Option Node) :
    (n.setQuad i x).setQuad i y = n.setQuad i y := by
  cases n <;> cases i <;> rfl

theorem setQuad_getQuad_self (n : Node) (i : QI) :
    n.setQuad i (n.getQuad i) = n := by
  cases n <;> cases i <;> rfl

theorem osize_quad_lt (n : Node) (i : QI) :
    osize (n.getQuad i) + 1 ≤ osize (some n) := by
  rw [osize_some]
  cases i <;> omega

theorem oPoints_count_quad_le (n : Node) (i : QI) (pt : Int × Int) :
    cnt pt (oPoints (n.getQuad i)) ≤ cnt pt (oPoints (some n)) := by
  rw [oPoints_some]
  simp only [cnt_cons, cnt_append]
  cases i <;> omega

theorem oNodes_quad_sub (n : Node) (i : QI) {m : Node} (h : m ∈ oNodes (n.getQuad i)) :
    m ∈ oNodes (some n) := by
  rw [oNodes_some]
  simp only [List.mem_cons, List.mem_append]
  cases i <;> tauto

theorem oPoints_quad_sub (n : Node) (i : QI) {pt : Int × Int}
    (h : pt ∈ oPoints (n.getQuad i)) : pt ∈ oPoints (some n) := by
  rw [oPoints_some]
  simp only [List.mem_cons, List.mem_append]
  cases i <;> tauto

theorem mem_oPoints_of_mem_oNodes {o : Option Node} {m : Node} (h : m ∈ oNodes o) :
    (m.expiry, m.priority) ∈ oPoints o := by
  rw [oPoints_map]
  exact List.mem_map_of_mem _ h

theorem self_mem_oNodes (n : Node) : n ∈ oNodes (some n) := by
  rw [oNodes_some]; exact List.mem_cons_self _ _

theorem self_mem_oPoints (n : Node) : (n.expiry, n.priority) ∈ oPoints (some n) := by
  rw [oPoints_some]; exact List.mem_cons_self _ _

/-- The region of a quadrant determines the routing index: a point inside
region `j` of `(e0, p0)` is routed to slot `j` by the comparison pair
`(expiry <= e0, priority < p0)`. -/
theorem region_routes {e0 p0 : Int} {j : QI} {pt : Int × Int}
    (h : inRegion e0 p0 j pt = true) :
    QI.ofBools (decide (pt.1 ≤ e0)) (decide (pt.2 < p0)) = j := by
  cases j <;>
    simp only [inRegion, Bool.and_eq_true, decide_eq_true_eq] at h <;>
    obtain ⟨h1, h2⟩ := h <;>
    simp [QI.ofBools, h1, h2, not_le.mpr, not_lt.mpr]

theorem quadCount_zero {n : Node} (h : n.quadCount = 0) :
    ∀ i, n.getQuad i = none := by
  intro i
  unfold Node.quadCount at h
  cases h1 : n.getQuad .one <;> cases h2 : n.getQuad .two <;>
    cases h3 : n.getQuad .three <;> cases h4 : n.getQuad .four <;>
    simp [h1, h2, h3, h4] at h ⊢ <;> cases i <;> simp [h1, h2, h3, h4]

theorem quadCount_one {n : Node} (h : n.quadCount = 1) :
    ∃ i c, n.onlyQuad = some (i, c) ∧ n.getQuad i = some c ∧
      ∀ j, j ≠ i → n.getQuad j = none := by
  unfold Node.quadCount at h
  unfold Node.onlyQuad
  cases h1 : n.getQuad .one <;> cases h2 : n.getQuad .two <;>
    cases h3 : n.getQuad .three <;> cases h4 : n.getQuad .four <;>
    simp [h1, h2, h3, h4] at h ⊢
  · exact ⟨.four, _, ⟨rfl, rfl⟩, h4, fun j hj => by cases j <;> simp_all⟩
  · exact ⟨.three, _, ⟨rfl, rfl⟩, h3, fun j hj => by cases j <;> simp_all⟩
  · exact ⟨.two, _, ⟨rfl, rfl⟩, h2, fun j hj => by cases j <;> simp_all⟩
  · exact ⟨.one, _, ⟨rfl, rfl⟩, h1, fun j hj => by cases j <;> simp_all⟩

/-- The subtree a parent sees in place of a child after applying the
child's `CleanOutcome` (on region-invariant trees). -/
def outOpt : CleanOutcome → Option Node
  | .keep m => some m
  | .deleteMe _ => none
  | .promote _ c => some c

/-- The node value handed back to the parent (the mutated child itself, or
the promotion remnant) for the parent's slot computations. -/
def outSelf : CleanOutcome → Node
  | .keep m => m
  | .deleteMe f => f
  | .promote rem _ => rem

/-- The node handed back to the parent for slot computation keeps the
child's point. -/
def outShape (c : Node) (out : CleanOutcome) : Prop :=
  ((outSelf out).expiry, (outSelf out).priority) = (c.expiry, c.priority)

/-- What `Node.clean` does, on any node: the outcome keeps the node's
point, never grows the tree, preserves the entry list exactly, preserves
region well-formedness and node predicates, keeps only nodes that were
already present, and removes (point-wise) at most the node itself, and only
when it is empty. -/
theorem clean_spec (p : Node) (hwf : oRegionWF (some p) = true) :
    outShape p p.clean ∧
    osize (outOpt p.clean) ≤ osize (some p) ∧
    (∀ pt, cnt pt (oPoints (outOpt p.clean)) ≤ cnt pt (oPoints (some p))) ∧
    oRegionWF (outOpt p.clean) = true ∧
    oEntries (outOpt p.clean) = oEntries (some p) ∧
    (∀ f : Node → Bool, oAllNodes f (some p) = true → oAllNodes f (outOpt p.clean) = true) ∧
    (∀ m ∈ oNodes (outOpt p.clean), m ∈ oNodes (some p)) ∧
    (∀ m0 ∈ oNodes (some p), (m0.expiry, m0.priority) ∉ oPoints (outOpt p.clean) →
      m0 = p ∧ p.empty = true) := by
  by_cases hemp : p.empty = true
  · by_cases h0 : p.quadCount = 0
    · have hcl : p.clean = .deleteMe p := by
        unfold Node.clean; rw [if_pos hemp, if_pos h0]
      rw [hcl]
      simp only [outOpt]
      have hq := quadCount_zero h0
      have hlru : p.lru = [] := by
        simpa [Node.empty, List.isEmpty_iff] using hemp
      have hentnil : oEntries (some p) = [] := by
        rw [oEntries_some, hq .one, hq .two, hq .three, hq .four, hlru]
        simp [oEntries]
      have hnodes : oNodes (some p) = [p] := by
        rw [oNodes_some, hq .one, hq .two, hq .three, hq .four]
        simp [oNodes]
      refine ⟨by simp [outShape, outSelf], by simp [osize, osize_some], ?_, by simp [oRegionWF], ?_, ?_, ?_, ?_⟩
      · intro pt; simp [oPoints]
      · simp [oEntries, hentnil]
      · intro f _; simp [oAllNodes]
      · intro m hm; simp [oNodes] at hm
      · intro m0 hm0 _
        rw [hnodes] at hm0
        simp at hm0
        exact ⟨hm0, hemp⟩
    · by_cases h1 : p.quadCount = 1
      · obtain ⟨i, c, hoq, hgc, hothers⟩ := quadCount_one h1
        have hcl : p.clean = .promote (p.setQuad i none) c := by
          unfold Node.clean; rw [if_pos hemp, if_neg h0, if_pos h1, hoq]
        rw [hcl]
        simp only [outOpt]
        have hlru : p.lru = [] := by
          simpa [Node.empty, List.isEmpty_iff] using hemp
        have hpts_sub : ∀ pt, cnt pt (oPoints (some c)) ≤ cnt pt (oPoints (some p)) := by
          intro pt
          have h := oPoints_count_quad_le p i pt
          rw [hgc] at h
          exact h
        have hentries : oEntries (some p) = oEntries (some c) := by
          rw [oEntries_some, hlru]
          have e1 : ∀ j, j ≠ i → oEntries (p.getQuad j) = [] := by
            intro j hj; rw [hothers j hj]; simp [oEntries]
          cases i
          · rw [hgc, e1 .two (by decide), e1 .three (by decide), e1 .four (by decide)]
            simp
          · rw [hgc, e1 .one (by decide), e1 .three (by decide), e1 .four (by decide)]
            simp
          · rw [hgc, e1 .one (by decide), e1 .two (by decide), e1 .four (by decide)]
            simp
          · rw [hgc, e1 .one (by decide), e1 .two (by decide), e1 .three (by decide)]
            simp
        refine ⟨by simp [outShape, outSelf], ?_, hpts_sub, ?_, hentries.symm, ?_, ?_, ?_⟩
        · have h := osize_quad_lt p i
          rw [hgc] at h
          omega
        · have h := oRegionWF_quad i hwf
          rw [hgc] at h
          exact h
        · intro f hf
          have h := @oAllNodes_quad f _ i hf
          rw [hgc] at h
          exact h
        · intro m hm
          refine oNodes_quad_sub p i ?_
          rw [hgc]
          exact hm
        · intro m0 hm0 hnp
          rw [oNodes_some] at hm0
          simp only [List.mem_cons, List.mem_append] at hm0
          have hcsub : ∀ j, m0 ∈ oNodes (p.getQuad j) → False := by
            intro j hmj
            by_cases hji : j = i
            · subst hji
              rw [hgc] at hmj
              exact hnp (mem_oPoints_of_mem_oNodes hmj)
            · rw [hothers j hji] at hmj
              simp [oNodes] at hmj
          rcases hm0 with hm0 | hm0 | hm0 | hm0 | hm0
          · exact ⟨hm0, hemp⟩
          · exact absurd hm0 (hcsub .one)
          · exact absurd hm0 (hcsub .two)
          · exact absurd hm0 (hcsub .three)
          · exact absurd hm0 (hcsub .four)
      · have hcl : p.clean = .keep p := by
          unfold Node.clean; rw [if_pos hemp, if_neg h0, if_neg h1]
        rw [hcl]
        simp only [outOpt]
        refine ⟨by simp [outShape, outSelf], le_refl _, fun pt => le_refl _, hwf, by trivial,
          fun f hf => hf, fun m hm => hm, ?_⟩
        exact fun m0 hm0 hnp => (hnp (mem_oPoints_of_mem_oNodes hm0)).elim
  · have hcl : p.clean = .keep p := by
      unfold Node.clean; rw [if_neg hemp]
    rw [hcl]
    simp only [outOpt]
    refine ⟨by simp [outShape, outSelf], le_refl _, fun pt => le_refl _, hwf, by trivial,
      fun f hf => hf, fun m hm => hm, ?_⟩
    exact fun m0 hm0 hnp => (hnp (mem_oPoints_of_mem_oNodes hm0)).elim

/-- On a region-invariant tree, applying a child's outcome is exactly a
slot update: the `quadrant_index` computations of `Node.delete` and
`Node.replace` land on the child's own slot, and the `del` cannot raise. -/
theorem applyOutcome_spec (p : Node) (i : QI) (c : Node) (out : CleanOutcome)
    (hq : p.getQuad i = some c)
    (hreg : (oPoints (some c)).all (inRegion p.expiry p.priority i) = true)
    (hshape : outShape c out)
    (hcounts : ∀ pt, cnt pt (oPoints (outOpt out)) ≤ cnt pt (oPoints (some c))) :
    applyOutcome p i out = .ok (p.setQuad i (outOpt out)) := by
  have hcreg : inRegion p.expiry p.priority i (c.expiry, c.priority) = true := by
    rw [List.all_eq_true] at hreg
    exact hreg _ (self_mem_oPoints c)
  cases out with
  | keep m => rfl
  | deleteMe f =>
    have hfpt : (f.expiry, f.priority) = (c.expiry, c.priority) := hshape
    have hroute : (p.setQuad i (some f)).quadrant_index f = i := by
      unfold Node.quadrant_index
      simp only [Node.expiry_setQuad, Node.priority_setQuad]
      have : inRegion p.expiry p.priority i (f.expiry, f.priority) = true := by
        rw [hfpt]; exact hcreg
      exact region_routes this
    simp only [applyOutcome]
    rw [hroute]
    simp only [Node.getQuad_setQuad_self]
    rw [setQuad_setQuad]
    rfl
  | promote rem pc =>
    have hpcmem : (pc.expiry, pc.priority) ∈ oPoints (some c) := by
      have h1 : 0 < cnt (pc.expiry, pc.priority) (oPoints (some pc)) :=
        cnt_pos_iff_mem.mpr (self_mem_oPoints pc)
      have h2 := hcounts (pc.expiry, pc.priority)
      simp only [outOpt] at h2
      exact cnt_pos_iff_mem.mp (lt_of_lt_of_le h1 h2)
    have hroute : (p.setQuad i (some rem)).quadrant_index pc = i := by
      unfold Node.quadrant_index
      simp only [Node.expiry_setQuad, Node.priority_setQuad]
      rw [List.all_eq_true] at hreg
      exact region_routes (hreg _ hpcmem)
    simp only [applyOutcome]
    rw [hroute, setQuad_setQuad]
    rfl

@[simp] theorem oRegionWF_none : oRegionWF none = true := by simp [oRegionWF]
@[simp] theorem oAllNodes_none (f : Node → Bool) : oAllNodes f none = true := by
  simp [oAllNodes]
@[simp] theorem oEntries_none : oEntries none = [] := by simp [oEntries]
@[simp] theorem oNodes_none : oNodes none = [] := by simp [oNodes]
@[simp] theorem oPoints_none : oPoints none = [] := by simp [oPoints]
@[simp] theorem osize_none : osize none = 0 := by simp [osize]

theorem oEntryCount_none : oEntryCount none = 0 := by simp [oEntryCount]

theorem mem_oNodes_size : ∀ fuel (o : Option Node), osize o ≤ fuel →
    ∀ m ∈ oNodes o, osize (some m) ≤ osize o := by
  intro fuel
  induction fuel with
  | zero =>
    intro o ho m hm
    cases o with
    | none => simp at hm
    | some n => rw [osize_some] at ho; omega
  | succ f ih =>
    intro o ho m hm
    cases o with
    | none => simp at hm
    | some n =>
      rw [oNodes_some] at hm
      simp only [List.mem_cons, List.mem_append] at hm
      have hq : ∀ i, osize (n.getQuad i) + 1 ≤ osize (some n) := osize_quad_lt n
      rcases hm with hm | hm | hm | hm | hm
      · subst hm; exact le_refl _
      · have := ih (n.getQuad .one) (by have := hq .one; omega) m hm
        have := hq .one; omega
      · have := ih (n.getQuad .two) (by have := hq .two; omega) m hm
        have := hq .two; omega
      · have := ih (n.getQuad .three) (by have := hq .three; omega) m hm
        have := hq .three; omega
      · have := ih (n.getQuad .four) (by have := hq .four; omega) m hm
        have := hq .four; omega

/-- A node with no entries anywhere, equivalently: `deep_empty` is exactly
"the subtree entry count is zero". -/
theorem deep_empty_iff (n : Node) :
    n.deep_empty = true ↔ oEntryCount (some n) = 0 := by
  unfold Node.deep_empty
  rw [oAllNodes_mem]
  unfold oEntryCount
  rw [oEntries_bind]
  simp only [List.length_eq_zero, List.eq_nil_iff_forall_not_mem, List.mem_bind]
  constructor
  · rintro h e ⟨m, hm, he⟩
    have := h m hm
    simp [Node.empty, List.isEmpty_iff] at this
    rw [this] at he
    simp at he
  · intro h m hm
    simp only [Node.empty, List.isEmpty_iff]
    rcases he : m.lru with _ | ⟨e, t⟩
    · rfl
    · exfalso
      exact h e ⟨m, hm, by rw [he]; exact List.mem_cons_self _ _⟩

/-- In a region-invariant tree, the nodes under a newer-expiry quadrant of
a non-expired node are themselves non-expired. -/
theorem noexp_of_region {n : Node} {now : Int} (i : QI)
    (hi : i = QI.three ∨ i = QI.four)
    (hreg : (oPoints (n.getQuad i)).all (inRegion n.expiry n.priority i) = true)
    (hexp : n.expired now = false) :
    oAllNodes (fun m => !(m.expired now) || m.empty) (n.getQuad i) = true := by
  rw [oAllNodes_mem]
  intro m hm
  have hpt : (m.expiry, m.priority) ∈ oPoints (n.getQuad i) :=
    mem_oPoints_of_mem_oNodes hm
  rw [List.all_eq_true] at hreg
  have hr := hreg _ hpt
  have hge : n.expiry < m.expiry := by
    rcases hi with hi | hi <;> subst hi <;>
      simp only [inRegion, Bool.and_eq_true, decide_eq_true_eq] at hr <;>
      exact hr.1
  have hne : ¬n.expiry < now := by simpa [Node.expired] using hexp
  have hme : ¬m.expiry < now := by omega
  simp [Node.expired, hme]

/-- Relation between an original subtree (`old`) and what stands in its
place after a pruning stage (`X`), with `bStep` the "any entry removed"
flag of the stage: the replacement is no bigger, all its points were
present before, it is region-well-formed, its entries are a sublist of the
old ones with `bStep` flagging a strict loss, every node of it corresponds
to an old node at the same point (with equal contents, or
cleared-because-expired), and any point that disappeared is either already
past `now` or carried an empty node. -/
structure PartOK (old X : Option Node) (now : Int) (bStep : Bool) : Prop where
  size_le : osize X ≤ osize old
  counts : ∀ pt, cnt pt (oPoints X) ≤ cnt pt (oPoints old)
  wf : oRegionWF X = true
  entries_sub : (oEntries X).Sublist (oEntries old)
  removed_iff : bStep = true ↔ oEntryCount X < oEntryCount old
  nodes_to : ∀ m ∈ oNodes X, ∃ m0 ∈ oNodes old,
      m0.expiry = m.expiry ∧ m0.priority = m.priority ∧
      ((m.data = m0.data ∧ m.lru = m0.lru) ∨
        (m.data = [] ∧ m.lru = [] ∧ m.expired now = true))
  vanish : ∀ pt ∈ oPoints old, pt ∉ oPoints X →
      pt.1 < now ∨ ∃ m0 ∈ oNodes old, (m0.expiry, m0.priority) = pt ∧ m0.empty = true

/-- `PartOK` plus: no expired node of the replacement retains entries (the
C1 postcondition for the stage's result). -/
structure SlotOK (old X : Option Node) (now : Int) (bStep : Bool)
    extends PartOK old X now bStep : Prop where
  noexp : oAllNodes (fun m => !(m.expired now) || m.empty) X = true

/-- The trivial slot relation: an untouched (or empty) slot. -/
theorem SlotOK.refl_none (now : Int) : SlotOK none none now false := by
  refine ⟨⟨le_refl _, fun pt => le_refl _, by simp, by simp, ?_, ?_, ?_⟩, by simp⟩
  · simp [oEntryCount_none]
  · intro m hm; simp at hm
  · intro pt hpt; simp at hpt

/-- Effect of replacing one quadrant slot by a `PartOK`-related subtree:
the whole node is `PartOK`-related to its original. -/
theorem setQuad_partOK (p : Node) (slot : QI) {X : Option Node} {now : Int} {b : Bool}
    (hs : PartOK (p.getQuad slot) X now b) (hwf : oRegionWF (some p) = true) :
    PartOK (some p) (some (p.setQuad slot X)) now b := by
  have hszq := osize_setQuad p slot X
  have hcnt := fun pt => oPoints_count_setQuad p slot X pt
  have hent := oEntryCount_setQuad p slot X
  refine ⟨by have := hs.size_le; omega, ?_, ?_, ?_, ?_, ?_, ?_⟩
  · intro pt
    have h1 := hs.counts pt
    have h2 := hcnt pt
    omega
  · refine oRegionWF_setQuad slot hwf ?_ hs.wf
    refine cnt_le_all (fun pt => hs.counts pt) ?_
    exact oRegionWF_quad_points slot hwf
  · exact oEntries_setQuad_sublist p slot hs.entries_sub
  · have hle : oEntryCount X ≤ oEntryCount (p.getQuad slot) :=
      hs.entries_sub.length_le
    have hiff := hs.removed_iff
    constructor
    · intro hb
      have := hiff.mp hb
      omega
    · intro hlt
      refine hiff.mpr ?_
      omega
  · intro m hm
    rcases oNodes_setQuad_mem p slot X m hm with hm | hm | hm
    · refine ⟨p, self_mem_oNodes p, ?_, ?_, Or.inl ⟨?_, ?_⟩⟩ <;> subst hm <;> simp
    · obtain ⟨m0, hm0, h⟩ := hs.nodes_to m hm
      exact ⟨m0, oNodes_quad_sub p slot hm0, h⟩
    · exact ⟨m, hm, rfl, rfl, Or.inl ⟨rfl, rfl⟩⟩
  · intro pt hpt hnp
    rw [oPoints_some] at hpt
    simp only [List.mem_cons, List.mem_append] at hpt
    have hptP : (p.expiry, p.priority) ∈ oPoints (some (p.setQuad slot X)) := by
      have h := self_mem_oPoints (p.setQuad slot X)
      simpa using h
    have hother : ∀ j, j ≠ slot → pt ∈ oPoints (p.getQuad j) → False := by
      intro j hj hmj
      refine hnp ?_
      have h2 : (p.setQuad slot X).getQuad j = p.getQuad j :=
        Node.getQuad_setQuad_ne p X hj
      refine oPoints_quad_sub (p.setQuad slot X) j ?_
      rw [h2]
      exact hmj
    have hslot : pt ∈ oPoints (p.getQuad slot) →
        pt.1 < now ∨ ∃ m0 ∈ oNodes (some p),
          (m0.expiry, m0.priority) = pt ∧ m0.empty = true := by
      intro hmj
      by_cases hx : pt ∈ oPoints X
      · exfalso
        refine hnp ?_
        refine oPoints_quad_sub (p.setQuad slot X) slot ?_
        rw [Node.getQuad_setQuad_self]
        exact hx
      · rcases hs.vanish pt hmj hx with h | ⟨m0, hm0, hmpt, hmemp⟩
        · exact Or.inl h
        · exact Or.inr ⟨m0, oNodes_quad_sub p slot hm0, hmpt, hmemp⟩
    rcases hpt with hpt | hpt | hpt | hpt | hpt
    · exfalso
      refine hnp ?_
      subst hpt
      exact hptP
    · by_cases h1 : QI.one = slot
      · exact hslot (h1 ▸ hpt)
      · exact (hother .one h1 hpt).elim
    · by_cases h1 : QI.two = slot
      · exact hslot (h1 ▸ hpt)
      · exact (hother .two h1 hpt).elim
    · by_cases h1 : QI.three = slot
      · exact hslot (h1 ▸ hpt)
      · exact (hother .three h1 hpt).elim
    · by_cases h1 : QI.four = slot
      · exact hslot (h1 ▸ hpt)
      · exact (hother .four h1 hpt).elim

/-- `PartOK` composes, OR-ing the removal flags. -/
theorem PartOK.comp {o1 o2 o3 : Option Node} {now : Int} {bA bB : Bool}
    (h1 : PartOK o1 o2 now bA) (h2 : PartOK o2 o3 now bB) :
    PartOK o1 o3 now (bA || bB) := by
  refine ⟨le_trans h2.size_le h1.size_le,
    fun pt => le_trans (h2.counts pt) (h1.counts pt), h2.wf,
    h2.entries_sub.trans h1.entries_sub, ?_, ?_, ?_⟩
  · have e32 := h2.entries_sub.length_le
    have e21 := h1.entries_sub.length_le
    have i1 := h1.removed_iff
    have i2 := h2.removed_iff
    unfold oEntryCount at *
    rw [Bool.or_eq_true]
    constructor
    · rintro (hb | hb)
      · have := i1.mp hb; omega
      · have := i2.mp hb; omega
    · intro hlt
      by_cases hA : bA = true
      · exact Or.inl hA
      · right
        refine i2.mpr ?_
        have : ¬((oEntries o2).length < (oEntries o1).length) := by
          intro hcon
          exact hA (i1.mpr hcon)
        omega
  · intro m hm
    obtain ⟨m1, hm1, he1, hp1, hc1⟩ := h2.nodes_to m hm
    obtain ⟨m0, hm0, he0, hp0, hc0⟩ := h1.nodes_to m1 hm1
    refine ⟨m0, hm0, he0.trans he1, hp0.trans hp1, ?_⟩
    rcases hc1 with ⟨hd, hl⟩ | hcl
    · rcases hc0 with ⟨hd0, hl0⟩ | ⟨hd0, hl0, hx0⟩
      · exact Or.inl ⟨hd.trans hd0, hl.trans hl0⟩
      · refine Or.inr ⟨hd.trans hd0, hl.trans hl0, ?_⟩
        simp only [Node.expired] at hx0 ⊢
        rw [← he1]
        exact hx0
    · exact Or.inr hcl
  · intro pt hpt1 hpt3
    by_cases hpt2 : pt ∈ oPoints o2
    · rcases h2.vanish pt hpt2 hpt3 with h | ⟨m1, hm1, hmp, hme⟩
      · exact Or.inl h
      · obtain ⟨m0, hm0, he0, hp0, hc0⟩ := h1.nodes_to m1 hm1
        rcases hc0 with ⟨hd0, hl0⟩ | ⟨_, hl0, hx0⟩
        · refine Or.inr ⟨m0, hm0, ?_, ?_⟩
          · rw [← hmp, he0, hp0]
          · simp only [Node.empty] at hme ⊢
            rw [← hl0]
            exact hme
        · left
          simp only [Node.expired, decide_eq_true_eq] at hx0
          have : m1.expiry = pt.1 := by rw [← hmp]
          omega
    · exact h1.vanish pt hpt1 hpt2

/-- The identity stage. -/
theorem PartOK.refl (o : Option Node) (now : Int) (hwf : oRegionWF o = true) :
    PartOK o o now false := by
  refine ⟨le_refl _, fun pt => le_refl _, hwf, List.Sublist.refl _, by simp, ?_, ?_⟩
  · intro m hm
    exact ⟨m, hm, rfl, rfl, Or.inl ⟨rfl, rfl⟩⟩
  · intro pt hpt hnp
    exact absurd hpt hnp

@[simp] theorem expiry_clear (n : Node) : n.clear_entries.expiry = n.expiry := by
  cases n <;> rfl

@[simp] theorem priority_clear (n : Node) : n.clear_entries.priority = n.priority := by
  cases n <;> rfl

@[simp] theorem data_clear (n : Node) : n.clear_entries.data = [] := by
  cases n <;> rfl

@[simp] theorem lru_clear (n : Node) : n.clear_entries.lru = [] := by
  cases n <;> rfl

@[simp] theorem getQuad_clear (n : Node) (i : QI) :
    n.clear_entries.getQuad i = n.getQuad i := by
  cases n <;> cases i <;> rfl

theorem osize_clear (n : Node) : osize (some n.clear_entries) = osize (some n) := by
  rw [osize_some, osize_some]
  simp

theorem oPoints_clear (n : Node) :
    oPoints (some n.clear_entries) = oPoints (some n) := by
  rw [oPoints_some, oPoints_some]
  simp

theorem oRegionWF_clear (n : Node) :
    oRegionWF (some n.clear_entries) = oRegionWF (some n) := by
  rw [oRegionWF_some, oRegionWF_some]
  simp

/-- The `clear_entries` stage on an expired node. -/
theorem clear_partOK (n : Node) {now : Int}
    (hwf : oRegionWF (some n) = true) (hexp : n.expired now = true) :
    PartOK (some n) (some n.clear_entries) now (!n.empty) := by
  refine ⟨by rw [osize_clear], fun pt => by rw [oPoints_clear], ?_, ?_, ?_, ?_, ?_⟩
  · rw [oRegionWF_clear]; exact hwf
  · rw [oEntries_some, oEntries_some]
    simp only [lru_clear, getQuad_clear, List.nil_append]
    exact List.sublist_append_right _ _
  · unfold oEntryCount
    rw [oEntries_some n.clear_entries, oEntries_some]
    simp only [lru_clear, getQuad_clear, List.nil_append, List.length_append]
    rcases hl : n.lru with _ | ⟨e, t⟩
    · simp [Node.empty, hl]
    · simp only [Node.empty, hl, List.isEmpty_cons, Bool.not_false, List.length_cons,
        true_iff]
      omega
  · intro m hm
    rw [oNodes_some] at hm
    simp only [List.mem_cons, List.mem_append, getQuad_clear] at hm
    rcases hm with hm | hm | hm | hm | hm
    · refine ⟨n, self_mem_oNodes n, by rw [hm]; simp, by rw [hm]; simp,
        Or.inr ⟨by rw [hm]; simp, by rw [hm]; simp, ?_⟩⟩
      rw [hm]
      simpa [Node.expired] using hexp
    · exact ⟨m, oNodes_quad_sub n .one hm, rfl, rfl, Or.inl ⟨rfl, rfl⟩⟩
    · exact ⟨m, oNodes_quad_sub n .two hm, rfl, rfl, Or.inl ⟨rfl, rfl⟩⟩
    · exact ⟨m, oNodes_quad_sub n .three hm, rfl, rfl, Or.inl ⟨rfl, rfl⟩⟩
    · exact ⟨m, oNodes_quad_sub n .four hm, rfl, rfl, Or.inl ⟨rfl, rfl⟩⟩
  · intro pt hpt hnp
    rw [oPoints_clear] at hnp
    exact absurd hpt hnp

/-- Detaching an older-or-equal-expiry quadrant of an expired node, with the
`deep_empty` flag of the source. -/
theorem detach_partOK (n : Node) (slot : QI) {now : Int}
    (hslot : slot = QI.one ∨ slot = QI.two)
    (hwf : oRegionWF (some n) = true) (hexp : n.expired now = true) :
    PartOK (n.getQuad slot) none now
      (match n.getQuad slot with | some c => !c.deep_empty | none => false) := by
  refine ⟨by simp, fun pt => by simp, by simp, by simp, ?_, ?_, ?_⟩
  · cases hq : n.getQuad slot with
    | none => simp [oEntryCount_none]
    | some c =>
      rw [oEntryCount_none]
      have hde := deep_empty_iff c
      constructor
      · intro hb
        simp only [Bool.not_eq_true'] at hb
        rcases Nat.eq_zero_or_pos (oEntryCount (some c)) with h0 | hpos
        · rw [hde.mpr h0] at hb
          simp at hb
        · exact hpos
      · intro hlt
        simp only [Bool.not_eq_true']
        by_contra hcon
        simp only [Bool.not_eq_false] at hcon
        rw [hde.mp hcon] at hlt
        omega
  · intro m hm; simp at hm
  · intro pt hpt _
    left
    have hreg := oRegionWF_quad_points slot hwf
    rw [List.all_eq_true] at hreg
    have hr := hreg pt hpt
    have hle : pt.1 ≤ n.expiry := by
      rcases hslot with h | h <;> subst h <;>
        simp only [inRegion, Bool.and_eq_true, decide_eq_true_eq] at hr <;>
        exact hr.1
    have : n.expiry < now := by simpa [Node.expired] using hexp
    omega

/-- The final `clean` of a prune stage, as a `PartOK` stage (it removes no
entries). -/
theorem clean_partOK (p : Node) {now : Int} (hwf : oRegionWF (some p) = true) :
    PartOK (some p) (outOpt p.clean) now false := by
  obtain ⟨hsh, hsz, hcnt, hwf', hent, hall, hnod, hvan⟩ := clean_spec p hwf
  refine ⟨hsz, hcnt, hwf', by rw [hent], ?_, ?_, ?_⟩
  · unfold oEntryCount
    rw [hent]
    simp
  · intro m hm
    exact ⟨m, hnod m hm, rfl, rfl, Or.inl ⟨rfl, rfl⟩⟩
  · intro pt hpt hnp
    rw [oPoints_map] at hpt
    obtain ⟨m', hm', hmeq⟩ := List.mem_map.mp hpt
    have hv := hvan m' hm' (by rw [hmeq]; exact hnp)
    refine Or.inr ⟨m', hm', hmeq, ?_⟩
    rw [hv.1]
    exact hv.2

/-- A single child step of `prune_expired` (either loop): on a
region-invariant parent, it succeeds and replaces the slot by a
`SlotOK`-related subtree, OR-ing the step's removal flag into the
accumulator. -/
theorem pruneChildAt_spec {fuel : Nat} {now : Int}
    (IH : ∀ c : Node, oRegionWF (some c) = true → osize (some c) ≤ fuel →
      ∃ b out, pruneEx fuel c now = .ok (b, out) ∧ outShape c out ∧
        SlotOK (some c) (outOpt out) now b)
    (p : Node) (slot : QI) (r : Bool)
    (hwf : oRegionWF (some p) = true)
    (hsz : osize (some p) ≤ fuel + 1) :
    ∃ (bStep : Bool) (X : Option Node),
      pruneChildAt (fun c => pruneEx fuel c now) p slot r =
        .ok (r || bStep, p.setQuad slot X) ∧
      SlotOK (p.getQuad slot) X now bStep := by
  cases hq : p.getQuad slot with
  | none =>
    refine ⟨false, none, ?_, hq ▸ SlotOK.refl_none now⟩
    have hpp : p.setQuad slot none = p := by
      have h := setQuad_getQuad_self p slot
      rw [hq] at h
      exact h
    simp only [pruneChildAt, hq, Bool.or_false, hpp]
  | some c =>
    have hcwf : oRegionWF (some c) = true := by
      have h := oRegionWF_quad slot hwf; rw [hq] at h; exact h
    have hcsz : osize (some c) ≤ fuel := by
      have h := osize_quad_lt p slot; rw [hq] at h; omega
    obtain ⟨b, out, heq, hshape, hok⟩ := IH c hcwf hcsz
    have happ : applyOutcome p slot out = .ok (p.setQuad slot (outOpt out)) := by
      refine applyOutcome_spec p slot c out hq ?_ hshape hok.counts
      have h := oRegionWF_quad_points slot hwf; rw [hq] at h; exact h
    refine ⟨b, outOpt out, ?_, hq ▸ hok⟩
    simp only [pruneChildAt, hq, heq, happ, bind, Except.bind, pure, Except.pure]

/-- The shared tail of `prune_expired` (the older-quadrant loop on slots ONE
and TWO followed by the cleaning rule), as step equations plus the combined
stage facts. -/
theorem pruneTailFacts {f : Nat} {now : Int}
    (IH : ∀ c : Node, oRegionWF (some c) = true → osize (some c) ≤ f →
      ∃ b out, pruneEx f c now = .ok (b, out) ∧ outShape c out ∧
        SlotOK (some c) (outOpt out) now b)
    (n1 : Node) (r1 : Bool)
    (hwf : oRegionWF (some n1) = true)
    (hsz : osize (some n1) ≤ f + 1)
    (hroot : (!(n1.expired now) || n1.empty) = true)
    (h3 : oAllNodes (fun m => !(m.expired now) || m.empty) (n1.getQuad .three) = true)
    (h4 : oAllNodes (fun m => !(m.expired now) || m.empty) (n1.getQuad .four) = true) :
    ∃ (b1 b2 : Bool) (X1 X2 : Option Node),
      pruneChildAt (fun c => pruneEx f c now) n1 .one r1 =
        .ok (r1 || b1, n1.setQuad .one X1) ∧
      pruneChildAt (fun c => pruneEx f c now) (n1.setQuad .one X1) .two (r1 || b1) =
        .ok ((r1 || b1) || b2, (n1.setQuad .one X1).setQuad .two X2) ∧
      outShape n1 ((n1.setQuad .one X1).setQuad .two X2).clean ∧
      SlotOK (some n1)
        (outOpt ((n1.setQuad .one X1).setQuad .two X2).clean) now (b1 || b2) := by
  obtain ⟨b1, X1, heq1, hok1⟩ := pruneChildAt_spec IH n1 .one r1 hwf hsz
  have part1 : PartOK (some n1) (some (n1.setQuad .one X1)) now b1 :=
    setQuad_partOK n1 .one hok1.toPartOK hwf
  have hwf1 : oRegionWF (some (n1.setQuad .one X1)) = true := part1.wf
  have hsz1 : osize (some (n1.setQuad .one X1)) ≤ f + 1 :=
    le_trans part1.size_le hsz
  obtain ⟨b2, X2, heq2, hok2⟩ :=
    pruneChildAt_spec IH (n1.setQuad .one X1) .two (r1 || b1) hwf1 hsz1
  have part2 : PartOK (some (n1.setQuad .one X1))
      (some ((n1.setQuad .one X1).setQuad .two X2)) now b2 :=
    setQuad_partOK (n1.setQuad .one X1) .two hok2.toPartOK hwf1
  have partT := part1.comp part2
  have hwf2 := part2.wf
  obtain ⟨hsh, hszc, hcntc, hwfc, hentc, hallc, hnodc, hvanc⟩ :=
    clean_spec ((n1.setQuad .one X1).setQuad .two X2) hwf2
  have partC := @clean_partOK ((n1.setQuad .one X1).setQuad .two X2) now hwf2
  have partF := partT.comp partC
  rw [Bool.or_false] at partF
  refine ⟨b1, b2, X1, X2, heq1, heq2, ?_, ⟨partF, ?_⟩⟩
  · unfold outShape at hsh ⊢
    rw [hsh]
    simp
  · refine hallc _ ?_
    rw [oAllNodes_some]
    have hg1 : ((n1.setQuad .one X1).setQuad .two X2).getQuad .one = X1 := by
      rw [Node.getQuad_setQuad_ne _ _ (by decide), Node.getQuad_setQuad_self]
    have hg2 : ((n1.setQuad .one X1).setQuad .two X2).getQuad .two = X2 := by
      rw [Node.getQuad_setQuad_self]
    have hg3 : ((n1.setQuad .one X1).setQuad .two X2).getQuad .three =
        n1.getQuad .three := by
      rw [Node.getQuad_setQuad_ne _ _ (by decide),
        Node.getQuad_setQuad_ne _ _ (by decide)]
    have hg4 : ((n1.setQuad .one X1).setQuad .two X2).getQuad .four =
        n1.getQuad .four := by
      rw [Node.getQuad_setQuad_ne _ _ (by decide),
        Node.getQuad_setQuad_ne _ _ (by decide)]
    rw [hg1, hg2, hg3, hg4]
    simp only [Bool.and_eq_true]
    refine ⟨?_, hok1.noexp, hok2.noexp, h3, h4⟩
    simpa [Node.expired, Node.empty] using hroot

/-- Main induction for `Node.prune_expired`: on a region-invariant subtree
with sufficient fuel, the prune succeeds, its outcome keeps the node's
point, and the result is a `SlotOK` pruning stage of the original (in
particular: no expired node of the result retains entries, and the returned
flag is set exactly when the stage strictly decreased the entry count). -/
theorem pruneEx_spec : ∀ (fuel : Nat) (n : Node) (now : Int),
    oRegionWF (some n) = true → osize (some n) ≤ fuel →
    ∃ b out, pruneEx fuel n now = .ok (b, out) ∧ outShape n out ∧
      SlotOK (some n) (outOpt out) now b := by
  intro fuel
  induction fuel with
  | zero =>
    intro n now _ hsz
    rw [osize_some] at hsz
    omega
  | succ f IH =>
    intro n now hwf hsz
    have IH' : ∀ c : Node, oRegionWF (some c) = true → osize (some c) ≤ f →
        ∃ b out, pruneEx f c now = .ok (b, out) ∧ outShape c out ∧
          SlotOK (some c) (outOpt out) now b := fun c h1 h2 => IH c now h1 h2
    by_cases hexp : n.expired now = true
    · -- the node itself has expired
      have hd1 := detach_partOK n .one (Or.inl rfl) hwf hexp
      have pD1 : PartOK (some n) (some (n.setQuad .one none)) now
          (match n.getQuad .one with | some c => !c.deep_empty | none => false) :=
        setQuad_partOK n .one hd1 hwf
      have hexpA : (n.setQuad .one none).expired now = true := by
        simpa [Node.expired] using hexp
      have hd2 := detach_partOK (n.setQuad .one none) .two (Or.inr rfl) pD1.wf hexpA
      have hg2 : (n.setQuad .one none).getQuad .two = n.getQuad .two :=
        Node.getQuad_setQuad_ne _ _ (by decide)
      rw [hg2] at hd2
      have pD2 : PartOK (some (n.setQuad .one none))
          (some ((n.setQuad .one none).setQuad .two none)) now
          (match n.getQuad .two with | some c => !c.deep_empty | none => false) :=
        setQuad_partOK (n.setQuad .one none) .two (hg2 ▸ hd2) pD1.wf
      have pD := pD1.comp pD2
      obtain ⟨b3, X3, heq3, hok3⟩ :=
        pruneChildAt_spec IH' ((n.setQuad .one none).setQuad .two none) .three
          ((!n.empty ||
            (match n.getQuad .one with | some c => !c.deep_empty | none => false)) ||
            (match n.getQuad .two with | some c => !c.deep_empty | none => false))
          pD.wf (le_trans pD.size_le hsz)
      have part3 := setQuad_partOK ((n.setQuad .one none).setQuad .two none) .three
        hok3.toPartOK pD.wf
      obtain ⟨b4, X4, heq4, hok4⟩ :=
        pruneChildAt_spec IH'
          (((n.setQuad .one none).setQuad .two none).setQuad .three X3) .four
          (((!n.empty ||
            (match n.getQuad .one with | some c => !c.deep_empty | none => false)) ||
            (match n.getQuad .two with | some c => !c.deep_empty | none => false)) ||
            b3)
          part3.wf (le_trans part3.size_le (le_trans pD.size_le hsz))
      have part4 := setQuad_partOK
        (((n.setQuad .one none).setQuad .two none).setQuad .three X3) .four
        hok4.toPartOK part3.wf
      have pS := (pD.comp part3).comp part4
      have hexp4 : ((((n.setQuad .one none).setQuad .two none).setQuad .three X3).setQuad
          .four X4).expired now = true := by
        simpa [Node.expired] using hexp
      have pCl := clear_partOK _ pS.wf hexp4
      have hL : ((((n.setQuad .one none).setQuad .two none).setQuad .three X3).setQuad
          .four X4).empty = n.empty := by
        simp [Node.empty]
      rw [hL] at pCl
      have pPre := pS.comp pCl
      have hwf1 := pPre.wf
      have hsz1 := le_trans pPre.size_le hsz
      have hroot1 : (!((((((n.setQuad .one none).setQuad .two none).setQuad .three
          X3).setQuad .four X4).clear_entries).expired now) ||
          (((((n.setQuad .one none).setQuad .two none).setQuad .three X3).setQuad
            .four X4).clear_entries).empty) = true := by
        simp [Node.empty]
      have hq3 : ((((((n.setQuad .one none).setQuad .two none).setQuad .three
          X3).setQuad .four X4).clear_entries).getQuad .three) = X3 := by
        rw [getQuad_clear, Node.getQuad_setQuad_ne _ _ (by decide),
          Node.getQuad_setQuad_self]
      have hq4 : ((((((n.setQuad .one none).setQuad .two none).setQuad .three
          X3).setQuad .four X4).clear_entries).getQuad .four) = X4 := by
        rw [getQuad_clear, Node.getQuad_setQuad_self]
      obtain ⟨b1', b2', X1', X2', heqT1, heqT2, hshapeT, hokT⟩ :=
        pruneTailFacts IH' _
          ((((!n.empty ||
            (match n.getQuad .one with | some c => !c.deep_empty | none => false)) ||
            (match n.getQuad .two with | some c => !c.deep_empty | none => false)) ||
            b3) || b4)
          hwf1 hsz1 hroot1 (by rw [hq3]; exact hok3.noexp) (by rw [hq4]; exact hok4.noexp)
      have partFinal := pPre.comp hokT.toPartOK
      refine ⟨(((((!n.empty ||
          (match n.getQuad .one with | some c => !c.deep_empty | none => false)) ||
          (match n.getQuad .two with | some c => !c.deep_empty | none => false)) ||
          b3) || b4) || b1') || b2', _, ?_, ?_, ⟨?_, hokT.noexp⟩⟩
      · show pruneEx (f + 1) n now = _
        simp only [pruneEx, hexp, if_true, heq3, heq4, heqT1, heqT2, bind, Except.bind,
          pure, Except.pure]
      · unfold outShape at hshapeT ⊢
        rw [hshapeT]
        simp
      · have hflag :
            ((((((!n.empty ||
              (match n.getQuad .one with | some c => !c.deep_empty | none => false)) ||
              (match n.getQuad .two with | some c => !c.deep_empty | none => false)) ||
              b3) || b4) || b1') || b2') =
            ((((((match n.getQuad .one with | some c => !c.deep_empty | none => false) ||
              (match n.getQuad .two with | some c => !c.deep_empty | none => false)) ||
              b3) || b4) || !n.empty) || (b1' || b2')) := by
          generalize (match n.getQuad .one with
            | some c => !c.deep_empty | none => false) = e1
          generalize (match n.getQuad .two with
            | some c => !c.deep_empty | none => false) = e2
          cases n.empty <;> cases e1 <;> cases e2 <;> cases b3 <;> cases b4 <;>
            cases b1' <;> cases b2' <;> rfl
        rw [hflag]
        exact partFinal
    · -- the node has not expired
      have hexp' : n.expired now = false := by
        simpa using hexp
      obtain ⟨b1, b2, X1, X2, heq1, heq2, hshape, hok⟩ :=
        pruneTailFacts IH' n false hwf hsz (by simp [hexp'])
          (noexp_of_region .three (Or.inl rfl) (oRegionWF_quad_points .three hwf) hexp')
          (noexp_of_region .four (Or.inr rfl) (oRegionWF_quad_points .four hwf) hexp')
      refine ⟨b1 || b2, _, ?_, hshape, hok⟩
      show pruneEx (f + 1) n now = _
      simp only [Bool.false_or] at heq1 heq2
      simp only [pruneEx, hexp', Bool.false_eq_true, if_false, Bool.false_or,
        heq1, heq2, bind, Except.bind, pure, Except.pure]

theorem applyTop_root (out : CleanOutcome) :
    (Quadtree.applyTop out).root = outOpt out := by
  cases out <;> rfl

/-- A cleared node (no data, no lru) is trivially consistent. -/
theorem consist_cleared {m : Node} (hd : m.data = []) (hl : m.lru = []) :
    m.consistB = true := by
  simp [Node.consistB, hd, hl, sortedLU, nodupEids, nodupKeys]

/-- A `PartOK` stage preserves per-node consistency. -/
theorem partOK_consist {o o' : Option Node} {now : Int} {b : Bool}
    (h : PartOK o o' now b) (hc : oAllNodes Node.consistB o = true) :
    oAllNodes Node.consistB o' = true := by
  rw [oAllNodes_mem] at hc ⊢
  intro m hm
  obtain ⟨m0, hm0, _, _, hcase⟩ := h.nodes_to m hm
  rcases hcase with ⟨hd, hl⟩ | ⟨hd, hl, _⟩
  · rw [consistB_congr hd hl]
    exact hc m0 hm0
  · exact consist_cleared hd hl

/-- Tree-level specification of `Quadtree.prune_expired` on a
region-invariant tree: it succeeds, the new tree is a `PartOK` pruning
stage of the old one, and no expired node of the new tree has entries. -/
theorem prune_expired_spec (t : Quadtree) (now : Int)
    (hwf : oRegionWF t.root = true) :
    ∃ b t', t.prune_expired now = .ok (b, t') ∧
      PartOK t.root t'.root now b ∧
      oAllNodes (fun m => !(m.expired now) || m.empty) t'.root = true := by
  cases hr : t.root with
  | none =>
    refine ⟨false, t, ?_, ?_, ?_⟩
    · simp [Quadtree.prune_expired, hr]
    · rw [hr]; exact PartOK.refl none now (by simp)
    · rw [hr]; simp
  | some r =>
    rw [hr] at hwf
    obtain ⟨b, out, heq, hshape, hok⟩ :=
      pruneEx_spec r.size r now hwf (le_refl _)
    refine ⟨b, Quadtree.applyTop out, ?_, ?_, ?_⟩
    · simp only [Quadtree.prune_expired, hr, heq, bind, Except.bind, pure, Except.pure]
    · rw [applyTop_root]
      exact hok.toPartOK
    · rw [applyTop_root]
      exact hok.noexp

theorem sortedLU_cons {x : Entry} {l : List Entry} (h : sortedLU (x :: l) = true) :
    sortedLU l = true := by
  cases l with
  | nil => rfl
  | cons y t =>
    simp only [sortedLU, Bool.and_eq_true] at h
    exact h.2

theorem sortedLU_head_le {x : Entry} {l : List Entry} (h : sortedLU (x :: l) = true) :
    ∀ j, j < l.length → x.last_used ≤ (l.getD j default).last_used := by
  induction l generalizing x with
  | nil => intro j hj; simp at hj
  | cons y t ih =>
    intro j hj
    simp only [sortedLU, Bool.and_eq_true, decide_eq_true_eq] at h
    cases j with
    | zero => exact h.1
    | succ j' =>
      simp only [List.length_cons, Nat.succ_lt_succ_iff] at hj
      exact le_trans h.1 (ih h.2 j' hj)

theorem sortedLU_getD_le {l : List Entry} (h : sortedLU l = true) :
    ∀ i j, i ≤ j → j < l.length →
      (l.getD i default).last_used ≤ (l.getD j default).last_used := by
  induction l with
  | nil => intro i j _ hj; simp at hj
  | cons x t ih =>
    intro i j hij hj
    cases i with
    | zero =>
      cases j with
      | zero => exact le_refl _
      | succ j' =>
        simp only [List.length_cons, Nat.succ_lt_succ_iff] at hj
        exact sortedLU_head_le h j' hj
    | succ i' =>
      cases j with
      | zero => omega
      | succ j' =>
        simp only [List.length_cons, Nat.succ_lt_succ_iff] at hj
        exact ih (sortedLU_cons h) i' j' (by omega) hj

theorem bisectLeftGo_spec (a : List Entry) (x : Int) (hs : sortedLU a = true) :
    ∀ fuel lo hi, hi - lo ≤ fuel → hi ≤ a.length →
      (∀ j, j < lo → (a.getD j default).last_used < x) →
      (∀ j, hi ≤ j → j < a.length → ¬(a.getD j default).last_used < x) →
      (∀ j, j < bisectLeftGo a x lo hi → (a.getD j default).last_used < x) ∧
      (∀ j, bisectLeftGo a x lo hi ≤ j → j < a.length →
        ¬(a.getD j default).last_used < x) := by
  intro fuel
  induction fuel with
  | zero =>
    intro lo hi hf _ hlo hhi
    have hle : ¬lo < hi := by omega
    rw [bisectLeftGo, dif_neg hle]
    exact ⟨hlo, fun j hj hj' => hhi j (by omega) hj'⟩
  | succ f ih =>
    intro lo hi hf hlen hlo hhi
    by_cases hlh : lo < hi
    · rw [bisectLeftGo, dif_pos hlh]
      by_cases hm : (a.getD ((lo + hi) / 2) default).last_used < x
      · simp only [hm, if_pos]
        refine ih ((lo + hi) / 2 + 1) hi (by omega) hlen ?_ hhi
        intro j hj
        exact lt_of_le_of_lt
          (sortedLU_getD_le hs j ((lo + hi) / 2) (by omega) (by omega)) hm
      · simp only [hm, if_neg]
        refine ih lo ((lo + hi) / 2) (by omega) (by omega) hlo ?_
        intro j hj hj' hcon
        exact hm (lt_of_le_of_lt
          (sortedLU_getD_le hs ((lo + hi) / 2) j hj hj') hcon)
    · rw [bisectLeftGo, dif_neg hlh]
      exact ⟨hlo, fun j hj hj' => hhi j (by omega) hj'⟩

theorem bisectLeft_spec (a : List Entry) (x : Int) (hs : sortedLU a = true) :
    (∀ j, j < bisectLeft a x → (a.getD j default).last_used < x) ∧
    (∀ j, bisectLeft a x ≤ j → j < a.length → ¬(a.getD j default).last_used < x) := by
  exact bisectLeftGo_spec a x hs a.length 0 a.length (by omega) (le_refl _)
    (fun j hj => by omega) (fun j hj hj' => by omega)

theorem getD_append_lt {l1 l2 : List Entry} {idx : Nat} (h : idx < l1.length) :
    (l1 ++ l2).getD idx default = l1.getD idx default := by
  induction l1 generalizing idx with
  | nil => simp at h
  | cons y t ih =>
    cases idx with
    | zero => rfl
    | succ i =>
      simp only [List.length_cons, Nat.succ_lt_succ_iff] at h
      simpa using ih h

theorem getD_append_length {l1 l2 : List Entry} {x : Entry} :
    (l1 ++ x :: l2).getD l1.length default = x := by
  induction l1 with
  | nil => rfl
  | cons y t ih => simpa using ih

theorem eraseIdx_append_length {l1 l2 : List Entry} {x : Entry} :
    (l1 ++ x :: l2).eraseIdx l1.length = l1 ++ l2 := by
  induction l1 with
  | nil => rfl
  | cons y t ih => simpa using ih

theorem getElem_append_mid {l1 l2 : List Entry} {x : Entry}
    (h : l1.length < (l1 ++ x :: l2).length) :
    (l1 ++ x :: l2)[l1.length] = x := by
  induction l1 with
  | nil => rfl
  | cons y t ih => simpa using ih (by simp)

theorem getD_mem {l : List Entry} {idx : Nat} (h : idx < l.length) :
    l.getD idx default ∈ l := by
  induction l generalizing idx with
  | nil => simp at h
  | cons y t ih =>
    cases idx with
    | zero => exact List.mem_cons_self _ _
    | succ i =>
      simp only [List.length_cons, Nat.succ_lt_succ_iff] at h
      exact List.mem_cons_of_mem _ (ih h)

theorem lruScan_append (entry : Entry) (l1 l2 : List Entry)
    (hl1 : ∀ e ∈ l1, e.eid ≠ entry.eid) :
    ∀ fuel idx, l1.length - idx ≤ fuel → idx ≤ l1.length →
      (∀ j, idx ≤ j → j < l1.length →
        ((l1 ++ entry :: l2).getD j default).last_used = entry.last_used) →
      lruScan (l1 ++ entry :: l2) entry idx = some (l1 ++ l2) := by
  have hlt : ∀ idx, idx ≤ l1.length → idx < (l1 ++ entry :: l2).length := by
    intro idx h; simp only [List.length_append, List.length_cons]; omega
  intro fuel
  induction fuel with
  | zero =>
    intro idx hf hle _
    have hidx : idx = l1.length := by omega
    subst hidx
    rw [lruScan, dif_pos (hlt _ hle)]
    simp [getElem_append_mid, eraseIdx_append_length]
  | succ f ih =>
    intro idx hf hle heq
    rw [lruScan, dif_pos (hlt _ hle)]
    by_cases hidx : idx = l1.length
    · subst hidx
      simp [getElem_append_mid, eraseIdx_append_length]
    · have hidx' : idx < l1.length := by omega
      have hmem : (l1 ++ entry :: l2).getD idx default ∈ l1 := by
        rw [getD_append_lt hidx']; exact getD_mem hidx'
      simp only [heq idx (le_refl _) hidx', if_pos rfl]
      rw [if_neg (hl1 _ hmem)]
      exact ih (idx + 1) (by omega) (by omega) (fun j hj hj' => heq j (by omega) hj')

/-- Main scan-totality lemma: if the lru queue is sorted ascending by
`last_used` and contains the popped entry, with no earlier element sharing
its identity, then the bisect-and-scan of `Node.delete_entry` locates and
removes exactly that entry. -/
theorem lruScan_split (a : List Entry) (entry : Entry) (l1 l2 : List Entry)
    (ha : a = l1 ++ entry :: l2)
    (hl1 : ∀ e ∈ l1, e.eid ≠ entry.eid)
    (idx : Nat) (hle : idx ≤ l1.length)
    (heq : ∀ j, idx ≤ j → j < l1.length →
      (a.getD j default).last_used = entry.last_used) :
    lruScan a entry idx = some (l1 ++ l2) := by
  subst ha
  exact lruScan_append entry l1 l2 hl1 (l1.length - idx) idx (by omega) hle heq

theorem deleteEntryRaw_ok (n : Node) (k : Nat) (entry : Entry)
    (data' : List (Nat × Entry)) (l1 l2 : List Entry)
    (hpop : dictPop n.data k = some (entry, data'))
    (hsort : sortedLU n.lru = true)
    (hsplit : n.lru = l1 ++ entry :: l2)
    (hl1 : ∀ e ∈ l1, e.eid ≠ entry.eid) :
    n.deleteEntryRaw k = .ok (n.withDataLru data' (l1 ++ l2)) := by
  have hlen : l1.length < n.lru.length := by rw [hsplit]; simp
  have hmid : n.lru.getD l1.length default = entry := by
    rw [hsplit]
    exact getD_append_length
  obtain ⟨h1, h2⟩ := bisectLeft_spec n.lru entry.last_used hsort
  have hle : bisectLeft n.lru entry.last_used ≤ l1.length := by
    by_contra hcon
    have := h1 l1.length (by omega)
    rw [hmid] at this
    omega
  have hscan : lruScan n.lru entry (bisectLeft n.lru entry.last_used) = some (l1 ++ l2) := by
    refine lruScan_split n.lru entry l1 l2 hsplit hl1 _ hle ?_
    intro j hj hj'
    have hgeq : ¬(n.lru.getD j default).last_used < entry.last_used :=
      h2 j hj (by omega)
    have hleq : (n.lru.getD j default).last_used ≤ entry.last_used := by
      have := sortedLU_getD_le hsort j l1.length (by omega) hlen
      rw [hmid] at this
      exact this
    omega
  unfold Node.deleteEntryRaw
  simp only [hpop, hscan]

/-- Claim C10: under the node consistency invariant (the entry popped from
the data map occurs in the lru queue, uniquely by identity, and the queue is
sorted ascending by `last_used`), the failure branch of
`Node.delete_entry` — `raise Exception("entry unexpectedly missing for lru
queue")`, modelled as the `Err.lruMissing` error — is unreachable for every
key present in the data map: the bisect on `last_used` followed by the
identity scan over the equal-timestamp neighbours always locates the entry,
and the deletion succeeds. -/
theorem C10_scan_never_misses (n : Node) (k : Nat) (entry : Entry)
    (data' : List (Nat × Entry)) (l1 l2 : List Entry)
    (hpop : dictPop n.data k = some (entry, data'))
    (hsort : sortedLU n.lru = true)
    (hsplit : n.lru = l1 ++ entry :: l2)
    (hl1 : ∀ e ∈ l1, e.eid ≠ entry.eid)
    (hl2 : ∀ e ∈ l2, e.eid ≠ entry.eid) :
    n.deleteEntryRaw k = .ok (n.withDataLru data' (l1 ++ l2)) ∧
    n.deleteEntryRaw k ≠ .error .lruMissing := by
  have h := deleteEntryRaw_ok n k entry data' l1 l2 hpop hsort hsplit hl1
  exact ⟨h, by rw [h]; intro hcon; exact Except.noConfusion hcon⟩

/-- Node with two equal-timestamp entries, for the C10 witness. -/
def c10Node : Node :=
  .mk 0 0 none none none none
    [(1, ⟨5, 1, 10, 0⟩), (2, ⟨5, 2, 20, 1⟩)]
    [⟨5, 1, 10, 0⟩, ⟨5, 2, 20, 1⟩]

/-- C10 witness: deleting key 2 from a node whose two entries share the
same `last_used` exercises the identity scan past the equal-timestamp
neighbour and succeeds. -/
theorem C10_scan_never_misses_witness :
    c10Node.deleteEntryRaw 2 =
      .ok (c10Node.withDataLru [(1, ⟨5, 1, 10, 0⟩)] ([⟨5, 1, 10, 0⟩] ++ [])) ∧
    c10Node.deleteEntryRaw 2 ≠ .error .lruMissing :=
  C10_scan_never_misses c10Node 2 ⟨5, 2, 20, 1⟩ [(1, ⟨5, 1, 10, 0⟩)]
    [⟨5, 1, 10, 0⟩] [] (by decide) (by decide) (by decide)
    (by decide) (by decide)

/-! Claim C6: the cleaning rule and nodes with entries. -/

/-- A node with one entry and no child quadrants, for the C6 counterexample. -/
def c6Node : Node :=
  .mk 10 5 none none none none [(0, ⟨0, 0, 0, 0⟩)] [⟨0, 0, 0, 0⟩]

/-- C6 counterexample: the claim says a node that HAS entries and no child
quadrants is deleted from its parent by the cleaning rule; but on such a
node `Node.clean` does nothing (first branch of the Python code:
`if self.empty:` fails), so the parent is never asked to delete it. -/
theorem C6_counterexample :
    (¬c6Node.empty = true ∧ c6Node.quadCount = 0) ∧
    c6Node.clean = CleanOutcome.keep c6Node ∧
    ∀ m, c6Node.clean ≠ CleanOutcome.deleteMe m := by
  refine ⟨by decide, rfl, ?_⟩
  intro m hm
  rw [show c6Node.clean = CleanOutcome.keep c6Node from rfl] at hm
  exact CleanOutcome.noConfusion hm

/-- C6 (amended): for every node that has NO entries and no child
quadrants, the cleaning rule asks the node's parent to delete it
(`self.parent.delete(self)`). -/
theorem C6_clean_deletes_empty_leaf (n : Node) (he : n.empty = true) (hq : n.quadCount = 0) :
    n.clean = CleanOutcome.deleteMe n := by
  simp [Node.clean, he, hq]

/-- C6 witness: a concrete empty leaf node is deleted by the cleaning rule. -/
theorem C6_clean_deletes_empty_leaf_witness :
    (Node.mk 3 4 none none none none [] []).clean =
      CleanOutcome.deleteMe (.mk 3 4 none none none none [] []) :=
  C6_clean_deletes_empty_leaf _ (by decide) (by decide)

/-! Navigation lemmas: `findPoint` soundness, completeness and uniqueness. -/

theorem findPoint_sound : ∀ fuel (r : Node) (ex pr : Int), osize (some r) ≤ fuel →
    ∀ m, findPoint r ex pr = some m →
      m ∈ oNodes (some r) ∧ m.expiry = ex ∧ m.priority = pr := by
  intro fuel
  induction fuel with
  | zero =>
    intro r ex pr hsz
    rw [osize_some] at hsz
    omega
  | succ f ih =>
    intro r ex pr hsz m hfind
    rw [findPoint] at hfind
    by_cases hself : r.expiry = ex ∧ r.priority = pr
    · rw [if_pos hself] at hfind
      cases hfind
      exact ⟨self_mem_oNodes r, hself.1, hself.2⟩
    · rw [if_neg hself] at hfind
      split at hfind
      · cases hfind
      · rename_i c hq
        have hsz' : osize (some c) ≤ f := by
          have h := osize_quad_lt r (QI.ofBools (decide (ex ≤ r.expiry))
            (decide (pr < r.priority)))
          rw [hq] at h
          omega
        obtain ⟨h1, h2, h3⟩ := ih c ex pr hsz' m hfind
        refine ⟨?_, h2, h3⟩
        refine oNodes_quad_sub r
          (QI.ofBools (decide (ex ≤ r.expiry)) (decide (pr < r.priority))) ?_
        rw [hq]
        exact h1

theorem treeWF_parts {t : Quadtree} (h : t.treeWF = true) :
    oRegionWF t.root = true ∧ oAllNodes Node.consistB t.root = true ∧
      nodupPoints (oPoints t.root) = true := by
  simpa [Quadtree.treeWF, Bool.and_eq_true] using h

/-! Claims C1 and C3: the contract of prune_expired. -/

/-- Claim C1: on every well-formed (reachable) tree state and every time
`now`, `prune_expired(now)` succeeds and afterwards no node remaining in
the tree with `expiry < now` contains any entry — its lru queue and data
map are both empty (expired nodes kept as structural pivots are emptied in
place). -/
theorem C1_prune_expired_removes_expired_entries (t : Quadtree) (now : Int)
    (hwf : t.treeWF = true) :
    ∃ b t', t.prune_expired now = .ok (b, t') ∧
      ∀ m ∈ t'.nodesQ, m.expiry < now → m.lru = [] ∧ m.data = [] := by
  obtain ⟨hreg, hcons, _⟩ := treeWF_parts hwf
  obtain ⟨b, t', heq, hpart, hnoexp⟩ := prune_expired_spec t now hreg
  refine ⟨b, t', heq, ?_⟩
  intro m hm hexp
  have h1 := (oAllNodes_mem.mp hnoexp) m hm
  have hlru : m.lru = [] := by
    simp only [Node.expired, Node.empty, Bool.or_eq_true, Bool.not_eq_true',
      decide_eq_false_iff_not, List.isEmpty_iff] at h1
    rcases h1 with h1 | h1
    · exact absurd hexp h1
    · exact h1
  have hcons' := partOK_consist hpart hcons
  have h2 := (oAllNodes_mem.mp hcons') m hm
  simp only [Node.consistB, Bool.and_eq_true, decide_eq_true_eq] at h2
  refine ⟨hlru, ?_⟩
  rw [h2.1, hlru]
  rfl

/-- A small well-formed tree whose root (expiry 5) has one entry and one
non-expired child (expiry 20) with one entry, for the prune witnesses. -/
def sampleTree : Quadtree :=
  ⟨some (.mk 5 0
    none none
    (some (.mk 20 (-1) none none none none [(2, ⟨1, 2, 7, 1⟩)] [⟨1, 2, 7, 1⟩]))
    none
    [(1, ⟨0, 1, 42, 0⟩)] [⟨0, 1, 42, 0⟩])⟩

theorem sampleTree_wf : sampleTree.treeWF = true := by
  simp [sampleTree, Quadtree.treeWF, oRegionWF, oPoints, oAllNodes, Node.consistB,
    nodupPoints, sortedLU, nodupEids, nodupKeys, Node.getQuad, Node.expiry,
    Node.priority, Node.data, Node.lru, inRegion]

/-- C1 witness: pruning the sample tree at time 10 (past the root's expiry
5, before the child's expiry 20). -/
theorem C1_prune_expired_removes_expired_entries_witness :
    sampleTree.treeWF = true ∧
    ∃ b t', sampleTree.prune_expired 10 = .ok (b, t') ∧
      ∀ m ∈ t'.nodesQ, m.expiry < 10 → m.lru = [] ∧ m.data = [] :=
  ⟨sampleTree_wf, C1_prune_expired_removes_expired_entries sampleTree 10 sampleTree_wf⟩

/-- Claim C3: on every well-formed tree state, `prune_expired(now)` returns
`true` exactly when the call removed at least one entry (the tree's entry
count strictly decreased); purely structural changes yield `false`. -/
theorem C3_prune_expired_flag_iff_removed (t : Quadtree) (now : Int)
    (hwf : t.treeWF = true) :
    ∃ b t', t.prune_expired now = .ok (b, t') ∧
      t'.entryCountQ ≤ t.entryCountQ ∧
      (b = true ↔ t'.entryCountQ < t.entryCountQ) := by
  obtain ⟨hreg, _, _⟩ := treeWF_parts hwf
  obtain ⟨b, t', heq, hpart, _⟩ := prune_expired_spec t now hreg
  exact ⟨b, t', heq, hpart.entries_sub.length_le, hpart.removed_iff⟩

/-- C3 witness: the sample tree pruned at time 10. -/
theorem C3_prune_expired_flag_iff_removed_witness :
    sampleTree.treeWF = true ∧
    ∃ b t', sampleTree.prune_expired 10 = .ok (b, t') ∧
      t'.entryCountQ ≤ sampleTree.entryCountQ ∧
      (b = true ↔ t'.entryCountQ < sampleTree.entryCountQ) :=
  ⟨sampleTree_wf, C3_prune_expired_flag_iff_removed sampleTree 10 sampleTree_wf⟩

/-! Claim C9: nested context scopes. -/

/-- C9: evaluating the nested-context scenario on the code.  Defaults are
`priority = 0`, `expiry_duration = 100`; an outer `context(priority=5,
expiry_duration=50)` is active when an inner `context(priority=7,
expiry_duration=70)` is entered and exited.  After the inner exit the
`finally` block has restored the CONSTRUCTOR DEFAULTS (0, 100), not the
outer scope's overrides (5, 50): a set between the inner and outer exits
uses the defaults, so the overrides do not stack as the claim requires. -/
theorem C9_inner_exit_restores_defaults :
    (((((Cache.init 100 0).contextEnter (some 5) (some 50)).contextEnter
        (some 7) (some 70)).contextExit).ctx_priority = 0 ∧
     ((((Cache.init 100 0).contextEnter (some 5) (some 50)).contextEnter
        (some 7) (some 70)).contextExit).ctx_expiry_duration = 100) ∧
    ¬(((((Cache.init 100 0).contextEnter (some 5) (some 50)).contextEnter
        (some 7) (some 70)).contextExit).ctx_priority = 5 ∧
      ((((Cache.init 100 0).contextEnter (some 5) (some 50)).contextEnter
        (some 7) (some 70)).contextExit).ctx_expiry_duration = 50) := by
  decide

/-! Equation lemmas for the point-routing recursions. -/

theorem findPoint_pos {n : Node} {ex pr : Int} (h : n.expiry = ex ∧ n.priority = pr) :
    findPoint n ex pr = some n := by
  rw [findPoint, if_pos h]

theorem findPoint_quad {n : Node} {ex pr : Int} (h : ¬(n.expiry = ex ∧ n.priority = pr))
    {c : Node}
    (hq : n.getQuad (QI.ofBools (decide (ex ≤ n.expiry)) (decide (pr < n.priority))) = some c) :
    findPoint n ex pr = findPoint c ex pr := by
  rw [findPoint, if_neg h]
  split
  · rename_i hq2
    rw [hq2] at hq
    exact Option.noConfusion hq
  · rename_i c2 hq2
    rw [hq2] at hq
    injection hq with hq
    rw [hq]

theorem findPoint_nochild {n : Node} {ex pr : Int} (h : ¬(n.expiry = ex ∧ n.priority = pr))
    (hq : n.getQuad (QI.ofBools (decide (ex ≤ n.expiry)) (decide (pr < n.priority))) = none) :
    findPoint n ex pr = none := by
  rw [findPoint, if_neg h]
  split
  · rfl
  · rename_i c2 hq2
    rw [hq2] at hq
    exact Option.noConfusion hq

theorem updAtPoint_pos {α : Type} {op : Node → Except Err (α × CleanOutcome)}
    {n : Node} {ex pr : Int} (h : n.expiry = ex ∧ n.priority = pr) :
    updAtPoint n ex pr op = op n := by
  rw [updAtPoint, if_pos h]

theorem updAtPoint_quad {α : Type} {op : Node → Except Err (α × CleanOutcome)}
    {n : Node} {ex pr : Int} (h : ¬(n.expiry = ex ∧ n.priority = pr))
    {c : Node}
    (hq : n.getQuad (QI.ofBools (decide (ex ≤ n.expiry)) (decide (pr < n.priority))) = some c) :
    updAtPoint n ex pr op = (do
      let (a, out) ← updAtPoint c ex pr op
      let n' ← applyOutcome n
        (QI.ofBools (decide (ex ≤ n.expiry)) (decide (pr < n.priority))) out
      pure (a, CleanOutcome.keep n')) := by
  rw [updAtPoint, if_neg h]
  dsimp only
  split
  · rename_i hq2
    rw [hq2] at hq
    exact Option.noConfusion hq
  · rename_i c2 hq2
    rw [hq2] at hq
    injection hq with hq
    rw [hq]

theorem updAtPoint_nochild {α : Type} {op : Node → Except Err (α × CleanOutcome)}
    {n : Node} {ex pr : Int} (h : ¬(n.expiry = ex ∧ n.priority = pr))
    (hq : n.getQuad (QI.ofBools (decide (ex ≤ n.expiry)) (decide (pr < n.priority))) = none) :
    updAtPoint n ex pr op = .error .keyError := by
  rw [updAtPoint, if_neg h]
  dsimp only
  split
  · rfl
  · rename_i c2 hq2
    rw [hq2] at hq
    exact Option.noConfusion hq

theorem insertN_quad {n : Node} {pr ex : Int} {c : Node}
    (hq : n.getQuad (QI.ofBools (decide (ex ≤ n.expiry)) (decide (pr < n.priority))) = some c) :
    n.insertN pr ex =
      n.setQuad (QI.ofBools (decide (ex ≤ n.expiry)) (decide (pr < n.priority)))
        (some (c.insertN pr ex)) := by
  rw [Node.insertN]
  split
  · rename_i c2 hq2
    rw [hq2] at hq
    injection hq with hq
    rw [hq]
  · rename_i hq2
    rw [hq2] at hq
    exact Option.noConfusion hq

theorem insertN_nochild {n : Node} {pr ex : Int}
    (hq : n.getQuad (QI.ofBools (decide (ex ≤ n.expiry)) (decide (pr < n.priority))) = none) :
    n.insertN pr ex =
      n.setQuad (QI.ofBools (decide (ex ≤ n.expiry)) (decide (pr < n.priority)))
        (some (.mk ex pr none none none none [] [])) := by
  rw [Node.insertN]
  split
  · rename_i c2 hq2
    rw [hq2] at hq
    exact Option.noConfusion hq
  · rfl

/-- Nodes of a subtree are nodes of any tree containing the subtree's root. -/
theorem oNodes_trans : ∀ fuel (o : Option Node), osize o ≤ fuel →
    ∀ s ∈ oNodes o, ∀ m ∈ oNodes (some s), m ∈ oNodes o := by
  intro fuel
  induction fuel with
  | zero =>
    intro o ho s hs
    cases o with
    | none => simp [oNodes] at hs
    | some n => rw [osize_some] at ho; omega
  | succ f ih =>
    intro o ho s hs m hm
    cases o with
    | none => simp [oNodes] at hs
    | some n =>
      rw [osize_some] at ho
      rw [oNodes_some] at hs
      simp only [List.mem_cons, List.mem_append] at hs
      rcases hs with hs | hs | hs | hs | hs
      · subst hs; exact hm
      · exact oNodes_quad_sub n .one (ih _ (by omega) s hs m hm)
      · exact oNodes_quad_sub n .two (ih _ (by omega) s hs m hm)
      · exact oNodes_quad_sub n .three (ih _ (by omega) s hs m hm)
      · exact oNodes_quad_sub n .four (ih _ (by omega) s hs m hm)

theorem oNodes_sub {o : Option Node} {s m : Node} (hs : s ∈ oNodes o)
    (hm : m ∈ oNodes (some s)) : m ∈ oNodes o :=
  oNodes_trans (osize o) o (le_refl _) s hs m hm

/-- A point of the tree is found by the quadrant routing of `findPoint`, on
a region-invariant tree. -/
theorem findPoint_complete : ∀ fuel (r : Node), osize (some r) ≤ fuel →
    oRegionWF (some r) = true →
    ∀ pt ∈ oPoints (some r), ∃ m, findPoint r pt.1 pt.2 = some m := by
  intro fuel
  induction fuel with
  | zero =>
    intro r hsz
    rw [osize_some] at hsz
    omega
  | succ f ih =>
    intro r hsz hreg pt hpt
    by_cases hself : r.expiry = pt.1 ∧ r.priority = pt.2
    · exact ⟨r, findPoint_pos hself⟩
    · rw [oPoints_some] at hpt
      simp only [List.mem_cons, List.mem_append] at hpt
      have hstep : ∀ j : QI, pt ∈ oPoints (r.getQuad j) →
          ∃ m, findPoint r pt.1 pt.2 = some m := by
        intro j hj
        have hrt : inRegion r.expiry r.priority j pt = true := by
          have h := oRegionWF_quad_points j hreg
          rw [List.all_eq_true] at h
          exact h pt hj
        have hroute := region_routes hrt
        rcases hq : r.getQuad j with _ | c
        · rw [hq] at hj
          simp [oPoints] at hj
        · have hsz' : osize (some c) ≤ f := by
            have h := osize_quad_lt r j
            rw [hq] at h
            omega
          have hreg' : oRegionWF (some c) = true := by
            have h := oRegionWF_quad j hreg
            rw [hq] at h
            exact h
          have hptc : pt ∈ oPoints (some c) := by
            rw [hq] at hj
            exact hj
          obtain ⟨m, hm⟩ := ih c hsz' hreg' pt hptc
          refine ⟨m, ?_⟩
          rw [findPoint_quad hself (hroute ▸ hq)]
          exact hm
      rcases hpt with hpt | hpt | hpt | hpt | hpt
      · exact absurd ⟨(congrArg Prod.fst hpt.symm), (congrArg Prod.snd hpt.symm)⟩ hself
      · exact hstep .one hpt
      · exact hstep .two hpt
      · exact hstep .three hpt
      · exact hstep .four hpt

/-- On a region-invariant tree with pairwise-distinct points, `findPoint`
on a member node's point returns exactly that node. -/
theorem findPoint_eq {r m : Node} (hreg : oRegionWF (some r) = true)
    (hnd : nodupPoints (oPoints (some r)) = true)
    (hm : m ∈ oNodes (some r)) :
    findPoint r m.expiry m.priority = some m := by
  have hpt : (m.expiry, m.priority) ∈ oPoints (some r) :=
    mem_oPoints_of_mem_oNodes hm
  obtain ⟨m', hm'⟩ := findPoint_complete (osize (some r)) r (le_refl _) hreg
    (m.expiry, m.priority) hpt
  obtain ⟨hmem', hex', hpr'⟩ := findPoint_sound (osize (some r)) r m.expiry m.priority
    (le_refl _) m' hm'
  have hndl : ((oNodes (some r)).map (fun n => (n.expiry, n.priority))).Nodup := by
    rw [← oPoints_map]
    exact nodupPoints_iff.mp hnd
  have heq : m' = m := by
    refine List.inj_on_of_nodup_map hndl hmem' hm ?_
    simp [hex', hpr']
  rw [hm', heq]

/-- A missed point is absent from a region-invariant tree. -/
theorem findPoint_none {r : Node} {ex pr : Int} (hreg : oRegionWF (some r) = true)
    (hnone : findPoint r ex pr = none) :
    (ex, pr) ∉ oPoints (some r) := by
  intro hmem
  obtain ⟨m, hm⟩ := findPoint_complete (osize (some r)) r (le_refl _) hreg (ex, pr) hmem
  rw [hm] at hnone
  exact Option.noConfusion hnone

/-! Pure surgery at a point: the functional form of what `updAtPoint`
builds when each step succeeds — replace the subtree rooted at the node
with the given point by another subtree, rebuilding each ancestor. -/

def replaceAt (n : Node) (ex pr : Int) (X : Option Node) : Option Node :=
  if n.expiry = ex ∧ n.priority = pr then X
  else
    match h : n.getQuad (QI.ofBools (decide (ex ≤ n.expiry)) (decide (pr < n.priority))) with
    | none => some n
    | some c =>
      some (n.setQuad (QI.ofBools (decide (ex ≤ n.expiry)) (decide (pr < n.priority)))
        (replaceAt c ex pr X))
termination_by n.size
decreasing_by
  exact Node.size_getQuad h

theorem replaceAt_pos {n : Node} {ex pr : Int} {X : Option Node}
    (h : n.expiry = ex ∧ n.priority = pr) :
    replaceAt n ex pr X = X := by
  rw [replaceAt, if_pos h]

theorem replaceAt_quad {n : Node} {ex pr : Int} {X : Option Node}
    (h : ¬(n.expiry = ex ∧ n.priority = pr)) {c : Node}
    (hq : n.getQuad (QI.ofBools (decide (ex ≤ n.expiry)) (decide (pr < n.priority))) = some c) :
    replaceAt n ex pr X =
      some (n.setQuad (QI.ofBools (decide (ex ≤ n.expiry)) (decide (pr < n.priority)))
        (replaceAt c ex pr X)) := by
  rw [replaceAt, if_neg h]
  split
  · rename_i hq2
    rw [hq2] at hq
    exact Option.noConfusion hq
  · rename_i c2 hq2
    rw [hq2] at hq
    injection hq with hq
    rw [hq]

/-- Entries of a node with one quadrant slot replaced: a two-sided context
around the slot's entries. -/
theorem setQuad_entries_ctx (n : Node) (i : QI) :
    ∃ A B, (∀ Y, oEntries (some (n.setQuad i Y)) = A ++ (oEntries Y ++ B)) ∧
      oEntries (some n) = A ++ (oEntries (n.getQuad i) ++ B) := by
  cases n with
  | mk e p a b c d dt l =>
    cases i
    · exact ⟨l, oEntries b ++ (oEntries c ++ oEntries d),
        fun Y => by simp [oEntries, Node.setQuad], by simp [oEntries, Node.getQuad]⟩
    · exact ⟨l ++ oEntries a, oEntries c ++ oEntries d,
        fun Y => by simp [oEntries, Node.setQuad], by simp [oEntries, Node.getQuad]⟩
    · exact ⟨(l ++ oEntries a) ++ oEntries b, oEntries d,
        fun Y => by simp [oEntries, Node.setQuad], by simp [oEntries, Node.getQuad]⟩
    · exact ⟨((l ++ oEntries a) ++ oEntries b) ++ oEntries c, [],
        fun Y => by simp [oEntries, Node.setQuad], by simp [oEntries, Node.getQuad]⟩

/-- Points of a node with one quadrant slot replaced: a two-sided context
around the slot's points. -/
theorem setQuad_points_ctx (n : Node) (i : QI) :
    ∃ A B, (∀ Y, oPoints (some (n.setQuad i Y)) = A ++ (oPoints Y ++ B)) ∧
      oPoints (some n) = A ++ (oPoints (n.getQuad i) ++ B) := by
  cases n with
  | mk e p a b c d dt l =>
    cases i
    · exact ⟨[(e, p)], oPoints b ++ (oPoints c ++ oPoints d),
        fun Y => by simp [oPoints, Node.setQuad], by simp [oPoints, Node.getQuad]⟩
    · exact ⟨(e, p) :: oPoints a, oPoints c ++ oPoints d,
        fun Y => by simp [oPoints, Node.setQuad], by simp [oPoints, Node.getQuad]⟩
    · exact ⟨((e, p) :: oPoints a) ++ oPoints b, oPoints d,
        fun Y => by simp [oPoints, Node.setQuad], by simp [oPoints, Node.getQuad]⟩
    · exact ⟨(((e, p) :: oPoints a) ++ oPoints b) ++ oPoints c, [],
        fun Y => by simp [oPoints, Node.setQuad], by simp [oPoints, Node.getQuad]⟩

/-- The subtree stored in a slot stays inside the node after `setQuad`. -/
theorem oNodes_setQuad_sup (n : Node) (i : QI) (x : Option Node) :
    ∀ m ∈ oNodes x, m ∈ oNodes (some (n.setQuad i x)) := by
  intro m hm
  refine oNodes_quad_sub (n.setQuad i x) i ?_
  rw [Node.getQuad_setQuad_self]
  exact hm

/-- Context decomposition of the point surgery `replaceAt` along the
routing path to a found point: the entries and points of the rest of the
tree are a fixed two-sided context around the target subtree's, and every
node of the rebuilt tree is a node of the inserted subtree or agrees in
point and contents with a node of the original tree. -/
theorem replaceAt_decomp : ∀ fuel (r : Node) (ex pr : Int), osize (some r) ≤ fuel →
    ∀ m, findPoint r ex pr = some m →
    ∃ E1 E2 P1 P2,
      oEntries (some r) = E1 ++ (oEntries (some m) ++ E2) ∧
      oPoints (some r) = P1 ++ (oPoints (some m) ++ P2) ∧
      ∀ X : Option Node,
        oEntries (replaceAt r ex pr X) = E1 ++ (oEntries X ++ E2) ∧
        oPoints (replaceAt r ex pr X) = P1 ++ (oPoints X ++ P2) ∧
        (∀ n' ∈ oNodes X, n' ∈ oNodes (replaceAt r ex pr X)) ∧
        (∀ m' ∈ oNodes (replaceAt r ex pr X), m' ∈ oNodes X ∨
          ∃ m0 ∈ oNodes (some r), m0.expiry = m'.expiry ∧ m0.priority = m'.priority ∧
            m0.data = m'.data ∧ m0.lru = m'.lru) := by
  intro fuel
  induction fuel with
  | zero =>
    intro r ex pr hsz
    rw [osize_some] at hsz
    omega
  | succ f ih =>
    intro r ex pr hsz m hfind
    by_cases hself : r.expiry = ex ∧ r.priority = pr
    · have hm : m = r := by
        rw [findPoint_pos hself] at hfind
        injection hfind with h
        exact h.symm
      subst hm
      refine ⟨[], [], [], [], by simp, by simp, ?_⟩
      intro X
      rw [replaceAt_pos hself]
      exact ⟨by simp, by simp, fun n' hn' => hn', fun m' hm' => Or.inl hm'⟩
    · rcases hq : r.getQuad (QI.ofBools (decide (ex ≤ r.expiry)) (decide (pr < r.priority)))
        with _ | c
      · rw [findPoint_nochild hself hq] at hfind
        exact Option.noConfusion hfind
      · rw [findPoint_quad hself hq] at hfind
        have hsz' : osize (some c) ≤ f := by
          have h := osize_quad_lt r (QI.ofBools (decide (ex ≤ r.expiry))
            (decide (pr < r.priority)))
          rw [hq] at h
          omega
        obtain ⟨E1, E2, P1, P2, hE, hP, hX⟩ := ih c ex pr hsz' m hfind
        obtain ⟨A, B, hActx, hAold⟩ :=
          setQuad_entries_ctx r (QI.ofBools (decide (ex ≤ r.expiry)) (decide (pr < r.priority)))
        obtain ⟨C, D, hCctx, hCold⟩ :=
          setQuad_points_ctx r (QI.ofBools (decide (ex ≤ r.expiry)) (decide (pr < r.priority)))
        refine ⟨A ++ E1, E2 ++ B, C ++ P1, P2 ++ D, ?_, ?_, ?_⟩
        · rw [hAold, hq, hE]
          simp [List.append_assoc]
        · rw [hCold, hq, hP]
          simp [List.append_assoc]
        · intro X
          obtain ⟨hXE, hXP, hXsup, hXsub⟩ := hX X
          rw [replaceAt_quad hself hq]
          refine ⟨?_, ?_, ?_, ?_⟩
          · rw [hActx, hXE]
            simp [List.append_assoc]
          · rw [hCctx, hXP]
            simp [List.append_assoc]
          · intro n' hn'
            exact oNodes_setQuad_sup r _ _ n' (hXsup n' hn')
          · intro m' hm'
            rcases oNodes_setQuad_mem r _ _ m' hm' with hm' | hm' | hm'
            · refine Or.inr ⟨r, self_mem_oNodes r, ?_, ?_, ?_, ?_⟩ <;> rw [hm'] <;> simp
            · rcases hXsub m' hm' with h | ⟨m0, hm0, h1, h2, h3, h4⟩
              · exact Or.inl h
              · refine Or.inr ⟨m0, ?_, h1, h2, h3, h4⟩
                refine oNodes_quad_sub r
                  (QI.ofBools (decide (ex ≤ r.expiry)) (decide (pr < r.priority))) ?_
                rw [hq]
                exact hm0
            · exact Or.inr ⟨m', hm', rfl, rfl, rfl, rfl⟩

/-- Point-count bound through the surgery. -/
theorem replaceAt_counts {r m : Node} {ex pr : Int} (hfind : findPoint r ex pr = some m)
    {X : Option Node} (hX : ∀ pt, cnt pt (oPoints X) ≤ cnt pt (oPoints (some m))) :
    ∀ pt, cnt pt (oPoints (replaceAt r ex pr X)) ≤ cnt pt (oPoints (some r)) := by
  obtain ⟨E1, E2, P1, P2, hE, hP, hXf⟩ :=
    replaceAt_decomp (osize (some r)) r ex pr (le_refl _) m hfind
  obtain ⟨hXE, hXP, _, _⟩ := hXf X
  intro pt
  rw [hXP, hP]
  simp only [cnt_append]
  have := hX pt
  omega

/-- The surgery preserves the region invariant when the inserted subtree is
region-well-formed and introduces no point outside the removed subtree's. -/
theorem replaceAt_regionWF : ∀ fuel (r : Node) (ex pr : Int), osize (some r) ≤ fuel →
    oRegionWF (some r) = true →
    ∀ m, findPoint r ex pr = some m →
    ∀ X : Option Node, oRegionWF X = true →
    (∀ pt, cnt pt (oPoints X) ≤ cnt pt (oPoints (some m))) →
    oRegionWF (replaceAt r ex pr X) = true := by
  intro fuel
  induction fuel with
  | zero =>
    intro r ex pr hsz
    rw [osize_some] at hsz
    omega
  | succ f ih =>
    intro r ex pr hsz hreg m hfind X hXreg hXcnt
    by_cases hself : r.expiry = ex ∧ r.priority = pr
    · rw [replaceAt_pos hself]
      exact hXreg
    · rcases hq : r.getQuad (QI.ofBools (decide (ex ≤ r.expiry)) (decide (pr < r.priority)))
        with _ | c
      · rw [findPoint_nochild hself hq] at hfind
        exact Option.noConfusion hfind
      · rw [findPoint_quad hself hq] at hfind
        have hsz' : osize (some c) ≤ f := by
          have h := osize_quad_lt r (QI.ofBools (decide (ex ≤ r.expiry))
            (decide (pr < r.priority)))
          rw [hq] at h
          omega
        have hregc : oRegionWF (some c) = true := by
          have h := oRegionWF_quad (QI.ofBools (decide (ex ≤ r.expiry))
            (decide (pr < r.priority))) hreg
          rw [hq] at h
          exact h
        rw [replaceAt_quad hself hq]
        refine oRegionWF_setQuad _ hreg ?_ (ih c ex pr hsz' hregc m hfind X hXreg hXcnt)
        have hptsc := oRegionWF_quad_points (QI.ofBools (decide (ex ≤ r.expiry))
          (decide (pr < r.priority))) hreg
        rw [hq] at hptsc
        exact cnt_le_all (replaceAt_counts hfind hXcnt) hptsc

/-- Successful run of `updAtPoint`: when the routing finds the target node
and the operation succeeds there with a tree-shrinking, point-preserving
outcome, the whole update succeeds and produces exactly the `replaceAt`
surgery, each ancestor keeping its own point. -/
theorem updAtPoint_run {α : Type} (op : Node → Except Err (α × CleanOutcome)) :
    ∀ fuel (r : Node), osize (some r) ≤ fuel →
      oRegionWF (some r) = true →
      ∀ ex pr m, findPoint r ex pr = some m →
      ∀ a out, op m = .ok (a, out) →
      outShape m out →
      (∀ pt, cnt pt (oPoints (outOpt out)) ≤ cnt pt (oPoints (some m))) →
      ∃ outT, updAtPoint r ex pr op = .ok (a, outT) ∧
        outOpt outT = replaceAt r ex pr (outOpt out) ∧ outShape r outT := by
  intro fuel
  induction fuel with
  | zero =>
    intro r hsz
    rw [osize_some] at hsz
    omega
  | succ f ih =>
    intro r hsz hreg ex pr m hfind a out hop hshape hcnt
    by_cases hself : r.expiry = ex ∧ r.priority = pr
    · have hm : m = r := by
        rw [findPoint_pos hself] at hfind
        injection hfind with h
        exact h.symm
      subst hm
      refine ⟨out, ?_, ?_, hshape⟩
      · rw [updAtPoint_pos hself, hop]
      · rw [replaceAt_pos hself]
    · rcases hq : r.getQuad (QI.ofBools (decide (ex ≤ r.expiry)) (decide (pr < r.priority)))
        with _ | c
      · rw [findPoint_nochild hself hq] at hfind
        exact Option.noConfusion hfind
      · rw [findPoint_quad hself hq] at hfind
        have hsz' : osize (some c) ≤ f := by
          have h := osize_quad_lt r (QI.ofBools (decide (ex ≤ r.expiry))
            (decide (pr < r.priority)))
          rw [hq] at h
          omega
        have hregc : oRegionWF (some c) = true := by
          have h := oRegionWF_quad (QI.ofBools (decide (ex ≤ r.expiry))
            (decide (pr < r.priority))) hreg
          rw [hq] at h
          exact h
        obtain ⟨outC, hupd, houtC, hshapeC⟩ :=
          ih c hsz' hregc ex pr m hfind a out hop hshape hcnt
        have hcntC : ∀ pt, cnt pt (oPoints (outOpt outC)) ≤ cnt pt (oPoints (some c)) := by
          rw [houtC]
          exact replaceAt_counts hfind hcnt
        have hptsc := oRegionWF_quad_points (QI.ofBools (decide (ex ≤ r.expiry))
          (decide (pr < r.priority))) hreg
        rw [hq] at hptsc
        have happly := applyOutcome_spec r _ c outC hq hptsc hshapeC hcntC
        refine ⟨.keep (r.setQuad (QI.ofBools (decide (ex ≤ r.expiry))
          (decide (pr < r.priority))) (outOpt outC)), ?_, ?_, ?_⟩
        · rw [updAtPoint_quad hself hq]
          simp only [hupd, happly, bind, Except.bind, pure, Except.pure]
        · rw [replaceAt_quad hself hq, ← houtC]
          rfl
        · simp [outShape, outSelf]

/-- An error of the entry-level operation at the found node propagates out
of `updAtPoint` unchanged. -/
theorem updAtPoint_err {α : Type} (op : Node → Except Err (α × CleanOutcome)) :
    ∀ fuel (r : Node), osize (some r) ≤ fuel →
      ∀ ex pr m, findPoint r ex pr = some m →
      ∀ e, op m = .error e → updAtPoint r ex pr op = .error e := by
  intro fuel
  induction fuel with
  | zero =>
    intro r hsz
    rw [osize_some] at hsz
    omega
  | succ f ih =>
    intro r hsz ex pr m hfind e hop
    by_cases hself : r.expiry = ex ∧ r.priority = pr
    · have hm : m = r := by
        rw [findPoint_pos hself] at hfind
        injection hfind with h
        exact h.symm
      subst hm
      rw [updAtPoint_pos hself, hop]
    · rcases hq : r.getQuad (QI.ofBools (decide (ex ≤ r.expiry)) (decide (pr < r.priority)))
        with _ | c
      · rw [findPoint_nochild hself hq] at hfind
        exact Option.noConfusion hfind
      · rw [findPoint_quad hself hq] at hfind
        have hsz' : osize (some c) ≤ f := by
          have h := osize_quad_lt r (QI.ofBools (decide (ex ≤ r.expiry))
            (decide (pr < r.priority)))
          rw [hq] at h
          omega
        have hrec := ih c hsz' ex pr m hfind e hop
        rw [updAtPoint_quad hself hq]
        simp only [hrec, bind, Except.bind]

/-- A missed point makes `updAtPoint` fail with the dict `KeyError`. -/
theorem updAtPoint_fail {α : Type} (op : Node → Except Err (α × CleanOutcome)) :
    ∀ fuel (r : Node), osize (some r) ≤ fuel →
      ∀ ex pr, findPoint r ex pr = none →
      updAtPoint r ex pr op = .error .keyError := by
  intro fuel
  induction fuel with
  | zero =>
    intro r hsz
    rw [osize_some] at hsz
    omega
  | succ f ih =>
    intro r hsz ex pr hfind
    by_cases hself : r.expiry = ex ∧ r.priority = pr
    · rw [findPoint_pos hself] at hfind
      exact Option.noConfusion hfind
    · rcases hq : r.getQuad (QI.ofBools (decide (ex ≤ r.expiry)) (decide (pr < r.priority)))
        with _ | c
      · exact updAtPoint_nochild hself hq
      · rw [findPoint_quad hself hq] at hfind
        have hsz' : osize (some c) ≤ f := by
          have h := osize_quad_lt r (QI.ofBools (decide (ex ≤ r.expiry))
            (decide (pr < r.priority)))
          rw [hq] at h
          omega
        have hrec := ih c hsz' ex pr hfind
        rw [updAtPoint_quad hself hq]
        simp only [hrec, bind, Except.bind]

/-! Tree-level wrappers for the point navigation and the point surgery. -/

theorem findPointQ_sound {t : Quadtree} {pt : Int × Int} {n : Node}
    (h : t.findPointQ pt = some n) :
    n ∈ t.nodesQ ∧ n.expiry = pt.1 ∧ n.priority = pt.2 := by
  unfold Quadtree.findPointQ at h
  rcases hr : t.root with _ | r
  · rw [hr] at h
    exact Option.noConfusion h
  · rw [hr] at h
    obtain ⟨h1, h2, h3⟩ := findPoint_sound (osize (some r)) r pt.1 pt.2 (le_refl _) n h
    exact ⟨by rw [Quadtree.nodesQ, hr]; exact h1, h2, h3⟩

theorem findPointQ_eq {t : Quadtree} (hwf : t.treeWF = true) {x : Node}
    (hx : x ∈ t.nodesQ) : t.findPointQ (x.expiry, x.priority) = some x := by
  obtain ⟨hreg, _, hnd⟩ := treeWF_parts hwf
  rw [Quadtree.nodesQ] at hx
  unfold Quadtree.findPointQ
  rcases hr : t.root with _ | r
  · rw [hr] at hx
    simp [oNodes] at hx
  · rw [hr] at hx hreg hnd
    exact findPoint_eq hreg hnd hx

theorem findPointQ_none {t : Quadtree} (hwf : t.treeWF = true) {pt : Int × Int}
    (h : t.findPointQ pt = none) : pt ∉ t.pointsQ := by
  obtain ⟨hreg, _, _⟩ := treeWF_parts hwf
  rw [Quadtree.pointsQ]
  unfold Quadtree.findPointQ at h
  rcases hr : t.root with _ | r
  · simp [oPoints]
  · rw [hr] at h hreg
    exact findPoint_none hreg h

theorem updAtPointQ_run {α : Type} {op : Node → Except Err (α × CleanOutcome)}
    {t : Quadtree} {r m : Node} {pt : Int × Int}
    (hroot : t.root = some r) (hreg : oRegionWF t.root = true)
    (hfind : findPoint r pt.1 pt.2 = some m)
    {a : α} {out : CleanOutcome} (hop : op m = .ok (a, out)) (hshape : outShape m out)
    (hcnt : ∀ p, cnt p (oPoints (outOpt out)) ≤ cnt p (oPoints (some m))) :
    ∃ t', t.updAtPointQ pt op = .ok (a, t') ∧
      t'.root = replaceAt r pt.1 pt.2 (outOpt out) := by
  rw [hroot] at hreg
  obtain ⟨outT, hupd, houtT, _⟩ :=
    updAtPoint_run op (osize (some r)) r (le_refl _) hreg pt.1 pt.2 m hfind a out
      hop hshape hcnt
  refine ⟨Quadtree.applyTop outT, ?_, ?_⟩
  · unfold Quadtree.updAtPointQ
    rw [hroot]
    simp only [hupd, bind, Except.bind, pure, Except.pure]
  · rw [applyTop_root, houtT]

theorem updAtPointQ_err {α : Type} {op : Node → Except Err (α × CleanOutcome)}
    {t : Quadtree} {r m : Node} {pt : Int × Int}
    (hroot : t.root = some r)
    (hfind : findPoint r pt.1 pt.2 = some m)
    {e : Err} (hop : op m = .error e) : t.updAtPointQ pt op = .error e := by
  have h := updAtPoint_err op (osize (some r)) r (le_refl _) pt.1 pt.2 m hfind e hop
  unfold Quadtree.updAtPointQ
  rw [hroot]
  simp only [h, bind, Except.bind]

theorem updAtPointQ_fail {α : Type} {op : Node → Except Err (α × CleanOutcome)}
    {t : Quadtree} {r : Node} {pt : Int × Int}
    (hroot : t.root = some r)
    (hfind : findPoint r pt.1 pt.2 = none) :
    t.updAtPointQ pt op = .error .keyError := by
  have h := updAtPoint_fail op (osize (some r)) r (le_refl _) pt.1 pt.2 hfind
  unfold Quadtree.updAtPointQ
  rw [hroot]
  simp only [h, bind, Except.bind]

/-- The surgery preserves tree well-formedness when the inserted subtree is
well-formed, per-node consistent, and within the removed subtree's points. -/
theorem surgery_treeWF {t : Quadtree} {r m : Node} {pt : Int × Int}
    (hroot : t.root = some r) (hwf : t.treeWF = true)
    (hfind : findPoint r pt.1 pt.2 = some m)
    {X : Option Node} (hXreg : oRegionWF X = true)
    (hXcnt : ∀ p, cnt p (oPoints X) ≤ cnt p (oPoints (some m)))
    (hXcons : oAllNodes Node.consistB X = true) :
    Quadtree.treeWF ⟨replaceAt r pt.1 pt.2 X⟩ = true := by
  obtain ⟨hreg, hcons, hnd⟩ := treeWF_parts hwf
  rw [hroot] at hreg hcons hnd
  have hreg' := replaceAt_regionWF (osize (some r)) r pt.1 pt.2 (le_refl _) hreg m hfind
    X hXreg hXcnt
  have hnd' : nodupPoints (oPoints (replaceAt r pt.1 pt.2 X)) = true :=
    cnt_le_nodupPoints (replaceAt_counts hfind hXcnt) hnd
  have hcons' : oAllNodes Node.consistB (replaceAt r pt.1 pt.2 X) = true := by
    rw [oAllNodes_mem]
    intro m' hm'
    obtain ⟨_, _, _, _, _, _, hXf⟩ :=
      replaceAt_decomp (osize (some r)) r pt.1 pt.2 (le_refl _) m hfind
    obtain ⟨_, _, _, hsub⟩ := hXf X
    rcases hsub m' hm' with h | ⟨m0, hm0, _, _, hd, hl⟩
    · exact (oAllNodes_mem.mp hXcons) m' h
    · rw [← consistB_congr hd hl]
      exact (oAllNodes_mem.mp hcons) m0 hm0
  rw [Quadtree.treeWF]
  simp only [hreg', hcons', hnd']
  rfl

/-! Dictionary lemmas for the association-list model of Python dicts. -/

theorem dictGet_mem {α : Type} {d : List (Nat × α)} {k : Nat} {v : α}
    (h : dictGet d k = some v) : (k, v) ∈ d := by
  induction d with
  | nil => exact Option.noConfusion h
  | cons kv rest ih =>
    obtain ⟨k', v'⟩ := kv
    rw [dictGet] at h
    by_cases hk : k' = k
    · rw [if_pos hk] at h
      injection h with h
      subst hk h
      exact List.mem_cons_self _ _
    · rw [if_neg hk] at h
      exact List.mem_cons_of_mem _ (ih h)

theorem dictGet_dictSet_self {α : Type} (d : List (Nat × α)) (k : Nat) (v : α) :
    dictGet (dictSet d k v) k = some v := by
  induction d with
  | nil => simp [dictSet, dictGet]
  | cons kv rest ih =>
    obtain ⟨k', v'⟩ := kv
    rw [dictSet]
    by_cases hk : k' = k
    · rw [if_pos hk]
      simp [dictGet]
    · rw [if_neg hk, dictGet, if_neg hk]
      exact ih

theorem dictGet_dictSet_ne {α : Type} (d : List (Nat × α)) {k k' : Nat} (v : α)
    (h : k' ≠ k) : dictGet (dictSet d k v) k' = dictGet d k' := by
  induction d with
  | nil => simp [dictSet, dictGet, Ne.symm h]
  | cons kv rest ih =>
    obtain ⟨k2, v2⟩ := kv
    rw [dictSet]
    by_cases hk : k2 = k
    · rw [if_pos hk, dictGet, dictGet]
      subst hk
      rw [if_neg (fun hc => h hc.symm), if_neg (fun hc => h hc.symm)]
    · rw [if_neg hk, dictGet, dictGet]
      by_cases hk2 : k2 = k'
      · rw [if_pos hk2, if_pos hk2]
      · rw [if_neg hk2, if_neg hk2]
        exact ih

theorem dictSet_append {α : Type} {d : List (Nat × α)} {k : Nat}
    (h : dictGet d k = none) (v : α) : dictSet d k v = d ++ [(k, v)] := by
  induction d with
  | nil => rfl
  | cons kv rest ih =>
    obtain ⟨k', v'⟩ := kv
    rw [dictGet] at h
    by_cases hk : k' = k
    · rw [if_pos hk] at h
      exact Option.noConfusion h
    · rw [if_neg hk] at h
      rw [dictSet, if_neg hk, ih h]
      rfl

theorem dictGet_none_keys {α : Type} {d : List (Nat × α)} {k : Nat}
    (h : dictGet d k = none) : ∀ kv ∈ d, kv.1 ≠ k := by
  induction d with
  | nil => intro kv hkv; simp at hkv
  | cons kv0 rest ih =>
    obtain ⟨k', v'⟩ := kv0
    rw [dictGet] at h
    by_cases hk : k' = k
    · rw [if_pos hk] at h
      exact Option.noConfusion h
    · rw [if_neg hk] at h
      intro kv hkv
      rcases List.mem_cons.mp hkv with hkv | hkv
      · rw [hkv]
        exact hk
      · exact ih h kv hkv

theorem dictGet_keys_none {α : Type} {d : List (Nat × α)} {k : Nat}
    (h : ∀ kv ∈ d, kv.1 ≠ k) : dictGet d k = none := by
  induction d with
  | nil => rfl
  | cons kv0 rest ih =>
    obtain ⟨k', v'⟩ := kv0
    rw [dictGet, if_neg (h (k', v') (List.mem_cons_self _ _))]
    exact ih (fun kv hkv => h kv (List.mem_cons_of_mem _ hkv))

theorem dictPop_of_get_none {α : Type} {d : List (Nat × α)} {k : Nat}
    (h : dictGet d k = none) : dictPop d k = none := by
  induction d with
  | nil => rfl
  | cons kv0 rest ih =>
    obtain ⟨k', v'⟩ := kv0
    rw [dictGet] at h
    by_cases hk : k' = k
    · rw [if_pos hk] at h
      exact Option.noConfusion h
    · rw [if_neg hk] at h
      rw [dictPop, if_neg hk, ih h]

theorem dictErase_cons {α : Type} (k' : Nat) (v : α) (rest : List (Nat × α)) (k : Nat) :
    dictErase ((k', v) :: rest) k =
      if k' = k then rest else (k', v) :: dictErase rest k := by
  by_cases hk : k' = k
  · rw [if_pos hk]
    rw [dictErase, dictPop, if_pos hk]
  · rw [if_neg hk]
    rw [dictErase, dictPop, if_neg hk, dictErase]
    rcases hp : dictPop rest k with _ | ⟨v2, rest2⟩
    · rfl
    · rfl

theorem dictGet_dictErase_ne {α : Type} {d : List (Nat × α)} {k k' : Nat}
    (h : k' ≠ k) : dictGet (dictErase d k) k' = dictGet d k' := by
  induction d with
  | nil => rfl
  | cons kv0 rest ih =>
    obtain ⟨k2, v2⟩ := kv0
    rw [dictErase_cons]
    by_cases hk : k2 = k
    · rw [if_pos hk, dictGet]
      subst hk
      rw [if_neg (fun hc => h hc.symm)]
    · rw [if_neg hk, dictGet, dictGet]
      by_cases hk2 : k2 = k'
      · rw [if_pos hk2, if_pos hk2]
      · rw [if_neg hk2, if_neg hk2]
        exact ih

theorem dictErase_sub {α : Type} {d : List (Nat × α)} {k : Nat} :
    ∀ kv ∈ dictErase d k, kv ∈ d := by
  induction d with
  | nil => intro kv hkv; exact hkv
  | cons kv0 rest ih =>
    obtain ⟨k2, v2⟩ := kv0
    rw [dictErase_cons]
    by_cases hk : k2 = k
    · rw [if_pos hk]
      intro kv hkv
      exact List.mem_cons_of_mem _ hkv
    · rw [if_neg hk]
      intro kv hkv
      rcases List.mem_cons.mp hkv with hkv | hkv
      · rw [hkv]
        exact List.mem_cons_self _ _
      · exact List.mem_cons_of_mem _ (ih kv hkv)

/-! Pairwise characterisations of the per-node queue invariants, and their
closure under sublists and tail insertion. -/

theorem sortedLU_head_all {x : Entry} {l : List Entry} (h : sortedLU (x :: l) = true) :
    ∀ e ∈ l, x.last_used ≤ e.last_used := by
  induction l generalizing x with
  | nil => intro e he; simp at he
  | cons y t ih =>
    simp only [sortedLU, Bool.and_eq_true, decide_eq_true_eq] at h
    intro e he
    rcases List.mem_cons.mp he with he | he
    · rw [he]
      exact h.1
    · exact le_trans h.1 (ih h.2 e he)

theorem sortedLU_pairwise {l : List Entry} (h : sortedLU l = true) :
    l.Pairwise (fun a b => a.last_used ≤ b.last_used) := by
  induction l with
  | nil => exact List.Pairwise.nil
  | cons x t ih =>
    exact List.Pairwise.cons (sortedLU_head_all h) (ih (sortedLU_cons h))

theorem pairwise_sortedLU {l : List Entry}
    (h : l.Pairwise (fun a b => a.last_used ≤ b.last_used)) : sortedLU l = true := by
  induction l with
  | nil => rfl
  | cons x t ih =>
    rw [List.pairwise_cons] at h
    cases t with
    | nil => rfl
    | cons y t2 =>
      simp only [sortedLU, Bool.and_eq_true, decide_eq_true_eq]
      exact ⟨h.1 y (List.mem_cons_self _ _), ih h.2⟩

theorem sortedLU_sublist {l l' : List Entry} (hs : l'.Sublist l)
    (h : sortedLU l = true) : sortedLU l' = true :=
  pairwise_sortedLU ((sortedLU_pairwise h).sublist hs)

theorem sortedLU_append_one {l : List Entry} {x : Entry} (h : sortedLU l = true)
    (hall : ∀ e ∈ l, e.last_used ≤ x.last_used) : sortedLU (l ++ [x]) = true := by
  refine pairwise_sortedLU (List.pairwise_append.mpr ⟨sortedLU_pairwise h, ?_, ?_⟩)
  · simp
  · intro a ha b hb
    rw [List.mem_singleton] at hb
    rw [hb]
    exact hall a ha

theorem nodupEids_head_all {x : Entry} {l : List Entry} (h : nodupEids (x :: l) = true) :
    ∀ e ∈ l, e.eid ≠ x.eid := by
  simp only [nodupEids, Bool.and_eq_true, Bool.not_eq_true', List.any_eq_false,
    beq_iff_eq] at h
  exact h.1

theorem nodupEids_tail {x : Entry} {l : List Entry} (h : nodupEids (x :: l) = true) :
    nodupEids l = true := by
  simp only [nodupEids, Bool.and_eq_true] at h
  exact h.2

theorem nodupEids_pairwise {l : List Entry} (h : nodupEids l = true) :
    l.Pairwise (fun a b => a.eid ≠ b.eid) := by
  induction l with
  | nil => exact List.Pairwise.nil
  | cons x t ih =>
    exact List.Pairwise.cons (fun e he => Ne.symm (nodupEids_head_all h e he))
      (ih (nodupEids_tail h))

theorem pairwise_nodupEids {l : List Entry}
    (h : l.Pairwise (fun a b => a.eid ≠ b.eid)) : nodupEids l = true := by
  induction l with
  | nil => rfl
  | cons x t ih =>
    rw [List.pairwise_cons] at h
    simp only [nodupEids, Bool.and_eq_true, Bool.not_eq_true', List.any_eq_false,
      beq_iff_eq]
    exact ⟨fun e he => Ne.symm (h.1 e he), ih h.2⟩

theorem nodupEids_sublist {l l' : List Entry} (hs : l'.Sublist l)
    (h : nodupEids l = true) : nodupEids l' = true :=
  pairwise_nodupEids ((nodupEids_pairwise h).sublist hs)

theorem nodupEids_append_one {l : List Entry} {x : Entry} (h : nodupEids l = true)
    (hall : ∀ e ∈ l, e.eid ≠ x.eid) : nodupEids (l ++ [x]) = true := by
  refine pairwise_nodupEids (List.pairwise_append.mpr ⟨nodupEids_pairwise h, ?_, ?_⟩)
  · simp
  · intro a ha b hb
    rw [List.mem_singleton] at hb
    rw [hb]
    exact hall a ha

theorem nodupKeys_head_all {α : Type} {kv : Nat × α} {d : List (Nat × α)}
    (h : nodupKeys (kv :: d) = true) : ∀ kv' ∈ d, kv'.1 ≠ kv.1 := by
  simp only [nodupKeys, Bool.and_eq_true, Bool.not_eq_true', List.any_eq_false,
    beq_iff_eq] at h
  exact h.1

theorem nodupKeys_tail {α : Type} {kv : Nat × α} {d : List (Nat × α)}
    (h : nodupKeys (kv :: d) = true) : nodupKeys d = true := by
  simp only [nodupKeys, Bool.and_eq_true] at h
  exact h.2

theorem nodupKeys_pairwise {α : Type} {d : List (Nat × α)} (h : nodupKeys d = true) :
    d.Pairwise (fun a b => a.1 ≠ b.1) := by
  induction d with
  | nil => exact List.Pairwise.nil
  | cons kv t ih =>
    exact List.Pairwise.cons (fun e he => Ne.symm (nodupKeys_head_all h e he))
      (ih (nodupKeys_tail h))

theorem pairwise_nodupKeys {α : Type} {d : List (Nat × α)}
    (h : d.Pairwise (fun a b => a.1 ≠ b.1)) : nodupKeys d = true := by
  induction d with
  | nil => rfl
  | cons kv t ih =>
    rw [List.pairwise_cons] at h
    simp only [nodupKeys, Bool.and_eq_true, Bool.not_eq_true', List.any_eq_false,
      beq_iff_eq]
    exact ⟨fun e he => Ne.symm (h.1 e he), ih h.2⟩

theorem nodupKeys_sublist {α : Type} {d d' : List (Nat × α)} (hs : d'.Sublist d)
    (h : nodupKeys d = true) : nodupKeys d' = true :=
  pairwise_nodupKeys ((nodupKeys_pairwise h).sublist hs)

theorem nodupKeys_append_one {α : Type} {d : List (Nat × α)} {kv : Nat × α}
    (h : nodupKeys d = true) (hall : ∀ kv' ∈ d, kv'.1 ≠ kv.1) :
    nodupKeys (d ++ [kv]) = true := by
  refine pairwise_nodupKeys (List.pairwise_append.mpr ⟨nodupKeys_pairwise h, ?_, ?_⟩)
  · simp
  · intro a ha b hb
    rw [List.mem_singleton] at hb
    rw [hb]
    exact hall a ha

theorem consistB_parts {n : Node} (h : n.consistB = true) :
    n.data = n.lru.map (fun e => (e.key, e)) ∧ sortedLU n.lru = true ∧
      nodupEids n.lru = true ∧ nodupKeys n.data = true := by
  simp only [Node.consistB, Bool.and_eq_true, decide_eq_true_eq] at h
  exact ⟨h.1, h.2.1, h.2.2.1, h.2.2.2⟩

theorem consistB_build {n : Node} (h1 : n.data = n.lru.map (fun e => (e.key, e)))
    (h2 : sortedLU n.lru = true) (h3 : nodupEids n.lru = true)
    (h4 : nodupKeys n.data = true) : n.consistB = true := by
  simp only [Node.consistB, Bool.and_eq_true, decide_eq_true_eq]
  exact ⟨h1, h2, h3, h4⟩

/-! Locating an entry of a consistent node through its data dict. -/

theorem dictGet_map_split {l : List Entry} {k : Nat} {e : Entry}
    (h : dictGet (l.map fun x => (x.key, x)) k = some e) :
    ∃ l1 l2, l = l1 ++ e :: l2 ∧ e.key = k ∧ (∀ x ∈ l1, x.key ≠ k) := by
  induction l with
  | nil => exact Option.noConfusion h
  | cons x t ih =>
    rw [List.map_cons, dictGet] at h
    by_cases hk : x.key = k
    · rw [if_pos hk] at h
      injection h with h
      subst h
      exact ⟨[], t, rfl, hk, by intro y hy; simp at hy⟩
    · rw [if_neg hk] at h
      obtain ⟨l1, l2, hsplit, hke, hl1⟩ := ih h
      refine ⟨x :: l1, l2, by rw [hsplit]; rfl, hke, ?_⟩
      intro y hy
      rcases List.mem_cons.mp hy with hy | hy
      · rw [hy]; exact hk
      · exact hl1 y hy

theorem dictPop_map_split {l1 l2 : List Entry} {e : Entry} {k : Nat}
    (he : e.key = k) (h1 : ∀ x ∈ l1, x.key ≠ k) :
    dictPop ((l1 ++ e :: l2).map fun x => (x.key, x)) k =
      some (e, (l1 ++ l2).map fun x => (x.key, x)) := by
  induction l1 with
  | nil =>
    simp only [List.nil_append, List.map_cons]
    rw [dictPop, if_pos he]
  | cons x t ih =>
    simp only [List.cons_append, List.map_cons]
    rw [dictPop, if_neg (h1 x (List.mem_cons_self _ _))]
    rw [ih (fun y hy => h1 y (List.mem_cons_of_mem _ hy))]

theorem dictGet_map_none {l : List Entry} {k : Nat} (h : ∀ x ∈ l, x.key ≠ k) :
    dictGet (l.map fun x => (x.key, x)) k = none := by
  refine dictGet_keys_none ?_
  intro kv hkv
  rw [List.mem_map] at hkv
  obtain ⟨x, hx, hkx⟩ := hkv
  rw [← hkx]
  exact h x hx

/-- Finding `k` in a consistent node's data dict pins down the entry's
position in the lru queue: the queue splits around the entry, which is the
unique carrier of `k` and of its own identity. -/
theorem consist_find {n : Node} (hc : n.consistB = true) {k : Nat} {e : Entry}
    (hget : dictGet n.data k = some e) :
    ∃ l1 l2, n.lru = l1 ++ e :: l2 ∧ e.key = k ∧
      dictPop n.data k = some (e, (l1 ++ l2).map fun x => (x.key, x)) ∧
      (∀ x ∈ l1, x.eid ≠ e.eid) ∧ (∀ x ∈ l2, x.eid ≠ e.eid) ∧
      (∀ x ∈ l1, x.key ≠ k) ∧ (∀ x ∈ l2, x.key ≠ k) := by
  obtain ⟨hdata, hsort, heids, hkeys⟩ := consistB_parts hc
  rw [hdata] at hget
  obtain ⟨l1, l2, hsplit, hke, hl1⟩ := dictGet_map_split hget
  have hpop : dictPop n.data k = some (e, (l1 ++ l2).map fun x => (x.key, x)) := by
    rw [hdata, hsplit]
    exact dictPop_map_split hke hl1
  have hpe : nodupEids n.lru = true := heids
  rw [hsplit] at hpe
  have hpw := nodupEids_pairwise hpe
  rw [List.pairwise_append] at hpw
  obtain ⟨hpw1, hpw2, hpw12⟩ := hpw
  have hl1e : ∀ x ∈ l1, x.eid ≠ e.eid := by
    intro x hx
    exact hpw12 x hx e (List.mem_cons_self _ _)
  have hl2e : ∀ x ∈ l2, x.eid ≠ e.eid := by
    rw [List.pairwise_cons] at hpw2
    intro x hx
    exact Ne.symm (hpw2.1 x hx)
  have hl2k : ∀ x ∈ l2, x.key ≠ k := by
    have hk : nodupKeys n.data = true := hkeys
    rw [hdata, hsplit] at hk
    have hkpw := nodupKeys_pairwise hk
    simp only [List.map_append, List.map_cons, List.pairwise_append,
      List.pairwise_cons] at hkpw
    intro x hx hcon
    refine hkpw.2.1.1 (x.key, x) (List.mem_map_of_mem _ hx) ?_
    simp only
    rw [hcon, hke]
  exact ⟨l1, l2, hsplit, hke, hpop, hl1e, hl2e, hl1, hl2k⟩

/-! Invariance of the traversals under `withDataLru` and `add_entry`. -/

theorem oPoints_withDataLru (n : Node) (d : List (Nat × Entry)) (l : List Entry) :
    oPoints (some (n.withDataLru d l)) = oPoints (some n) := by
  rw [oPoints_some, oPoints_some]
  simp

theorem oRegionWF_withDataLru (n : Node) (d : List (Nat × Entry)) (l : List Entry) :
    oRegionWF (some (n.withDataLru d l)) = oRegionWF (some n) := by
  rw [oRegionWF_some, oRegionWF_some]
  simp

theorem oPoints_add_entry (n : Node) (k v : Nat) (now : Int) (eid : Nat) :
    oPoints (some (n.add_entry k v now eid)) = oPoints (some n) := by
  rw [oPoints_some, oPoints_some]
  simp

theorem oRegionWF_add_entry (n : Node) (k v : Nat) (now : Int) (eid : Nat) :
    oRegionWF (some (n.add_entry k v now eid)) = oRegionWF (some n) := by
  rw [oRegionWF_some, oRegionWF_some]
  simp

theorem oEntries_withDataLru_ctx (n : Node) :
    ∃ Q, (∀ d l, oEntries (some (n.withDataLru d l)) = l ++ Q) ∧
      oEntries (some n) = n.lru ++ Q := by
  refine ⟨oEntries (n.getQuad .one) ++ (oEntries (n.getQuad .two) ++
    (oEntries (n.getQuad .three) ++ oEntries (n.getQuad .four))), ?_, oEntries_some n⟩
  intro d l
  rw [oEntries_some]
  simp

/-! Entry-level node operations on consistent nodes. -/

/-- `Node.pop_lru` on a consistent non-empty node: pops the head of the lru
queue, drops its key from the data dict, and cleans. -/
theorem pop_lru_ok {n : Node} (hc : n.consistB = true) {e : Entry} {rest : List Entry}
    (hlru : n.lru = e :: rest) :
    n.pop_lru = .ok (e.key, (n.withDataLru (rest.map fun x => (x.key, x)) rest).clean) ∧
    (n.withDataLru (rest.map fun x => (x.key, x)) rest).consistB = true := by
  obtain ⟨hdata, hsort, heids, hkeys⟩ := consistB_parts hc
  have hemp : n.empty = false := by
    simp [Node.empty, hlru]
  have hpop : dictPop n.data ((n.lru.headD default).key) =
      some (e, rest.map fun x => (x.key, x)) := by
    rw [hdata, hlru]
    simp only [List.map_cons, List.headD_cons]
    rw [dictPop, if_pos rfl]
  constructor
  · rw [Node.pop_lru, hemp]
    simp only [Bool.false_eq_true, if_false, hpop]
    rw [hlru]
    simp
  · refine consistB_build ?_ ?_ ?_ ?_
    · simp
    · rw [Node.lru_withDataLru]
      rw [hlru] at hsort
      exact sortedLU_cons hsort
    · rw [Node.lru_withDataLru]
      rw [hlru] at heids
      exact nodupEids_tail heids
    · rw [Node.data_withDataLru]
      rw [hdata, hlru] at hkeys
      exact nodupKeys_tail hkeys

/-- `Node.deleteEntryRaw` on a consistent node holding the key: removes
exactly that entry from both containers, and the result is consistent with
the key gone. -/
theorem deleteEntry_full {n : Node} (hc : n.consistB = true) {k : Nat} {e : Entry}
    (hget : dictGet n.data k = some e) :
    ∃ l1 l2, n.lru = l1 ++ e :: l2 ∧ e.key = k ∧
      n.deleteEntryRaw k =
        .ok (n.withDataLru ((l1 ++ l2).map fun x => (x.key, x)) (l1 ++ l2)) ∧
      (n.withDataLru ((l1 ++ l2).map fun x => (x.key, x)) (l1 ++ l2)).consistB = true ∧
      dictGet ((l1 ++ l2).map fun x => (x.key, x)) k = none := by
  obtain ⟨hdata, hsort, heids, hkeys⟩ := consistB_parts hc
  obtain ⟨l1, l2, hsplit, hke, hpop, hl1e, _, hl1k, hl2k⟩ := consist_find hc hget
  have hsub : (l1 ++ l2).Sublist n.lru := by
    rw [hsplit]
    exact (List.Sublist.refl l1).append (List.sublist_cons_self e l2)
  refine ⟨l1, l2, hsplit, hke, ?_, ?_, ?_⟩
  · exact deleteEntryRaw_ok n k e _ l1 l2 hpop hsort hsplit hl1e
  · refine consistB_build ?_ ?_ ?_ ?_
    · simp
    · rw [Node.lru_withDataLru]
      exact sortedLU_sublist hsub hsort
    · rw [Node.lru_withDataLru]
      exact nodupEids_sublist hsub heids
    · rw [Node.data_withDataLru]
      refine nodupKeys_sublist ?_ hkeys
      rw [hdata]
      exact hsub.map _
  · refine dictGet_map_none ?_
    intro x hx
    rcases List.mem_append.mp hx with hx | hx
    · exact hl1k x hx
    · exact hl2k x hx

/-- `Node.access_entry` on a consistent node holding the key: returns the
stored value and re-appends a fresh entry at the tail of the queue. -/
theorem access_entry_ok {n : Node} (hc : n.consistB = true) {k : Nat} {e : Entry}
    (hget : dictGet n.data k = some e) (now : Int) (eid : Nat) :
    ∃ l1 l2, n.lru = l1 ++ e :: l2 ∧
      n.access_entry k now eid = .ok (e.value,
        (n.withDataLru ((l1 ++ l2).map fun x => (x.key, x)) (l1 ++ l2)).add_entry
          k e.value now eid) := by
  obtain ⟨l1, l2, hsplit, _, hraw, _, _⟩ := deleteEntry_full hc hget
  refine ⟨l1, l2, hsplit, ?_⟩
  rw [Node.access_entry]
  simp only [hget, hraw, bind, Except.bind, pure, Except.pure]

/-- `Node.add_entry` of a fresh key keeps a node consistent when all stored
entries are older than the new timestamp and identity. -/
theorem add_entry_consist {n : Node} (hc : n.consistB = true) {k : Nat}
    (hfresh : dictGet n.data k = none) {v : Nat} {now : Int} {eid : Nat}
    (hba : ∀ e ∈ n.lru, e.last_used ≤ now) (hbe : ∀ e ∈ n.lru, e.eid < eid) :
    (n.add_entry k v now eid).consistB = true := by
  obtain ⟨hdata, hsort, heids, hkeys⟩ := consistB_parts hc
  refine consistB_build ?_ ?_ ?_ ?_
  · rw [Node.data_add_entry, Node.lru_add_entry, dictSet_append hfresh, hdata]
    simp
  · rw [Node.lru_add_entry]
    exact sortedLU_append_one hsort hba
  · rw [Node.lru_add_entry]
    refine nodupEids_append_one heids ?_
    intro e he
    have := hbe e he
    simp only
    omega
  · rw [Node.data_add_entry, dictSet_append hfresh]
    refine nodupKeys_append_one hkeys ?_
    exact dictGet_none_keys hfresh

/-! Insertion: `Node.insert` routes a fresh point to its place and
preserves the tree invariants. -/

/-- The routing comparison pair places a point inside the region it names. -/
theorem routes_region (e0 p0 ex pr : Int) :
    inRegion e0 p0 (QI.ofBools (decide (ex ≤ e0)) (decide (pr < p0))) (ex, pr) = true := by
  by_cases h1 : ex ≤ e0 <;> by_cases h2 : pr < p0 <;>
    simp [QI.ofBools, inRegion, h1, h2] <;> omega

theorem oPoints_leaf (ex pr : Int) :
    oPoints (some (.mk ex pr none none none none [] [])) = [(ex, pr)] := by
  rw [oPoints_some]
  simp [Node.getQuad, Node.expiry, Node.priority]

theorem oNodes_leaf (ex pr : Int) :
    oNodes (some (.mk ex pr none none none none [] [])) =
      [Node.mk ex pr none none none none [] []] := by
  rw [oNodes_some]
  simp [Node.getQuad]

theorem oRegionWF_leaf (ex pr : Int) :
    oRegionWF (some (.mk ex pr none none none none [] [])) = true := by
  rw [oRegionWF_some]
  simp [Node.getQuad, oPoints]

theorem insertN_counts : ∀ fuel (r : Node) (pr ex : Int), osize (some r) ≤ fuel →
    ∀ pt, cnt pt (oPoints (some (r.insertN pr ex))) =
      cnt pt (oPoints (some r)) + (if pt = (ex, pr) then 1 else 0) := by
  intro fuel
  induction fuel with
  | zero =>
    intro r pr ex hsz
    rw [osize_some] at hsz
    omega
  | succ f ih =>
    intro r pr ex hsz pt
    rcases hq : r.getQuad (QI.ofBools (decide (ex ≤ r.expiry)) (decide (pr < r.priority)))
      with _ | c
    · rw [insertN_nochild hq]
      have h := oPoints_count_setQuad r
        (QI.ofBools (decide (ex ≤ r.expiry)) (decide (pr < r.priority)))
        (some (.mk ex pr none none none none [] [])) pt
      rw [hq] at h
      simp only [oPoints_none, cnt_nil, oPoints_leaf] at h
      have hleaf : cnt pt [((ex : Int), (pr : Int))] = if pt = (ex, pr) then 1 else 0 := by
        by_cases hpe : pt = (ex, pr)
        · subst hpe
          simp [cnt]
        · rw [if_neg hpe]
          simp only [cnt_cons, cnt_nil]
          rw [if_neg (fun hc => hpe hc.symm)]
      omega
    · rw [insertN_quad hq]
      have hsz' : osize (some c) ≤ f := by
        have h := osize_quad_lt r (QI.ofBools (decide (ex ≤ r.expiry))
          (decide (pr < r.priority)))
        rw [hq] at h
        omega
      have h := oPoints_count_setQuad r
        (QI.ofBools (decide (ex ≤ r.expiry)) (decide (pr < r.priority)))
        (some (c.insertN pr ex)) pt
      rw [hq] at h
      have hrec := ih c pr ex hsz' pt
      omega

theorem insertN_regionWF : ∀ fuel (r : Node) (pr ex : Int), osize (some r) ≤ fuel →
    oRegionWF (some r) = true → oRegionWF (some (r.insertN pr ex)) = true := by
  intro fuel
  induction fuel with
  | zero =>
    intro r pr ex hsz
    rw [osize_some] at hsz
    omega
  | succ f ih =>
    intro r pr ex hsz hreg
    have hmemreg : ∀ (x : Option Node),
        (∀ pt ∈ oPoints x, pt ∈ oPoints
          (r.getQuad (QI.ofBools (decide (ex ≤ r.expiry)) (decide (pr < r.priority)))) ∨
          pt = (ex, pr)) →
        (oPoints x).all (inRegion r.expiry r.priority
          (QI.ofBools (decide (ex ≤ r.expiry)) (decide (pr < r.priority)))) = true := by
      intro x hx
      rw [List.all_eq_true]
      intro pt hpt
      rcases hx pt hpt with h | h
      · have hq := oRegionWF_quad_points
          (QI.ofBools (decide (ex ≤ r.expiry)) (decide (pr < r.priority))) hreg
        rw [List.all_eq_true] at hq
        exact hq pt h
      · rw [h]
        exact routes_region r.expiry r.priority ex pr
    rcases hq : r.getQuad (QI.ofBools (decide (ex ≤ r.expiry)) (decide (pr < r.priority)))
      with _ | c
    · rw [insertN_nochild hq]
      refine oRegionWF_setQuad _ hreg ?_ (oRegionWF_leaf ex pr)
      refine hmemreg _ ?_
      rw [oPoints_leaf]
      intro pt hpt
      rw [List.mem_singleton] at hpt
      exact Or.inr hpt
    · rw [insertN_quad hq]
      have hsz' : osize (some c) ≤ f := by
        have h := osize_quad_lt r (QI.ofBools (decide (ex ≤ r.expiry))
          (decide (pr < r.priority)))
        rw [hq] at h
        omega
      have hregc : oRegionWF (some c) = true := by
        have h := oRegionWF_quad (QI.ofBools (decide (ex ≤ r.expiry))
          (decide (pr < r.priority))) hreg
        rw [hq] at h
        exact h
      refine oRegionWF_setQuad _ hreg ?_ (ih c pr ex hsz' hregc)
      refine hmemreg _ ?_
      intro pt hpt
      have hcnt : 0 < cnt pt (oPoints (some (c.insertN pr ex))) :=
        cnt_pos_iff_mem.mpr hpt
      rw [insertN_counts (osize (some c)) c pr ex (le_refl _)] at hcnt
      by_cases hpe : pt = (ex, pr)
      · exact Or.inr hpe
      · rw [if_neg hpe] at hcnt
        rw [hq]
        exact Or.inl (cnt_pos_iff_mem.mp (by omega))

theorem insertN_nodes : ∀ fuel (r : Node) (pr ex : Int), osize (some r) ≤ fuel →
    ∀ m ∈ oNodes (some (r.insertN pr ex)),
      (∃ m0 ∈ oNodes (some r), m0.expiry = m.expiry ∧ m0.priority = m.priority ∧
        m0.data = m.data ∧ m0.lru = m.lru) ∨ (m.data = [] ∧ m.lru = []) := by
  intro fuel
  induction fuel with
  | zero =>
    intro r pr ex hsz
    rw [osize_some] at hsz
    omega
  | succ f ih =>
    intro r pr ex hsz m hm
    rcases hq : r.getQuad (QI.ofBools (decide (ex ≤ r.expiry)) (decide (pr < r.priority)))
      with _ | c
    · rw [insertN_nochild hq] at hm
      rcases oNodes_setQuad_mem r _ _ m hm with hm | hm | hm
      · refine Or.inl ⟨r, self_mem_oNodes r, ?_, ?_, ?_, ?_⟩ <;> rw [hm] <;> simp
      · rw [oNodes_leaf] at hm
        rw [List.mem_singleton] at hm
        rw [hm]
        exact Or.inr ⟨rfl, rfl⟩
      · exact Or.inl ⟨m, hm, rfl, rfl, rfl, rfl⟩
    · rw [insertN_quad hq] at hm
      have hsz' : osize (some c) ≤ f := by
        have h := osize_quad_lt r (QI.ofBools (decide (ex ≤ r.expiry))
          (decide (pr < r.priority)))
        rw [hq] at h
        omega
      rcases oNodes_setQuad_mem r _ _ m hm with hm | hm | hm
      · refine Or.inl ⟨r, self_mem_oNodes r, ?_, ?_, ?_, ?_⟩ <;> rw [hm] <;> simp
      · rcases ih c pr ex hsz' m hm with ⟨m0, hm0, h⟩ | h
        · refine Or.inl ⟨m0, ?_, h⟩
          refine oNodes_quad_sub r
            (QI.ofBools (decide (ex ≤ r.expiry)) (decide (pr < r.priority))) ?_
          rw [hq]
          exact hm0
        · exact Or.inr h
      · exact Or.inl ⟨m, hm, rfl, rfl, rfl, rfl⟩

/-- `Quadtree.insert` of a point not yet present: the tree stays
well-formed, now contains the point, its nodes are the old ones (by
contents) plus empty fresh nodes, and point counts grow exactly at the
inserted point. -/
theorem insertQ_spec (t : Quadtree) (pr ex : Int) (hwf : t.treeWF = true)
    (habs : ((ex : Int), (pr : Int)) ∉ t.pointsQ) :
    (t.insertQ pr ex).treeWF = true ∧
    ((ex : Int), (pr : Int)) ∈ (t.insertQ pr ex).pointsQ ∧
    (∀ m ∈ (t.insertQ pr ex).nodesQ,
      (∃ m0 ∈ t.nodesQ, m0.expiry = m.expiry ∧ m0.priority = m.priority ∧
        m0.data = m.data ∧ m0.lru = m.lru) ∨ (m.data = [] ∧ m.lru = [])) ∧
    (∀ pt, cnt pt (t.insertQ pr ex).pointsQ =
      cnt pt t.pointsQ + (if pt = (ex, pr) then 1 else 0)) := by
  obtain ⟨hreg, hcons, hnd⟩ := treeWF_parts hwf
  rcases hr : t.root with _ | r
  · have hins : t.insertQ pr ex = ⟨some (.mk ex pr none none none none [] [])⟩ := by
      rw [Quadtree.insertQ, hr]
    rw [hins]
    simp only [Quadtree.pointsQ, Quadtree.nodesQ, Quadtree.treeWF, Quadtree.pointsQ, hr]
    refine ⟨?_, ?_, ?_, ?_⟩
    · have hca : oAllNodes Node.consistB (some (Node.mk ex pr none none none none [] []))
          = true := by
        rw [oAllNodes_mem]
        intro m hm
        rw [oNodes_leaf, List.mem_singleton] at hm
        rw [hm]
        exact consist_cleared rfl rfl
      rw [oRegionWF_leaf, hca, oPoints_leaf]
      simp [nodupPoints]
    · rw [oPoints_leaf]
      exact List.mem_singleton.mpr rfl
    · intro m hm
      rw [oNodes_leaf, List.mem_singleton] at hm
      rw [hm]
      exact Or.inr ⟨rfl, rfl⟩
    · intro pt
      rw [oPoints_leaf]
      simp only [oPoints, cnt_cons, cnt_nil]
      by_cases hpe : pt = (ex, pr)
      · subst hpe
        simp
      · rw [if_neg hpe, if_neg (fun hc => hpe hc.symm)]
  · have hins : t.insertQ pr ex = ⟨some (r.insertN pr ex)⟩ := by
      rw [Quadtree.insertQ, hr]
    rw [hr] at hreg hcons hnd
    rw [hins]
    simp only [Quadtree.pointsQ, Quadtree.nodesQ, Quadtree.treeWF]
    have hcnts := insertN_counts (osize (some r)) r pr ex (le_refl _)
    have habs' : cnt ((ex : Int), (pr : Int)) (oPoints (some r)) = 0 := by
      rw [Quadtree.pointsQ, hr] at habs
      by_contra hcon
      exact habs (cnt_pos_iff_mem.mp (by omega))
    have hnodes : ∀ m ∈ oNodes (some (r.insertN pr ex)),
        (∃ m0 ∈ oNodes (some r), m0.expiry = m.expiry ∧ m0.priority = m.priority ∧
          m0.data = m.data ∧ m0.lru = m.lru) ∨ (m.data = [] ∧ m.lru = []) :=
      insertN_nodes (osize (some r)) r pr ex (le_refl _)
    refine ⟨?_, ?_, ?_, ?_⟩
    · have hreg' := insertN_regionWF (osize (some r)) r pr ex (le_refl _) hreg
      have hcons' : oAllNodes Node.consistB (some (r.insertN pr ex)) = true := by
        rw [oAllNodes_mem]
        intro m hm
        rcases hnodes m hm with ⟨m0, hm0, _, _, hd, hl⟩ | ⟨hd, hl⟩
        · rw [← consistB_congr hd hl]
          exact (oAllNodes_mem.mp hcons) m0 hm0
        · exact consist_cleared hd hl
      have hnd' : nodupPoints (oPoints (some (r.insertN pr ex))) = true := by
        rw [nodupPoints_cnt]
        intro pt
        rw [hcnts pt]
        have h1 := nodupPoints_cnt.mp hnd pt
        by_cases hpe : pt = (ex, pr)
        · subst hpe
          rw [if_pos rfl]
          omega
        · rw [if_neg hpe]
          omega
      rw [hreg', hcons', hnd']
      rfl
    · have h := hcnts ((ex : Int), (pr : Int))
      rw [habs', if_pos rfl] at h
      exact cnt_pos_iff_mem.mp (by omega)
    · rw [hr] at *
      exact hnodes
    · rw [hr] at *
      exact hcnts

/-! The pruned breadth-first search of `prune_lowest_priority`. -/

theorem Node_size_pos (n : Node) : 1 ≤ n.size := by
  rw [Node.size, osize_some]
  omega

theorem oRegionWF_mem : ∀ fuel (o : Option Node), osize o ≤ fuel →
    oRegionWF o = true → ∀ s ∈ oNodes o, oRegionWF (some s) = true := by
  intro fuel
  induction fuel with
  | zero =>
    intro o ho _ s hs
    cases o with
    | none => simp [oNodes] at hs
    | some n => rw [osize_some] at ho; omega
  | succ f ih =>
    intro o ho hreg s hs
    cases o with
    | none => simp [oNodes] at hs
    | some n =>
      rw [osize_some] at ho
      rw [oNodes_some] at hs
      simp only [List.mem_cons, List.mem_append] at hs
      rcases hs with hs | hs | hs | hs | hs
      · rw [hs]
        exact hreg
      · exact ih _ (by omega) (oRegionWF_quad .one hreg) s hs
      · exact ih _ (by omega) (oRegionWF_quad .two hreg) s hs
      · exact ih _ (by omega) (oRegionWF_quad .three hreg) s hs
      · exact ih _ (by omega) (oRegionWF_quad .four hreg) s hs

theorem oNodes_cases {m n : Node} (hm : m ∈ oNodes (some n)) :
    m = n ∨ ∃ (i : QI) (c : Node), n.getQuad i = some c ∧ m ∈ oNodes (some c) := by
  rw [oNodes_some] at hm
  simp only [List.mem_cons, List.mem_append] at hm
  have hq : ∀ i : QI, m ∈ oNodes (n.getQuad i) →
      ∃ (i : QI) (c : Node), n.getQuad i = some c ∧ m ∈ oNodes (some c) := by
    intro i hi
    rcases h : n.getQuad i with _ | c
    · rw [h] at hi
      simp [oNodes] at hi
    · rw [h] at hi
      exact ⟨i, c, h, hi⟩
  rcases hm with hm | hm | hm | hm | hm
  · exact Or.inl hm
  · exact Or.inr (hq .one hm)
  · exact Or.inr (hq .two hm)
  · exact Or.inr (hq .three hm)
  · exact Or.inr (hq .four hm)

theorem mem_allQuads {n c : Node} {i : QI} (hq : n.getQuad i = some c) :
    c ∈ n.allQuads := by
  cases i <;> simp [Node.allQuads, hq]

theorem allQuads_cases {n c : Node} (h : c ∈ n.allQuads) :
    ∃ i : QI, n.getQuad i = some c := by
  simp only [Node.allQuads, List.mem_append, Option.mem_toList, Option.mem_def] at h
  rcases h with (h | h) | (h | h)
  · exact ⟨.one, h⟩
  · exact ⟨.two, h⟩
  · exact ⟨.three, h⟩
  · exact ⟨.four, h⟩

theorem lower_cases {n c : Node} (h : c ∈ n.lower_priority_nodes) :
    n.getQuad .two = some c ∨ n.getQuad .four = some c := by
  simp only [Node.lower_priority_nodes, List.mem_append, Option.mem_toList,
    Option.mem_def] at h
  exact h

theorem mem_lower_two {n c : Node} (hq : n.getQuad .two = some c) :
    c ∈ n.lower_priority_nodes := by
  simp [Node.lower_priority_nodes, hq]

theorem mem_lower_four {n c : Node} (hq : n.getQuad .four = some c) :
    c ∈ n.lower_priority_nodes := by
  simp [Node.lower_priority_nodes, hq]

theorem allQuads_sub {n c : Node} (h : c ∈ n.allQuads) : c ∈ oNodes (some n) := by
  obtain ⟨i, hq⟩ := allQuads_cases h
  refine oNodes_quad_sub n i ?_
  rw [hq]
  exact self_mem_oNodes c

theorem allQuads_size (node : Node) :
    ((node.allQuads.map Node.size).sum) < node.size := by
  cases node with
  | mk e p a b c d dt l =>
    cases a <;> cases b <;> cases c <;> cases d <;>
      simp [Node.allQuads, Node.getQuad, Node.size, osize] <;> omega

theorem lower_size (node : Node) :
    ((node.lower_priority_nodes.map Node.size).sum) < node.size := by
  cases node with
  | mk e p a b c d dt l =>
    cases b <;> cases d <;>
      simp [Node.lower_priority_nodes, Node.getQuad, Node.size, osize] <;> omega

/-- Nodes in a best-quadrant subtree (slots ONE and THREE) have strictly
higher priority (numerically smaller) than the parent. -/
theorem quad_pri_lt {n m c : Node} {i : QI} (hi : i = QI.one ∨ i = QI.three)
    (hreg : oRegionWF (some n) = true) (hq : n.getQuad i = some c)
    (hm : m ∈ oNodes (some c)) : m.priority < n.priority := by
  have hpts := oRegionWF_quad_points i hreg
  rw [hq, List.all_eq_true] at hpts
  have hr := hpts _ (mem_oPoints_of_mem_oNodes hm)
  rcases hi with hi | hi <;> subst hi <;>
    simp only [inRegion, Bool.and_eq_true, decide_eq_true_eq] at hr <;>
    exact hr.2

/-- The candidate-ordering invariant of the search: the candidate is
non-empty, no worse in priority than `m`, and no younger on a priority
tie. -/
def dominates (lowest m : Node) : Prop :=
  lowest.empty = false ∧ m.priority ≤ lowest.priority ∧
    (m.priority = lowest.priority → lowest.lru_time ≤ m.lru_time)

theorem lowestGo_nil (lowest : Node) : lowestGo [] lowest = lowest := by
  simp only [lowestGo]

theorem lowestGo_cons_empty {node : Node} (h : node.empty = true)
    (rest : List Node) (lowest : Node) :
    lowestGo (node :: rest) lowest = lowestGo (node.allQuads ++ rest) lowest := by
  rw [lowestGo, if_pos h]

theorem lowestGo_cons_full {node : Node} (h : node.empty = false)
    (rest : List Node) (lowest : Node) :
    lowestGo (node :: rest) lowest =
      lowestGo (node.lower_priority_nodes ++ rest)
        (if lowest.empty then node
         else if node.priority > lowest.priority ∨
             (node.priority = lowest.priority ∧ node.lru_time < lowest.lru_time) then node
         else lowest) := by
  rw [lowestGo, if_neg (by simp [h])]

/-- Loop invariant of the pruned search: the stack and the candidate stay
inside the tree, and every non-empty node is either dominated by the
candidate or reachable from a stack element; at exhaustion the candidate
dominates every non-empty node of the tree. -/
theorem lowestGo_spec (r : Node) (hreg : oRegionWF (some r) = true) :
    ∀ N (stack : List Node) (lowest : Node), (stack.map Node.size).sum ≤ N →
      (∀ s ∈ stack, s ∈ oNodes (some r)) →
      lowest ∈ oNodes (some r) →
      (∀ m ∈ oNodes (some r), m.empty = false →
        dominates lowest m ∨ ∃ s ∈ stack, m ∈ oNodes (some s)) →
      lowestGo stack lowest ∈ oNodes (some r) ∧
      (∀ m ∈ oNodes (some r), m.empty = false → dominates (lowestGo stack lowest) m) := by
  intro N
  induction N with
  | zero =>
    intro stack lowest hsum hstack hlow hcov
    cases stack with
    | nil =>
      rw [lowestGo_nil]
      refine ⟨hlow, ?_⟩
      intro m hm hme
      rcases hcov m hm hme with h | ⟨s, hs, _⟩
      · exact h
      · simp at hs
    | cons node rest =>
      exfalso
      have h1 := Node_size_pos node
      simp only [List.map_cons, List.sum_cons] at hsum
      omega
  | succ N ih =>
    intro stack lowest hsum hstack hlow hcov
    cases stack with
    | nil =>
      rw [lowestGo_nil]
      refine ⟨hlow, ?_⟩
      intro m hm hme
      rcases hcov m hm hme with h | ⟨s, hs, _⟩
      · exact h
      · simp at hs
    | cons node rest =>
      have hnodemem : node ∈ oNodes (some r) := hstack node (List.mem_cons_self _ _)
      have hnodereg : oRegionWF (some node) = true :=
        oRegionWF_mem (osize (some r)) (some r) (le_refl _) hreg node hnodemem
      simp only [List.map_cons, List.sum_cons] at hsum
      rcases hne : node.empty with _ | _
      · -- non-empty node: update the candidate, push the worst quadrants
        rw [lowestGo_cons_full hne]
        set lowest' := (if lowest.empty = true then node
          else if node.priority > lowest.priority ∨
              (node.priority = lowest.priority ∧ node.lru_time < lowest.lru_time) then node
          else lowest) with hL
        have hlow' : lowest' ∈ oNodes (some r) := by
          rw [hL]
          by_cases h1 : lowest.empty = true
          · rw [if_pos h1]
            exact hnodemem
          · rw [if_neg h1]
            by_cases h2 : node.priority > lowest.priority ∨
                (node.priority = lowest.priority ∧ node.lru_time < lowest.lru_time)
            · rw [if_pos h2]
              exact hnodemem
            · rw [if_neg h2]
              exact hlow
        have hnodedom : dominates lowest' node := by
          rw [hL]
          by_cases h1 : lowest.empty = true
          · rw [if_pos h1]
            exact ⟨hne, le_refl _, fun _ => le_refl _⟩
          · rw [if_neg h1]
            by_cases h2 : node.priority > lowest.priority ∨
                (node.priority = lowest.priority ∧ node.lru_time < lowest.lru_time)
            · rw [if_pos h2]
              exact ⟨hne, le_refl _, fun _ => le_refl _⟩
            · rw [if_neg h2]
              push_neg at h2
              refine ⟨Bool.not_eq_true _ ▸ h1, h2.1, fun he => ?_⟩
              exact h2.2 he
        have htrans : ∀ m, dominates lowest m → dominates lowest' m := by
          intro m hd
          rw [hL]
          by_cases h1 : lowest.empty = true
          · exact absurd hd.1 (by rw [h1]; exact fun hc => Bool.noConfusion hc)
          · rw [if_neg h1]
            by_cases h2 : node.priority > lowest.priority ∨
                (node.priority = lowest.priority ∧ node.lru_time < lowest.lru_time)
            · rw [if_pos h2]
              obtain ⟨hde, hdp, hdt⟩ := hd
              rcases h2 with h2 | ⟨h2a, h2b⟩
              · refine ⟨hne, by omega, fun he => ?_⟩
                omega
              · refine ⟨hne, by omega, fun he => ?_⟩
                have := hdt (by omega)
                omega
            · rw [if_neg h2]
              exact hd
        have hstack' : ∀ s ∈ node.lower_priority_nodes ++ rest, s ∈ oNodes (some r) := by
          intro s hs
          rcases List.mem_append.mp hs with hs | hs
          · rcases lower_cases hs with hq | hq
            · exact oNodes_sub hnodemem (allQuads_sub (mem_allQuads hq))
            · exact oNodes_sub hnodemem (allQuads_sub (mem_allQuads hq))
          · exact hstack s (List.mem_cons_of_mem _ hs)
        have hcov' : ∀ m ∈ oNodes (some r), m.empty = false →
            dominates lowest' m ∨ ∃ s ∈ node.lower_priority_nodes ++ rest,
              m ∈ oNodes (some s) := by
          intro m hm hme
          rcases hcov m hm hme with hd | ⟨s, hs, hms⟩
          · exact Or.inl (htrans m hd)
          · rcases List.mem_cons.mp hs with hs | hs
            · -- m sits in the popped node's subtree
              subst hs
              rcases oNodes_cases hms with hmn | ⟨i, c, hq, hmc⟩
              · subst hmn
                exact Or.inl hnodedom
              · cases i with
                | one =>
                  refine Or.inl ⟨hnodedom.1, ?_, fun he => ?_⟩
                  · have := quad_pri_lt (Or.inl rfl) hnodereg hq hmc
                    have := hnodedom.2.1
                    omega
                  · exfalso
                    have := quad_pri_lt (Or.inl rfl) hnodereg hq hmc
                    have := hnodedom.2.1
                    omega
                | three =>
                  refine Or.inl ⟨hnodedom.1, ?_, fun he => ?_⟩
                  · have := quad_pri_lt (Or.inr rfl) hnodereg hq hmc
                    have := hnodedom.2.1
                    omega
                  · exfalso
                    have := quad_pri_lt (Or.inr rfl) hnodereg hq hmc
                    have := hnodedom.2.1
                    omega
                | two =>
                  exact Or.inr ⟨c, List.mem_append.mpr (Or.inl (mem_lower_two hq)), hmc⟩
                | four =>
                  exact Or.inr ⟨c, List.mem_append.mpr (Or.inl (mem_lower_four hq)), hmc⟩
            · exact Or.inr ⟨s, List.mem_append.mpr (Or.inr hs), hms⟩
        refine ih _ lowest' ?_ hstack' hlow' hcov'
        have := lower_size node
        simp only [List.map_append, List.sum_append]
        omega
      · -- empty node: fan out into all quadrants
        rw [lowestGo_cons_empty hne]
        have hstack' : ∀ s ∈ node.allQuads ++ rest, s ∈ oNodes (some r) := by
          intro s hs
          rcases List.mem_append.mp hs with hs | hs
          · exact oNodes_sub hnodemem (allQuads_sub hs)
          · exact hstack s (List.mem_cons_of_mem _ hs)
        have hcov' : ∀ m ∈ oNodes (some r), m.empty = false →
            dominates lowest m ∨ ∃ s ∈ node.allQuads ++ rest, m ∈ oNodes (some s) := by
          intro m hm hme
          rcases hcov m hm hme with hd | ⟨s, hs, hms⟩
          · exact Or.inl hd
          · rcases List.mem_cons.mp hs with hs | hs
            · subst hs
              rcases oNodes_cases hms with hmn | ⟨i, c, hq, hmc⟩
              · exfalso
                rw [hmn] at hme
                rw [hme] at hne
                exact Bool.noConfusion hne
              · exact Or.inr ⟨c, List.mem_append.mpr (Or.inl (mem_allQuads hq)), hmc⟩
            · exact Or.inr ⟨s, List.mem_append.mpr (Or.inr hs), hms⟩
        refine ih _ lowest ?_ hstack' hlow hcov'
        have := allQuads_size node
        simp only [List.map_append, List.sum_append]
        omega

theorem bind_lru_nil {l : List Node} (h : ∀ m ∈ l, m.lru = []) :
    l.bind Node.lru = [] := by
  induction l with
  | nil => rfl
  | cons x t ih =>
    simp only [List.cons_bind, h x (List.mem_cons_self _ _), List.nil_append]
    exact ih (fun m hm => h m (List.mem_cons_of_mem _ hm))

theorem prune_lowest_eq {t : Quadtree} {r : Node} (hr : t.root = some r) :
    t.prune_lowest_priority =
      (if (if r.empty then lowestGo r.allQuads r
           else lowestGo r.lower_priority_nodes r).empty
       then .error .emptyTree
       else t.updAtPointQ
         ((if r.empty then lowestGo r.allQuads r
           else lowestGo r.lower_priority_nodes r).expiry,
          (if r.empty then lowestGo r.allQuads r
           else lowestGo r.lower_priority_nodes r).priority)
         (fun m => m.pop_lru)) := by
  unfold Quadtree.prune_lowest_priority
  rw [hr]

/-- Full specification of `Quadtree.prune_lowest_priority` on a well-formed
tree: with no entries anywhere it fails with `EmptyTree`; otherwise it pops
the least-recently-used entry of an optimal node (numerically largest
priority, smallest `lru_time` among ties), returns that entry's key, and the
tree loses exactly that one entry and stays well-formed. -/
theorem prune_lowest_spec (t : Quadtree) (hwf : t.treeWF = true) :
    (t.entriesQ = [] → t.prune_lowest_priority = .error .emptyTree) ∧
    (t.entriesQ ≠ [] → ∃ (L : Node) (e : Entry) (t' : Quadtree),
      t.prune_lowest_priority = .ok (e.key, t') ∧
      L ∈ t.nodesQ ∧ L.empty = false ∧ L.lru.headD default = e ∧
      e.last_used = L.lru_time ∧
      (∀ m ∈ t.nodesQ, m.empty = false → m.priority ≤ L.priority ∧
        (m.priority = L.priority → L.lru_time ≤ m.lru_time)) ∧
      t.entriesQ.Perm (e :: t'.entriesQ) ∧ t'.treeWF = true) := by
  obtain ⟨hreg, hcons, hnd⟩ := treeWF_parts hwf
  rcases hr : t.root with _ | r
  · have hent : t.entriesQ = [] := by
      rw [Quadtree.entriesQ, hr]
      simp
    have herr : t.prune_lowest_priority = .error .emptyTree := by
      unfold Quadtree.prune_lowest_priority
      rw [hr]
    exact ⟨fun _ => herr, fun hne => absurd hent hne⟩
  · rw [hr] at hreg hcons hnd
    have hpl := prune_lowest_eq hr
    have hentQ : t.entriesQ = oEntries (some r) := by
      rw [Quadtree.entriesQ, hr]
    have hnodesQ : t.nodesQ = oNodes (some r) := by
      rw [Quadtree.nodesQ, hr]
    -- run the search invariant from the two possible initial states
    have hgo : (if r.empty then lowestGo r.allQuads r
          else lowestGo r.lower_priority_nodes r) ∈ oNodes (some r) ∧
        ∀ m ∈ oNodes (some r), m.empty = false →
          dominates (if r.empty then lowestGo r.allQuads r
            else lowestGo r.lower_priority_nodes r) m := by
      by_cases hre : r.empty = true
      · rw [if_pos hre]
        refine lowestGo_spec r hreg _ r.allQuads r (le_refl _) ?_ (self_mem_oNodes r) ?_
        · intro s hs
          exact allQuads_sub hs
        · intro m hm hme
          rcases oNodes_cases hm with hmn | ⟨i, c, hq, hmc⟩
          · exfalso
            rw [hmn, hre] at hme
            exact Bool.noConfusion hme
          · exact Or.inr ⟨c, mem_allQuads hq, hmc⟩
      · rw [if_neg hre]
        rw [Bool.not_eq_true] at hre
        refine lowestGo_spec r hreg _ r.lower_priority_nodes r (le_refl _) ?_
          (self_mem_oNodes r) ?_
        · intro s hs
          rcases lower_cases hs with hq | hq
          · exact allQuads_sub (mem_allQuads hq)
          · exact allQuads_sub (mem_allQuads hq)
        · intro m hm hme
          rcases oNodes_cases hm with hmn | ⟨i, c, hq, hmc⟩
          · subst hmn
            exact Or.inl ⟨hre, le_refl _, fun _ => le_refl _⟩
          · cases i with
            | one =>
              refine Or.inl ⟨hre, le_of_lt (quad_pri_lt (Or.inl rfl) hreg hq hmc), ?_⟩
              intro he
              exfalso
              have := quad_pri_lt (Or.inl rfl) hreg hq hmc
              omega
            | three =>
              refine Or.inl ⟨hre, le_of_lt (quad_pri_lt (Or.inr rfl) hreg hq hmc), ?_⟩
              intro he
              exfalso
              have := quad_pri_lt (Or.inr rfl) hreg hq hmc
              omega
            | two => exact Or.inr ⟨c, mem_lower_two hq, hmc⟩
            | four => exact Or.inr ⟨c, mem_lower_four hq, hmc⟩
    obtain ⟨hL0mem, hL0dom⟩ := hgo
    set L0 := (if r.empty then lowestGo r.allQuads r
      else lowestGo r.lower_priority_nodes r) with hL0def
    constructor
    · -- no entries anywhere: the search candidate is empty
      intro hent
      rw [hentQ] at hent
      have hallnil : ∀ m ∈ oNodes (some r), m.lru = [] := by
        intro m hm
        rcases hl : m.lru with _ | ⟨e, tl⟩
        · rfl
        · exfalso
          have hme : e ∈ oEntries (some r) := by
            rw [oEntries_bind]
            exact List.mem_bind.mpr ⟨m, hm, by rw [hl]; exact List.mem_cons_self _ _⟩
          rw [hent] at hme
          simp at hme
      have hL0emp : L0.empty = true := by
        simp [Node.empty, List.isEmpty_iff, hallnil L0 hL0mem]
      rw [hpl, if_pos hL0emp]
    · -- at least one entry: the candidate is non-empty and pop_lru succeeds
      intro hne
      obtain ⟨mstar, hmstar, hmstarlru⟩ :
          ∃ m ∈ oNodes (some r), m.lru ≠ [] := by
        by_contra hcon
        push_neg at hcon
        refine hne ?_
        rw [hentQ, oEntries_bind]
        exact bind_lru_nil hcon
      have hmstare : mstar.empty = false := by
        simp [Node.empty, List.isEmpty_iff]
        exact hmstarlru
      have hL0ne : L0.empty = false := (hL0dom mstar hmstar hmstare).1
      have hL0cons : L0.consistB = true := (oAllNodes_mem.mp hcons) L0 hL0mem
      rcases hlru : L0.lru with _ | ⟨e, restL⟩
      · exfalso
        rw [Node.empty, hlru] at hL0ne
        simp at hL0ne
      obtain ⟨hpop, hm1cons⟩ := pop_lru_ok hL0cons hlru
      set m1 := L0.withDataLru (restL.map fun x => (x.key, x)) restL with hm1def
      have hL0reg : oRegionWF (some L0) = true :=
        oRegionWF_mem (osize (some r)) (some r) (le_refl _) hreg L0 hL0mem
      have hm1reg : oRegionWF (some m1) = true := by
        rw [hm1def, oRegionWF_withDataLru]
        exact hL0reg
      obtain ⟨hcshape, _, hccnt, hcreg, hcent, hctrans, _, _⟩ := clean_spec m1 hm1reg
      have hshapeL0 : outShape L0 m1.clean := by
        rw [outShape] at hcshape ⊢
        rw [hcshape, hm1def]
        simp
      have hcntL0 : ∀ p, cnt p (oPoints (outOpt m1.clean)) ≤ cnt p (oPoints (some L0)) := by
        intro p
        have h := hccnt p
        rw [hm1def, oPoints_withDataLru] at h
        exact h
      have hfind : findPoint r L0.expiry L0.priority = some L0 :=
        findPoint_eq hreg hnd hL0mem
      obtain ⟨t', hupd, hroot'⟩ := @updAtPointQ_run ℕ (fun m => m.pop_lru) t r L0
        (L0.expiry, L0.priority) hr (by rw [hr]; exact hreg) hfind e.key m1.clean
        hpop hshapeL0 hcntL0
      -- consistency of every node of the replacement subtree
      have hm1all : oAllNodes Node.consistB (some m1) = true := by
        rw [oAllNodes_mem]
        intro m' hm'
        rcases oNodes_cases hm' with hmn | ⟨i, c, hq, hmc⟩
        · rw [hmn]
          exact hm1cons
        · have hq0 : L0.getQuad i = some c := by
            rw [hm1def] at hq
            rw [← Node.getQuad_withDataLru L0 (restL.map fun x => (x.key, x)) restL i]
            exact hq
          have : m' ∈ oNodes (some L0) := by
            refine oNodes_quad_sub L0 i ?_
            rw [hq0]
            exact hmc
          exact (oAllNodes_mem.mp hcons) m' (oNodes_sub hL0mem this)
      have hXcons : oAllNodes Node.consistB (outOpt m1.clean) = true :=
        hctrans Node.consistB hm1all
      have ht'wf : t'.treeWF = true := by
        rcases t' with ⟨rt⟩
        have hrt : rt = replaceAt r L0.expiry L0.priority (outOpt m1.clean) := hroot'
        rw [hrt]
        exact @surgery_treeWF t r L0 (L0.expiry, L0.priority) hr hwf hfind
          (outOpt m1.clean) hcreg hcntL0 hXcons
      refine ⟨L0, e, t', ?_, ?_, hL0ne, ?_, ?_, ?_, ?_, ht'wf⟩
      · rw [hpl, if_neg (by rw [hL0ne]; exact Bool.false_ne_true)]
        exact hupd
      · rw [hnodesQ]
        exact hL0mem
      · rw [hlru]
        rfl
      · rw [Node.lru_time, hlru]
        rfl
      · intro m hm hme
        rw [hnodesQ] at hm
        obtain ⟨_, h1, h2⟩ := hL0dom m hm hme
        exact ⟨h1, h2⟩
      · -- entry accounting: exactly the popped entry disappears
        obtain ⟨E1, E2, _, _, hE, _, hXf⟩ :=
          replaceAt_decomp (osize (some r)) r L0.expiry L0.priority (le_refl _) L0 hfind
        obtain ⟨hXE, _, _, _⟩ := hXf (outOpt m1.clean)
        obtain ⟨Q, hQctx, hQold⟩ := oEntries_withDataLru_ctx L0
        have hm1ent : oEntries (some m1) = restL ++ Q := by
          rw [hm1def]
          exact hQctx _ _
        have hL0ent : oEntries (some L0) = e :: (restL ++ Q) := by
          rw [hQold, hlru]
          rfl
        have hnew : t'.entriesQ = E1 ++ ((restL ++ Q) ++ E2) := by
          rw [Quadtree.entriesQ, hroot', hXE, hcent, hm1ent]
        have hold : t.entriesQ = E1 ++ (e :: ((restL ++ Q) ++ E2)) := by
          rw [hentQ, hE, hL0ent]
          simp
        rw [hold, hnew]
        exact List.perm_middle

/-! Claim C2: the contract of prune_lowest_priority. -/

/-- Claim C2: on every well-formed tree, `prune_lowest_priority` either
fails with `EmptyTree` (exactly when the tree holds no entry at all — no
root, or only empty nodes) and removes nothing, or removes exactly one
entry — the least-recently-used entry of a node `L` with the numerically
largest priority value among all nodes with entries, breaking priority ties
towards the smallest `lru_time` — and returns that entry's key. -/
theorem C2_prune_lowest_removes_optimal_entry (t : Quadtree) (hwf : t.treeWF = true) :
    (t.entriesQ = [] → t.prune_lowest_priority = .error .emptyTree) ∧
    (t.entriesQ ≠ [] → ∃ (L : Node) (e : Entry) (t' : Quadtree),
      t.prune_lowest_priority = .ok (e.key, t') ∧
      L ∈ t.nodesQ ∧ L.empty = false ∧ L.lru.headD default = e ∧
      e.last_used = L.lru_time ∧
      (∀ m ∈ t.nodesQ, m.empty = false → m.priority ≤ L.priority ∧
        (m.priority = L.priority → L.lru_time ≤ m.lru_time)) ∧
      t.entriesQ.Perm (e :: t'.entriesQ) ∧ t'.treeWF = true) :=
  prune_lowest_spec t hwf

/-- A small well-formed tree with two non-empty nodes on distinct
priorities, for the C2 witness: root (expiry 10, priority 0) and a
worse-priority child (expiry 10, priority 3). -/
def c2Tree : Quadtree :=
  ⟨some (.mk 10 0
    none
    (some (.mk 10 3 none none none none [(2, ⟨1, 2, 9, 1⟩)] [⟨1, 2, 9, 1⟩]))
    none none
    [(1, ⟨0, 1, 5, 0⟩)] [⟨0, 1, 5, 0⟩])⟩

theorem c2Tree_wf : c2Tree.treeWF = true := by
  simp [c2Tree, Quadtree.treeWF, oRegionWF, oPoints, oAllNodes, Node.consistB,
    nodupPoints, sortedLU, nodupEids, nodupKeys, Node.getQuad, Node.expiry,
    Node.priority, Node.data, Node.lru, inRegion]

/-- C2 witness: the concrete two-node tree is well-formed and the theorem
applies to it. -/
theorem C2_prune_lowest_removes_optimal_entry_witness :
    c2Tree.treeWF = true ∧
    ((c2Tree.entriesQ = [] → c2Tree.prune_lowest_priority = .error .emptyTree) ∧
     (c2Tree.entriesQ ≠ [] → ∃ (L : Node) (e : Entry) (t' : Quadtree),
       c2Tree.prune_lowest_priority = .ok (e.key, t') ∧
       L ∈ c2Tree.nodesQ ∧ L.empty = false ∧ L.lru.headD default = e ∧
       e.last_used = L.lru_time ∧
       (∀ m ∈ c2Tree.nodesQ, m.empty = false → m.priority ≤ L.priority ∧
         (m.priority = L.priority → L.lru_time ≤ m.lru_time)) ∧
       c2Tree.entriesQ.Perm (e :: t'.entriesQ) ∧ t'.treeWF = true)) :=
  ⟨c2Tree_wf, C2_prune_lowest_removes_optimal_entry c2Tree c2Tree_wf⟩

/-! Claim C4: evict never raises. -/

/-- A pruning stage keeps the tree well-formed. -/
theorem prune_treeWF {t t' : Quadtree} {now : Int} {b : Bool}
    (hwf : t.treeWF = true) (hp : PartOK t.root t'.root now b) : t'.treeWF = true := by
  obtain ⟨_, hcons, hnd⟩ := treeWF_parts hwf
  rw [Quadtree.treeWF]
  have h1 := hp.wf
  have h2 := partOK_consist hp hcons
  have h3 := cnt_le_nodupPoints hp.counts hnd
  rw [h1, h2, h3]
  rfl

/-- Claim C4: on every cache whose tree is well-formed, `evict()` never
raises.  It first runs `prune_expired` at the current clock time; if that
removed an entry, no priority-based eviction happens in the same call.
Otherwise it prunes the lowest-priority entry, swallowing the `EmptyTree`
failure of an entryless tree as a no-op, and drops the returned key from
the key index (a no-op when the key is already absent, via `dictErase`). -/
theorem C4_evict_never_raises (c : Cache) (now : Int)
    (hwf : c.tree.treeWF = true) :
    ∃ b t1, c.tree.prune_expired now = .ok (b, t1) ∧
      ((b = true ∧ c.evictOp now = .ok { c with tree := t1 }) ∨
       (b = false ∧ t1.entriesQ = [] ∧
         t1.prune_lowest_priority = .error .emptyTree ∧
         c.evictOp now = .ok { c with tree := t1 }) ∨
       (b = false ∧ ∃ k t2, t1.prune_lowest_priority = .ok (k, t2) ∧
         c.evictOp now = .ok { c with tree := t2, keyNodes := dictErase c.keyNodes k })) := by
  obtain ⟨hreg, _, _⟩ := treeWF_parts hwf
  obtain ⟨b, t1, hpe, hpart, _⟩ := prune_expired_spec c.tree now hreg
  have ht1wf : t1.treeWF = true := prune_treeWF hwf hpart
  refine ⟨b, t1, hpe, ?_⟩
  cases b with
  | true =>
    refine Or.inl ⟨rfl, ?_⟩
    rw [Cache.evictOp]
    simp only [hpe, bind, Except.bind, if_true, pure, Except.pure]
  | false =>
    obtain ⟨hemp, hfull⟩ := prune_lowest_spec t1 ht1wf
    by_cases hent : t1.entriesQ = []
    · refine Or.inr (Or.inl ⟨rfl, hent, hemp hent, ?_⟩)
      rw [Cache.evictOp]
      simp only [hpe, bind, Except.bind, Bool.false_eq_true, if_false, hemp hent,
        pure, Except.pure]
    · obtain ⟨L, e, t2, hok, _⟩ := hfull hent
      refine Or.inr (Or.inr ⟨rfl, e.key, t2, hok, ?_⟩)
      rw [Cache.evictOp]
      simp only [hpe, bind, Except.bind, Bool.false_eq_true, if_false, hok,
        pure, Except.pure]

/-- A concrete cache over the two-node tree, for the C4 witness. -/
def c4Cache : Cache :=
  { tree := c2Tree, keyNodes := [(1, (10, 0)), (2, (10, 3))]
    default_expiry_duration := 100, default_priority := 0
    ctx_expiry_duration := 100, ctx_priority := 0, nextEid := 2 }

/-- C4 witness: evicting from the concrete cache at time 0. -/
theorem C4_evict_never_raises_witness :
    c4Cache.tree.treeWF = true ∧
    ∃ b t1, c4Cache.tree.prune_expired 0 = .ok (b, t1) ∧
      ((b = true ∧ c4Cache.evictOp 0 = .ok { c4Cache with tree := t1 }) ∨
       (b = false ∧ t1.entriesQ = [] ∧
         t1.prune_lowest_priority = .error .emptyTree ∧
         c4Cache.evictOp 0 = .ok { c4Cache with tree := t1 }) ∨
       (b = false ∧ ∃ k t2, t1.prune_lowest_priority = .ok (k, t2) ∧
         c4Cache.evictOp 0 = .ok { c4Cache with tree := t2, keyNodes := dictErase c4Cache.keyNodes k })) :=
  ⟨c2Tree_wf, C4_evict_never_raises c4Cache 0 c2Tree_wf⟩

/-! Cache-level invariants: the pieces of `Cache.wfB` needed to run and
chain the mapping operations. -/

theorem mem_dictGet {α : Type} {d : List (Nat × α)} (hnd : nodupKeys d = true)
    {k : Nat} {v : α} (h : (k, v) ∈ d) : dictGet d k = some v := by
  induction d with
  | nil => simp at h
  | cons kv rest ih =>
    obtain ⟨k', v'⟩ := kv
    rcases List.mem_cons.mp h with h | h
    · injection h with h1 h2
      subst h1
      subst h2
      rw [dictGet, if_pos rfl]
    · have hne : k' ≠ k := by
        have := nodupKeys_head_all hnd (k, v) h
        simpa using fun hc => this hc.symm
      rw [dictGet, if_neg hne]
      exact ih (nodupKeys_tail hnd) h

theorem oPoints_cnt_mem : ∀ fuel (o : Option Node), osize o ≤ fuel →
    ∀ m ∈ oNodes o, ∀ pt, cnt pt (oPoints (some m)) ≤ cnt pt (oPoints o) := by
  intro fuel
  induction fuel with
  | zero =>
    intro o ho m hm
    cases o with
    | none => simp [oNodes] at hm
    | some n => rw [osize_some] at ho; omega
  | succ f ih =>
    intro o ho m hm pt
    cases o with
    | none => simp [oNodes] at hm
    | some n =>
      rcases oNodes_cases hm with hmn | ⟨i, c, hq, hmc⟩
      · rw [hmn]
      · have h1 : cnt pt (oPoints (some m)) ≤ cnt pt (oPoints (some c)) := by
          refine ih (some c) ?_ m hmc pt
          have h := osize_quad_lt n i
          rw [hq] at h
          omega
        have h2 := oPoints_count_quad_le n i pt
        rw [hq] at h2
        omega

/-- In a well-formed tree, a node is determined (as a value) by its point. -/
theorem nodes_point_eq {t : Quadtree} (hwf : t.treeWF = true) {a b : Node}
    (ha : a ∈ t.nodesQ) (hb : b ∈ t.nodesQ)
    (hpt : (a.expiry, a.priority) = (b.expiry, b.priority)) : a = b := by
  obtain ⟨_, _, hnd⟩ := treeWF_parts hwf
  rw [Quadtree.nodesQ] at ha hb
  have hndl : ((oNodes t.root).map (fun n => (n.expiry, n.priority))).Nodup := by
    rw [← oPoints_map]
    exact nodupPoints_iff.mp hnd
  exact List.inj_on_of_nodup_map hndl ha hb hpt

/-- The slice of `Cache.wfB` that the operations re-establish and chain on:
a well-formed tree, entry timestamps and identities bounded by the clock and
the freshness counter, and every key held by a node registered in the key
index under that node's point. -/
structure CacheLite (c : Cache) (T : Int) : Prop where
  wf : c.tree.treeWF = true
  bounds : ∀ m ∈ c.tree.nodesQ, ∀ e ∈ m.lru, e.last_used ≤ T ∧ e.eid < c.nextEid
  holders : ∀ (k : Nat), ∀ m ∈ c.tree.nodesQ, (dictGet m.data k).isSome = true →
    dictGet c.keyNodes k = some (m.expiry, m.priority)

theorem CacheLite.mono {c : Cache} {T T' : Int} (h : CacheLite c T) (hT : T ≤ T') :
    CacheLite c T' := by
  refine ⟨h.wf, ?_, h.holders⟩
  intro m hm e he
  obtain ⟨h1, h2⟩ := h.bounds m hm e he
  exact ⟨by omega, h2⟩

/-- `Cache.wfB` provides the lite bundle. -/
theorem wfB_lite {c : Cache} {T : Int} (h : c.wfB T = true) : CacheLite c T := by
  rw [Cache.wfB] at h
  simp only [Bool.and_eq_true] at h
  obtain ⟨hwf, hbound, _, hreg, _⟩ := h
  refine ⟨hwf, ?_, ?_⟩
  · intro m hm e he
    rw [oAllNodes_mem] at hbound
    rw [Quadtree.nodesQ] at hm
    have h1 := hbound m hm
    rw [List.all_eq_true] at h1
    have := h1 e he
    simp only [Bool.and_eq_true, decide_eq_true_eq] at this
    exact this
  · intro k m hm hk
    rw [List.all_eq_true] at hreg
    rw [Quadtree.nodesQ] at hm
    have h1 := hreg m hm
    rw [List.all_eq_true] at h1
    rcases hg : dictGet m.data k with _ | e
    · rw [hg] at hk
      simp at hk
    · have h2 := h1 (k, e) (dictGet_mem hg)
      simpa using h2

theorem nodesQ_consist {t : Quadtree} (hwf : t.treeWF = true) {m : Node}
    (hm : m ∈ t.nodesQ) : m.consistB = true := by
  obtain ⟨_, hcons, _⟩ := treeWF_parts hwf
  rw [Quadtree.nodesQ] at hm
  exact (oAllNodes_mem.mp hcons) m hm

theorem nodesQ_region {t : Quadtree} (hwf : t.treeWF = true) {m : Node}
    (hm : m ∈ t.nodesQ) : oRegionWF (some m) = true := by
  obtain ⟨hreg, _, _⟩ := treeWF_parts hwf
  rw [Quadtree.nodesQ] at hm
  exact oRegionWF_mem (osize t.root) t.root (le_refl _) hreg m hm

theorem nodesQ_sub {t : Quadtree} {m m' : Node} (hm : m ∈ t.nodesQ)
    (hm' : m' ∈ oNodes (some m)) : m' ∈ t.nodesQ := by
  rw [Quadtree.nodesQ] at hm ⊢
  exact oNodes_sub hm hm'

theorem nodesQ_nodup {t : Quadtree} (hwf : t.treeWF = true) {m : Node}
    (hm : m ∈ t.nodesQ) : ∀ pt, cnt pt (oPoints (some m)) ≤ 1 := by
  obtain ⟨_, _, hnd⟩ := treeWF_parts hwf
  rw [Quadtree.nodesQ] at hm
  intro pt
  exact le_trans (oPoints_cnt_mem (osize t.root) t.root (le_refl _) m hm pt)
    (nodupPoints_cnt.mp hnd pt)

/-- Every node of a subtree obtained by replacing a tree node's entry
containers is consistent, provided the replacement itself is. -/
theorem consist_replaced {t : Quadtree} (hwf : t.treeWF = true) {n : Node}
    (hn : n ∈ t.nodesQ) {d : List (Nat × Entry)} {l : List Entry}
    (hcons1 : (n.withDataLru d l).consistB = true) :
    oAllNodes Node.consistB (some (n.withDataLru d l)) = true := by
  rw [oAllNodes_mem]
  intro m' hm'
  rcases oNodes_cases hm' with hmn | ⟨i, c, hq, hmc⟩
  · rw [hmn]
    exact hcons1
  · rw [Node.getQuad_withDataLru] at hq
    have : m' ∈ oNodes (some n) := by
      refine oNodes_quad_sub n i ?_
      rw [hq]
      exact hmc
    exact nodesQ_consist hwf (nodesQ_sub hn this)

/-- A key whose index binding is absent or dead is held by no node of a
well-formed cache. -/
theorem keyGone_of_dead {c : Cache} {T : Int} (hl : CacheLite c T) {k : Nat}
    (h : dictGet c.keyNodes k = none ∨
      ∃ pt, dictGet c.keyNodes k = some pt ∧ c.tree.findPointQ pt = none) :
    ∀ m ∈ c.tree.nodesQ, dictGet m.data k = none := by
  intro m hm
  rcases hg : dictGet m.data k with _ | e
  · rfl
  · exfalso
    have hhold := hl.holders k m hm (by rw [hg]; rfl)
    rcases h with h | ⟨pt, hpt, hdead⟩
    · rw [h] at hhold
      exact Option.noConfusion hhold
    · rw [hpt] at hhold
      injection hhold with hhold
      have hfq := findPointQ_eq hl.wf hm
      rw [← hhold] at hfq
      rw [hfq] at hdead
      exact Option.noConfusion hdead

/-- Successful run of `Cache.__delitem__` on a live binding whose node holds
the key: the entry is removed, the binding dropped, the lite invariant is
preserved at the same clock bound, no node holds the key afterwards, and
the non-tree fields are untouched. -/
theorem delOp_run {c : Cache} {T : Int} (hl : CacheLite c T) {k : Nat}
    {pt : Int × Int} (hbind : dictGet c.keyNodes k = some pt)
    {n : Node} (hfound : c.tree.findPointQ pt = some n)
    {e : Entry} (hheld : dictGet n.data k = some e) :
    ∃ c1, c.delOp k = .ok c1 ∧ CacheLite c1 T ∧
      (∀ m ∈ c1.tree.nodesQ, dictGet m.data k = none) ∧
      c1.keyNodes = dictErase c.keyNodes k ∧
      c1.default_expiry_duration = c.default_expiry_duration ∧
      c1.default_priority = c.default_priority ∧
      c1.ctx_expiry_duration = c.ctx_expiry_duration ∧
      c1.ctx_priority = c.ctx_priority ∧ c1.nextEid = c.nextEid := by
  obtain ⟨hnmem, hnex, hnpr⟩ := findPointQ_sound hfound
  have hptn : ((n.expiry, n.priority) : Int × Int) = pt := by
    rw [hnex, hnpr]
  rcases hr : c.tree.root with _ | r
  · exfalso
    unfold Quadtree.findPointQ at hfound
    rw [hr] at hfound
    exact Option.noConfusion hfound
  have hfind : findPoint r pt.1 pt.2 = some n := by
    unfold Quadtree.findPointQ at hfound
    rw [hr] at hfound
    exact hfound
  have hncons : n.consistB = true := nodesQ_consist hl.wf hnmem
  have hnreg : oRegionWF (some n) = true := nodesQ_region hl.wf hnmem
  obtain ⟨l1, l2, hsplit, hke, hraw, hn1cons, hnone⟩ := deleteEntry_full hncons hheld
  set n1 := n.withDataLru ((l1 ++ l2).map fun x => (x.key, x)) (l1 ++ l2) with hn1def
  have hdel : n.delete_entry k true = .ok n1.clean := by
    rw [Node.delete_entry]
    simp only [hraw, bind, Except.bind, if_true, pure, Except.pure]
  have hn1reg : oRegionWF (some n1) = true := by
    rw [hn1def, oRegionWF_withDataLru]
    exact hnreg
  obtain ⟨hcshape, _, hccnt, hcreg, hcent, hctrans, hcnodes, _⟩ := clean_spec n1 hn1reg
  have hshapen : outShape n n1.clean := by
    rw [outShape] at hcshape ⊢
    rw [hcshape, hn1def]
    simp
  have hcntn : ∀ p, cnt p (oPoints (outOpt n1.clean)) ≤ cnt p (oPoints (some n)) := by
    intro p
    have h := hccnt p
    rw [hn1def, oPoints_withDataLru] at h
    exact h
  have hop : ((fun m => do
        let out ← m.delete_entry k true
        pure ((), out)) : Node → Except Err (Unit × CleanOutcome)) n =
      .ok ((), n1.clean) := by
    simp only [hdel, bind, Except.bind, pure, Except.pure]
  obtain ⟨t', hupd, hroot'⟩ := @updAtPointQ_run Unit
    (fun m => do
      let out ← m.delete_entry k true
      pure ((), out)) c.tree r n pt hr (treeWF_parts hl.wf).1 hfind
    () n1.clean hop hshapen hcntn
  have hXcons : oAllNodes Node.consistB (outOpt n1.clean) = true :=
    hctrans Node.consistB (consist_replaced hl.wf hnmem hn1cons)
  have ht'wf : t'.treeWF = true := by
    rcases t' with ⟨rt⟩
    have hrt : rt = replaceAt r pt.1 pt.2 (outOpt n1.clean) := hroot'
    rw [hrt]
    exact @surgery_treeWF c.tree r n pt hr hl.wf hfind (outOpt n1.clean)
      hcreg hcntn hXcons
  obtain ⟨E1, E2, P1, P2, hEold, hPold, hXf⟩ :=
    replaceAt_decomp (osize (some r)) r pt.1 pt.2 (le_refl _) n hfind
  obtain ⟨hXE, hXP, hXsup, hXsub⟩ := hXf (outOpt n1.clean)
  -- the point pt can only stand inside the replaced subtree, old and new
  have hcnt_n_pos : 1 ≤ cnt pt (oPoints (some n)) := by
    refine cnt_pos_iff_mem.mpr ?_
    rw [← hptn]
    exact self_mem_oPoints n
  have hnd_r : ∀ p, cnt p (oPoints (some r)) ≤ 1 := by
    intro p
    refine nodesQ_nodup hl.wf ?_ p
    rw [Quadtree.nodesQ, hr]
    exact self_mem_oNodes r
  have hP12 : cnt pt P1 = 0 ∧ cnt pt P2 = 0 := by
    have h1 := hnd_r pt
    rw [hPold] at h1
    simp only [cnt_append] at h1
    omega
  have hsubnode_absurd : ∀ (i : QI) (c2 : Node) (m' : Node),
      n.getQuad i = some c2 → m' ∈ oNodes (some c2) →
      (m'.expiry, m'.priority) = pt → False := by
    intro i c2 m' hq hmc hmpt
    have h2 : 2 ≤ cnt pt (oPoints (some n)) := by
      have hin : pt ∈ oPoints (n.getQuad i) := by
        rw [hq, ← hmpt]
        exact mem_oPoints_of_mem_oNodes hmc
      have hcq : 1 ≤ cnt pt (oPoints (n.getQuad i)) := cnt_pos_iff_mem.mpr hin
      rw [oPoints_some]
      simp only [cnt_cons, cnt_append]
      have hhead : (if ((n.expiry, n.priority) : Int × Int) = pt then 1 else 0) = 1 := by
        rw [if_pos hptn]
      cases i <;> omega
    have h3 := oPoints_cnt_mem (osize (some r)) (some r) (le_refl _) n
      (by rw [Quadtree.nodesQ, hr] at hnmem; exact hnmem) pt
    have h4 := hnd_r pt
    omega
  have hgone : ∀ m' ∈ t'.nodesQ, dictGet m'.data k = none := by
    intro m' hm'
    rcases hg : dictGet m'.data k with _ | e'
    · rfl
    exfalso
    have hm'root : m' ∈ oNodes t'.root := by
      rw [Quadtree.nodesQ] at hm'
      exact hm'
    rw [hroot'] at hm'root
    rcases hXsub m' hm'root with hmX | ⟨m0, hm0, hm0e, hm0p, hm0d, hm0l⟩
    · -- inside the replacement subtree
      have hmn1 : m' ∈ oNodes (some n1) := hcnodes m' hmX
      rcases oNodes_cases hmn1 with hmn | ⟨i, c2, hq, hmc⟩
      · rw [hmn, hn1def, Node.data_withDataLru] at hg
        rw [hg] at hnone
        exact Option.noConfusion hnone
      · rw [hn1def, Node.getQuad_withDataLru] at hq
        have hm'old : m' ∈ c.tree.nodesQ := by
          refine nodesQ_sub hnmem ?_
          refine oNodes_quad_sub n i ?_
          rw [hq]
          exact hmc
        have hhold := hl.holders k m' hm'old (by rw [hg]; rfl)
        rw [hbind] at hhold
        injection hhold with hhold
        exact hsubnode_absurd i c2 m' hq hmc hhold.symm
    · -- contents equal to an old node: that node held k, so it sat at pt
      have hm0mem : m0 ∈ c.tree.nodesQ := by
        rw [Quadtree.nodesQ, hr]
        exact hm0
      have hhold := hl.holders k m0 hm0mem (by rw [hm0d, hg]; rfl)
      rw [hbind] at hhold
      injection hhold with hhold
      have hm'pt : ((m'.expiry, m'.priority) : Int × Int) = pt := by
        rw [← hm0e, ← hm0p, ← hhold]
      -- so the new tree holds the point pt, which must come from the
      -- replacement subtree
      have hXpt : pt ∈ oPoints (outOpt n1.clean) := by
        have h1 : 1 ≤ cnt pt (oPoints (replaceAt r pt.1 pt.2 (outOpt n1.clean))) := by
          refine cnt_pos_iff_mem.mpr ?_
          have hmem := mem_oPoints_of_mem_oNodes hm'root
          rw [hm'pt] at hmem
          exact hmem
        rw [hXP] at h1
        simp only [cnt_append] at h1
        refine cnt_pos_iff_mem.mp ?_
        omega
      obtain ⟨xm, hxm, hxmpt⟩ := by
        rw [oPoints_map, List.mem_map] at hXpt
        exact hXpt
      have hxmn1 : xm ∈ oNodes (some n1) := hcnodes xm hxm
      rcases oNodes_cases hxmn1 with hxn | ⟨i, c2, hq, hxc⟩
      · -- the replacement's resident at pt is the stripped node n1
        have hxmem : xm ∈ t'.nodesQ := by
          rw [Quadtree.nodesQ, hroot']
          exact hXsup xm hxm
        have heq : m' = xm := nodes_point_eq ht'wf hm' hxmem (by rw [hm'pt, hxmpt])
        rw [heq, hxn, hn1def, Node.data_withDataLru] at hg
        rw [hg] at hnone
        exact Option.noConfusion hnone
      · rw [hn1def, Node.getQuad_withDataLru] at hq
        exact hsubnode_absurd i c2 xm hq hxc hxmpt
  refine ⟨{ c with tree := t', keyNodes := dictErase c.keyNodes k }, ?_, ?_, hgone,
    rfl, rfl, rfl, rfl, rfl, rfl⟩
  · rw [Cache.delOp]
    simp only [hbind, hfound, Option.isSome_some, if_true]
    simp only [bind, Except.bind, pure, Except.pure] at hupd ⊢
    rw [hupd]
  · refine ⟨ht'wf, ?_, ?_⟩
    · -- entry bounds
      intro m' hm' e' he'
      have hm'root : m' ∈ oNodes t'.root := hm'
      rw [hroot'] at hm'root
      rcases hXsub m' hm'root with hmX | ⟨m0, hm0, _, _, _, hm0l⟩
      · have hmn1 : m' ∈ oNodes (some n1) := hcnodes m' hmX
        rcases oNodes_cases hmn1 with hmn | ⟨i, c2, hq, hmc⟩
        · rw [hmn, hn1def, Node.lru_withDataLru] at he'
          have he'n : e' ∈ n.lru := by
            rw [hsplit]
            rcases List.mem_append.mp he' with h | h
            · exact List.mem_append.mpr (Or.inl h)
            · exact List.mem_append.mpr (Or.inr (List.mem_cons_of_mem _ h))
          exact hl.bounds n hnmem e' he'n
        · rw [hn1def, Node.getQuad_withDataLru] at hq
          refine hl.bounds m' (nodesQ_sub hnmem ?_) e' he'
          refine oNodes_quad_sub n i ?_
          rw [hq]
          exact hmc
      · refine hl.bounds m0 ?_ e' ?_
        · rw [Quadtree.nodesQ, hr]
          exact hm0
        · rw [hm0l]
          exact he'
    · -- holders
      intro k' m' hm' hk'
      by_cases hkk : k' = k
      · exfalso
        subst hkk
        have := hgone m' hm'
        rw [this] at hk'
        simp at hk'
      · rw [dictGet_dictErase_ne hkk]
        have hm'root : m' ∈ oNodes t'.root := hm'
        rw [hroot'] at hm'root
        rcases hXsub m' hm'root with hmX | ⟨m0, hm0, hm0e, hm0p, hm0d, _⟩
        · have hmn1 : m' ∈ oNodes (some n1) := hcnodes m' hmX
          rcases oNodes_cases hmn1 with hmn | ⟨i, c2, hq, hmc⟩
          · -- the stripped node: its bindings for other keys come from n
            rcases hg : dictGet m'.data k' with _ | e'
            · rw [hg] at hk'
              simp at hk'
            have hmem' : (k', e') ∈ m'.data := dictGet_mem hg
            rw [hmn, hn1def, Node.data_withDataLru] at hmem'
            rw [List.mem_map] at hmem'
            obtain ⟨x, hx, hxe⟩ := hmem'
            have hxk : x.key = k' := congrArg Prod.fst hxe
            have hxx : x = e' := congrArg Prod.snd hxe
            have hxlru : x ∈ n.lru := by
              rw [hsplit]
              rcases List.mem_append.mp hx with h | h
              · exact List.mem_append.mpr (Or.inl h)
              · exact List.mem_append.mpr (Or.inr (List.mem_cons_of_mem _ h))
            have hxdata : (k', x) ∈ n.data := by
              obtain ⟨hdataeq, _, _, _⟩ := consistB_parts hncons
              rw [hdataeq, List.mem_map]
              exact ⟨x, hxlru, by rw [hxk]⟩
            have hnk' : dictGet n.data k' = some x := by
              obtain ⟨_, _, _, hnk⟩ := consistB_parts hncons
              exact mem_dictGet hnk hxdata
            have hhold := hl.holders k' n hnmem (by rw [hnk']; rfl)
            rw [hhold]
            rw [hmn, hn1def]
            simp
          · -- an untouched subtree node of the stripped node
            rw [hn1def, Node.getQuad_withDataLru] at hq
            refine hl.holders k' m' (nodesQ_sub hnmem ?_) hk'
            refine oNodes_quad_sub n i ?_
            rw [hq]
            exact hmc
        · have hm0mem : m0 ∈ c.tree.nodesQ := by
            rw [Quadtree.nodesQ, hr]
            exact hm0
          have hhold := hl.holders k' m0 hm0mem (by rw [hm0d]; exact hk')
          rw [hhold, hm0e, hm0p]

theorem pointsQ_node {t : Quadtree} {pt : Int × Int} (h : pt ∈ t.pointsQ) :
    ∃ m ∈ t.nodesQ, ((m.expiry, m.priority) : Int × Int) = pt := by
  rw [Quadtree.pointsQ, oPoints_map, List.mem_map] at h
  obtain ⟨m, hm, hmpt⟩ := h
  exact ⟨m, hm, hmpt⟩

/-- The locate-or-insert-then-add tail of `Cache.__setitem__`, on a cache
state that no longer holds the key: it succeeds, stores exactly the fresh
entry at the `(expiry, priority)` node, and the updated tree satisfies the
well-formedness, bound and registration invariants for the new key index. -/
theorem setAdd_run {c1d : Cache} {T now : Int} (hl1 : CacheLite c1d T) (hT : T ≤ now)
    {k : Nat} (hgone : ∀ m ∈ c1d.tree.nodesQ, dictGet m.data k = none)
    (v NE : Nat) (hNE : c1d.nextEid ≤ NE) (pt1 : Int × Int) {t1 : Quadtree}
    (ht1 : t1 = if (c1d.tree.findPointQ pt1).isSome then c1d.tree
                else c1d.tree.insertQ pt1.2 pt1.1) :
    ∃ t2 mT',
      t1.updAtPointQ pt1 (fun n => pure ((), .keep (n.add_entry k v now NE))) =
        .ok ((), t2) ∧
      t2.treeWF = true ∧
      t2.findPointQ pt1 = some mT' ∧
      dictGet mT'.data k = some ⟨now, k, v, NE⟩ ∧
      (∀ m ∈ t2.nodesQ, ∀ e ∈ m.lru, e.last_used ≤ now ∧ e.eid < NE + 1) ∧
      (∀ (k' : Nat), ∀ m ∈ t2.nodesQ, (dictGet m.data k').isSome = true →
        dictGet (dictSet c1d.keyNodes k pt1) k' = some (m.expiry, m.priority)) := by
  -- Phase B: the tree holding the target point
  have hB : t1.treeWF = true ∧ pt1 ∈ t1.pointsQ ∧
      (∀ m ∈ t1.nodesQ, (∃ m0 ∈ c1d.tree.nodesQ, m0.expiry = m.expiry ∧
        m0.priority = m.priority ∧ m0.data = m.data ∧ m0.lru = m.lru) ∨
        (m.data = [] ∧ m.lru = [])) := by
    by_cases hfq : (c1d.tree.findPointQ pt1).isSome = true
    · rw [ht1, if_pos hfq]
      obtain ⟨n0, hn0⟩ := Option.isSome_iff_exists.mp hfq
      obtain ⟨hn0mem, hn0ex, hn0pr⟩ := findPointQ_sound hn0
      refine ⟨hl1.wf, ?_, ?_⟩
      · have := mem_oPoints_of_mem_oNodes (by rw [Quadtree.nodesQ] at hn0mem; exact hn0mem)
        rw [hn0ex, hn0pr] at this
        rw [Quadtree.pointsQ]
        exact this
      · intro m hm
        exact Or.inl ⟨m, hm, rfl, rfl, rfl, rfl⟩
    · rw [Bool.not_eq_true, Option.not_isSome, Option.isNone_iff_eq_none] at hfq
      have habs : pt1 ∉ c1d.tree.pointsQ := findPointQ_none hl1.wf hfq
      have hins := insertQ_spec c1d.tree pt1.2 pt1.1 hl1.wf (by
        rw [Prod.mk.eta]
        exact habs)
      rw [ht1, if_neg (by rw [hfq]; simp)]
      obtain ⟨h1, h2, h3, _⟩ := hins
      rw [Prod.mk.eta] at h2
      exact ⟨h1, h2, h3⟩
  obtain ⟨ht1wf, hpt1mem, ht1nodes⟩ := hB
  obtain ⟨mT, hmTmem, hmTpt⟩ := pointsQ_node hpt1mem
  have hfqT : t1.findPointQ pt1 = some mT := by
    have := findPointQ_eq ht1wf hmTmem
    rw [hmTpt] at this
    exact this
  rcases hrt1 : t1.root with _ | rt1
  · exfalso
    unfold Quadtree.findPointQ at hfqT
    rw [hrt1] at hfqT
    exact Option.noConfusion hfqT
  have hfindT : findPoint rt1 pt1.1 pt1.2 = some mT := by
    unfold Quadtree.findPointQ at hfqT
    rw [hrt1] at hfqT
    exact hfqT
  have hmTgone : dictGet mT.data k = none := by
    rcases ht1nodes mT hmTmem with ⟨m0, hm0, _, _, hd, _⟩ | ⟨hd, _⟩
    · rw [← hd]
      exact hgone m0 hm0
    · rw [hd]
      rfl
  have hmTcons : mT.consistB = true := nodesQ_consist ht1wf hmTmem
  have hmTbounds : ∀ e ∈ mT.lru, e.last_used ≤ T ∧ e.eid < c1d.nextEid := by
    intro e he
    rcases ht1nodes mT hmTmem with ⟨m0, hm0, _, _, _, hlr⟩ | ⟨_, hlr⟩
    · exact hl1.bounds m0 hm0 e (by rw [hlr]; exact he)
    · rw [hlr] at he
      simp at he
  set eNew : Entry := ⟨now, k, v, NE⟩ with heNew
  set mT' := mT.add_entry k v now NE with hmTadd
  have hmT'cons : mT'.consistB = true := by
    refine add_entry_consist hmTcons hmTgone ?_ ?_
    · intro e he
      have := hmTbounds e he
      omega
    · intro e he
      have := hmTbounds e he
      omega
  have hop : ((fun n => pure ((), .keep (n.add_entry k v now NE))) :
      Node → Except Err (Unit × CleanOutcome)) mT = .ok ((), .keep mT') := rfl
  have hshape : outShape mT (.keep mT') := by
    rw [outShape, hmTadd]
    simp [outSelf]
  have hcnt : ∀ p, cnt p (oPoints (outOpt (.keep mT'))) ≤ cnt p (oPoints (some mT)) := by
    intro p
    rw [outOpt, hmTadd, oPoints_add_entry]
  obtain ⟨t2, hupd, hroot2⟩ := @updAtPointQ_run Unit
    (fun n => pure ((), .keep (n.add_entry k v now NE))) t1 rt1 mT pt1 hrt1
    (treeWF_parts ht1wf).1 hfindT () (.keep mT') hop hshape hcnt
  have hXreg : oRegionWF (outOpt (.keep mT')) = true := by
    rw [outOpt, hmTadd, oRegionWF_add_entry]
    exact nodesQ_region ht1wf hmTmem
  have hXcons : oAllNodes Node.consistB (outOpt (.keep mT')) = true := by
    rw [outOpt]
    have hform : mT' = mT.withDataLru (dictSet mT.data k eNew) (mT.lru ++ [eNew]) := rfl
    rw [hform]
    refine consist_replaced ht1wf hmTmem ?_
    rw [← hform]
    exact hmT'cons
  have ht2wf : t2.treeWF = true := by
    rcases t2 with ⟨rt2⟩
    have hrt : rt2 = replaceAt rt1 pt1.1 pt1.2 (outOpt (.keep mT')) := hroot2
    rw [hrt]
    exact @surgery_treeWF t1 rt1 mT pt1 hrt1 ht1wf hfindT (outOpt (.keep mT'))
      hXreg hcnt hXcons
  obtain ⟨E1, E2, P1, P2, _, _, hXf⟩ :=
    replaceAt_decomp (osize (some rt1)) rt1 pt1.1 pt1.2 (le_refl _) mT hfindT
  obtain ⟨_, _, hXsup, hXsub⟩ := hXf (outOpt (.keep mT'))
  have hmT'mem : mT' ∈ t2.nodesQ := by
    rw [Quadtree.nodesQ, hroot2]
    exact hXsup mT' (self_mem_oNodes mT')
  have hfq2 : t2.findPointQ pt1 = some mT' := by
    have := findPointQ_eq ht2wf hmT'mem
    have hpteq : ((mT'.expiry, mT'.priority) : Int × Int) = pt1 := by
      rw [hmTadd]
      simp only [Node.expiry_add_entry, Node.priority_add_entry]
      exact hmTpt
    rw [hpteq] at this
    exact this
  -- provenance of a node of the updated tree
  have ht2prov : ∀ m ∈ t2.nodesQ, m = mT' ∨
      ∃ m0 ∈ t1.nodesQ, m0.expiry = m.expiry ∧ m0.priority = m.priority ∧
        m0.data = m.data ∧ m0.lru = m.lru := by
    intro m hm
    rw [Quadtree.nodesQ, hroot2] at hm
    rcases hXsub m hm with hmX | ⟨m0, hm0, h⟩
    · rcases oNodes_cases hmX with hmn | ⟨i, c2, hq, hmc⟩
      · exact Or.inl hmn
      · refine Or.inr ⟨m, ?_, rfl, rfl, rfl, rfl⟩
        rw [hmTadd, Node.getQuad_add_entry] at hq
        refine nodesQ_sub hmTmem ?_
        refine oNodes_quad_sub mT i ?_
        rw [hq]
        exact hmc
    · exact Or.inr ⟨m0, by rw [Quadtree.nodesQ, hrt1]; exact hm0, h⟩
  refine ⟨t2, mT', hupd, ht2wf, hfq2, ?_, ?_, ?_⟩
  · rw [hmTadd, Node.data_add_entry]
    exact dictGet_dictSet_self _ _ _
  · -- entry bounds at the new clock and counter
    intro m hm e he
    rcases ht2prov m hm with hm' | ⟨m0, hm0, _, _, _, hlr⟩
    · rw [hm', hmTadd, Node.lru_add_entry] at he
      rcases List.mem_append.mp he with he | he
      · have := hmTbounds e he
        constructor <;> omega
      · rw [List.mem_singleton] at he
        rw [he]
        refine ⟨le_refl now, ?_⟩
        show NE < NE + 1
        omega
    · have he0 : e ∈ m0.lru := by rw [hlr]; exact he
      rcases ht1nodes m0 hm0 with ⟨m1, hm1, _, _, _, hlr1⟩ | ⟨_, hlr1⟩
      · have := hl1.bounds m1 hm1 e (by rw [hlr1]; exact he0)
        constructor <;> omega
      · rw [hlr1] at he0
        simp at he0
  · -- registration of every held key in the new key index
    intro k' m hm hk'
    by_cases hkk : k' = k
    · subst hkk
      have hmpt : ((m.expiry, m.priority) : Int × Int) = pt1 := by
        rcases ht2prov m hm with hm' | ⟨m0, hm0, hex, hpr, hd, _⟩
        · rw [hm', hmTadd]
          simp only [Node.expiry_add_entry, Node.priority_add_entry]
          exact hmTpt
        · exfalso
          have hg0 : dictGet m0.data k' = none := by
            rcases ht1nodes m0 hm0 with ⟨m1, hm1, _, _, hd1, _⟩ | ⟨hd1, _⟩
            · rw [← hd1]
              exact hgone m1 hm1
            · rw [hd1]
              rfl
          rw [hd] at hg0
          rw [hg0] at hk'
          simp at hk'
      rw [hmpt]
      exact dictGet_dictSet_self _ _ _
    · rw [dictGet_dictSet_ne _ _ hkk]
      -- the key was held before the add, by a node with the same point
      have hheld1 : ∃ m1 ∈ c1d.tree.nodesQ, (dictGet m1.data k').isSome = true ∧
          m1.expiry = m.expiry ∧ m1.priority = m.priority := by
        rcases ht2prov m hm with hm' | ⟨m0, hm0, hex, hpr, hd, _⟩
        · have hmp : (dictGet mT.data k').isSome = true := by
            rw [hm', hmTadd, Node.data_add_entry] at hk'
            rw [dictGet_dictSet_ne _ _ hkk] at hk'
            exact hk'
          rcases ht1nodes mT hmTmem with ⟨m1, hm1, hex1, hpr1, hd1, _⟩ | ⟨hd1, _⟩
          · refine ⟨m1, hm1, by rw [hd1]; exact hmp, ?_, ?_⟩
            · rw [hex1, hm', hmTadd]
              simp
            · rw [hpr1, hm', hmTadd]
              simp
          · rw [hd1] at hmp
            simp [dictGet] at hmp
        · rcases ht1nodes m0 hm0 with ⟨m1, hm1, hex1, hpr1, hd1, _⟩ | ⟨hd1, _⟩
          · refine ⟨m1, hm1, ?_, by omega, by omega⟩
            rw [hd1, hd]
            exact hk'
          · exfalso
            rw [hd1] at hd
            rw [← hd] at hk'
            simp [dictGet] at hk'
      obtain ⟨m1, hm1, hm1k, hm1ex, hm1pr⟩ := hheld1
      have := hl1.holders k' m1 hm1 hm1k
      rw [this, hm1ex, hm1pr]

/-- Successful run of `Cache.__setitem__` under the lite invariant: the
assert passes (positive expiry duration), a previously held live key is
deleted first, the `(expiry, priority)` node is located or created, and the
fresh entry is stored and registered; all invariants advance to the new
clock reading.  The hypothesis `hkc` rules out the stale-binding corner in
which the key maps to a live node that no longer stores it (an expired
pivot emptied by a prune), where the reference implementation would raise
`KeyError` from `delete_entry`. -/
theorem setOp_post {c : Cache} {T now : Int} (hl : CacheLite c T) (hT : T ≤ now)
    (hdur : 0 < c.ctx_expiry_duration) {k : Nat}
    (hkc : ∀ pt n, dictGet c.keyNodes k = some pt → c.tree.findPointQ pt = some n →
      (dictGet n.data k).isSome = true)
    (v : Nat) :
    ∃ c1, c.setOp now k v = .ok c1 ∧ CacheLite c1 now ∧
      c1.ctx_expiry_duration = c.ctx_expiry_duration ∧
      c1.ctx_priority = c.ctx_priority ∧
      c1.default_expiry_duration = c.default_expiry_duration ∧
      c1.default_priority = c.default_priority ∧
      c1.nextEid = c.nextEid + 1 ∧
      dictGet c1.keyNodes k = some (now + c.ctx_expiry_duration, c.ctx_priority) ∧
      ∃ m', c1.tree.findPointQ (now + c.ctx_expiry_duration, c.ctx_priority) = some m' ∧
        dictGet m'.data k = some ⟨now, k, v, c.nextEid⟩ := by
  have hna : ¬(now + c.ctx_expiry_duration ≤ now) := by omega
  rcases hbind : dictGet c.keyNodes k with _ | pt
  · -- no binding for the key: nothing to delete
    have hgone := keyGone_of_dead hl (Or.inl hbind)
    obtain ⟨t2, mT', hupd2, ht2wf, hfq2, hmT'k, hbound2, hhold2⟩ :=
      @setAdd_run c T now hl hT k hgone v c.nextEid (le_refl _)
        (now + c.ctx_expiry_duration, c.ctx_priority)
        (if (c.tree.findPointQ (now + c.ctx_expiry_duration,
            c.ctx_priority)).isSome = true then c.tree
         else c.tree.insertQ c.ctx_priority (now + c.ctx_expiry_duration)) rfl
    refine ⟨{ c with tree := t2, keyNodes := dictSet c.keyNodes k (now + c.ctx_expiry_duration, c.ctx_priority), nextEid := c.nextEid + 1 }, ?_, ⟨ht2wf, hbound2, hhold2⟩, rfl, rfl, rfl, rfl, rfl, dictGet_dictSet_self _ _ _, ⟨mT', hfq2, hmT'k⟩⟩
    rw [Cache.setOp]
    simp only [if_neg hna]
    simp only [bind, Except.bind, pure, Except.pure] at hupd2 ⊢
    rw [hbind]
    dsimp only
    rw [hupd2]
  · rcases hfq : c.tree.findPointQ pt with _ | n
    · -- dead binding: the weak reference is gone, nothing to delete
      have hgone := keyGone_of_dead hl (Or.inr ⟨pt, hbind, hfq⟩)
      obtain ⟨t2, mT', hupd2, ht2wf, hfq2, hmT'k, hbound2, hhold2⟩ :=
        @setAdd_run c T now hl hT k hgone v c.nextEid (le_refl _)
          (now + c.ctx_expiry_duration, c.ctx_priority)
          (if (c.tree.findPointQ (now + c.ctx_expiry_duration,
              c.ctx_priority)).isSome = true then c.tree
           else c.tree.insertQ c.ctx_priority (now + c.ctx_expiry_duration)) rfl
      refine ⟨{ c with tree := t2, keyNodes := dictSet c.keyNodes k (now + c.ctx_expiry_duration, c.ctx_priority), nextEid := c.nextEid + 1 }, ?_, ⟨ht2wf, hbound2, hhold2⟩, rfl, rfl, rfl, rfl, rfl, dictGet_dictSet_self _ _ _, ⟨mT', hfq2, hmT'k⟩⟩
      rw [Cache.setOp]
      simp only [if_neg hna]
      simp only [bind, Except.bind, pure, Except.pure] at hupd2 ⊢
      rw [hbind]
      dsimp only
      rw [hfq]
      simp only [Option.isSome_none, Bool.false_eq_true, if_false]
      rw [hupd2]
    · -- live binding: delete the old entry first
      have hk := hkc pt n hbind hfq
      obtain ⟨e, he⟩ := Option.isSome_iff_exists.mp hk
      obtain ⟨c1d, hdel, hlite1, hgone, hkeys, hf1, hf2, hf3, hf4, hf5⟩ :=
        delOp_run hl hbind hfq he
      obtain ⟨t2, mT', hupd2, ht2wf, hfq2, hmT'k, hbound2, hhold2⟩ :=
        @setAdd_run c1d T now hlite1 hT k hgone v c.nextEid (le_of_eq hf5)
          (now + c.ctx_expiry_duration, c.ctx_priority)
          (if (c1d.tree.findPointQ (now + c.ctx_expiry_duration,
              c.ctx_priority)).isSome = true then c1d.tree
           else c1d.tree.insertQ c.ctx_priority (now + c.ctx_expiry_duration)) rfl
      refine ⟨{ c1d with tree := t2, keyNodes := dictSet c1d.keyNodes k (now + c.ctx_expiry_duration, c.ctx_priority), nextEid := c.nextEid + 1 }, ?_, ⟨ht2wf, hbound2, hhold2⟩, hf3, hf4, hf1, hf2, rfl, dictGet_dictSet_self _ _ _, ⟨mT', hfq2, hmT'k⟩⟩
      rw [Cache.setOp]
      simp only [if_neg hna]
      simp only [bind, Except.bind, pure, Except.pure] at hupd2 hdel ⊢
      rw [hbind]
      dsimp only
      rw [hfq]
      simp only [Option.isSome_some, eq_self_iff_true, if_true]
      rw [hdel]
      dsimp only
      rw [hupd2]

theorem withDataLru_withDataLru (n : Node) (d : List (Nat × Entry)) (l : List Entry)
    (d' : List (Nat × Entry)) (l' : List Entry) :
    (n.withDataLru d l).withDataLru d' l' = n.withDataLru d' l' := by
  cases n
  rfl

/-- Successful run of `Cache.__getitem__` on a live, unexpired binding whose
node holds the key: returns the stored value, and re-places the entry at the
tail of the node's lru queue with the current time and a fresh identity;
the tree stays well-formed and the key index is untouched. -/
theorem getOp_run {c : Cache} {T now : Int} (hl : CacheLite c T) (hT : T ≤ now)
    {k : Nat} {pt : Int × Int} (hbind : dictGet c.keyNodes k = some pt)
    {n : Node} (hfound : c.tree.findPointQ pt = some n)
    (hexp : n.expired now = false)
    {e : Entry} (hdat : dictGet n.data k = some e) :
    ∃ c' m' l1 l2, c.getOp now k = .ok (e.value, c') ∧
      c'.tree.findPointQ pt = some m' ∧
      n.lru = l1 ++ e :: l2 ∧
      m'.lru = (l1 ++ l2) ++ [⟨now, k, e.value, c.nextEid⟩] ∧
      c'.tree.treeWF = true ∧ c'.keyNodes = c.keyNodes := by
  obtain ⟨hnmem, hnex, hnpr⟩ := findPointQ_sound hfound
  rcases hr : c.tree.root with _ | r
  · exfalso
    unfold Quadtree.findPointQ at hfound
    rw [hr] at hfound
    exact Option.noConfusion hfound
  have hfind : findPoint r pt.1 pt.2 = some n := by
    unfold Quadtree.findPointQ at hfound
    rw [hr] at hfound
    exact hfound
  have hncons : n.consistB = true := nodesQ_consist hl.wf hnmem
  obtain ⟨l1, l2, hsplit, hke, hraw, hn1cons, hnone⟩ := deleteEntry_full hncons hdat
  set eNew : Entry := ⟨now, k, e.value, c.nextEid⟩ with heNew
  set n1 := n.withDataLru ((l1 ++ l2).map fun x => (x.key, x)) (l1 ++ l2) with hn1def
  set n2 := n1.add_entry k e.value now c.nextEid with hn2def
  have hacc : n.access_entry k now c.nextEid = .ok (e.value, n2) := by
    rw [Node.access_entry]
    simp only [hdat, hraw, bind, Except.bind, pure, Except.pure]
  have hbnd1 : ∀ x ∈ n1.lru, x.last_used ≤ now ∧ x.eid < c.nextEid := by
    intro x hx
    rw [hn1def, Node.lru_withDataLru] at hx
    have hxn : x ∈ n.lru := by
      rw [hsplit]
      rcases List.mem_append.mp hx with h | h
      · exact List.mem_append.mpr (Or.inl h)
      · exact List.mem_append.mpr (Or.inr (List.mem_cons_of_mem _ h))
    have := hl.bounds n hnmem x hxn
    constructor <;> omega
  have hn2cons : n2.consistB = true := by
    rw [hn2def]
    refine add_entry_consist hn1cons (by rw [hn1def, Node.data_withDataLru]; exact hnone)
      ?_ ?_
    · intro x hx
      exact (hbnd1 x hx).1
    · intro x hx
      exact (hbnd1 x hx).2
  have hform : n2 = n.withDataLru (dictSet n1.data k eNew) (n1.lru ++ [eNew]) :=
    withDataLru_withDataLru n _ _ _ _
  have hop : ((fun m => do
        let (v, m') ← m.access_entry k now c.nextEid
        pure (v, CleanOutcome.keep m')) : Node → Except Err (Nat × CleanOutcome)) n =
      .ok (e.value, .keep n2) := by
    simp only [hacc, bind, Except.bind, pure, Except.pure]
  have hshape : outShape n (.keep n2) := by
    rw [outShape, hform]
    simp [outSelf]
  have hXpts : oPoints (some n2) = oPoints (some n) := by
    rw [hform, oPoints_withDataLru]
  have hcnt : ∀ p, cnt p (oPoints (outOpt (.keep n2))) ≤ cnt p (oPoints (some n)) := by
    intro p
    rw [outOpt, hXpts]
  obtain ⟨t', hupd, hroot'⟩ := @updAtPointQ_run Nat
    (fun m => do
      let (v, m') ← m.access_entry k now c.nextEid
      pure (v, CleanOutcome.keep m')) c.tree r n pt hr (treeWF_parts hl.wf).1 hfind
    e.value (.keep n2) hop hshape hcnt
  have hXreg : oRegionWF (outOpt (.keep n2)) = true := by
    rw [outOpt, hform, oRegionWF_withDataLru]
    exact nodesQ_region hl.wf hnmem
  have hXcons : oAllNodes Node.consistB (outOpt (.keep n2)) = true := by
    rw [outOpt, hform]
    refine consist_replaced hl.wf hnmem ?_
    rw [← hform]
    exact hn2cons
  have ht'wf : t'.treeWF = true := by
    rcases t' with ⟨rt⟩
    have hrt : rt = replaceAt r pt.1 pt.2 (outOpt (.keep n2)) := hroot'
    rw [hrt]
    exact @surgery_treeWF c.tree r n pt hr hl.wf hfind (outOpt (.keep n2))
      hXreg hcnt hXcons
  obtain ⟨E1, E2, P1, P2, _, _, hXf⟩ :=
    replaceAt_decomp (osize (some r)) r pt.1 pt.2 (le_refl _) n hfind
  obtain ⟨_, _, hXsup, _⟩ := hXf (outOpt (.keep n2))
  have hn2mem : n2 ∈ t'.nodesQ := by
    rw [Quadtree.nodesQ, hroot']
    exact hXsup n2 (self_mem_oNodes n2)
  have hfq2 : t'.findPointQ pt = some n2 := by
    have := findPointQ_eq ht'wf hn2mem
    have hpteq : ((n2.expiry, n2.priority) : Int × Int) = pt := by
      rw [hform]
      simp only [Node.expiry_withDataLru, Node.priority_withDataLru]
      rw [hnex, hnpr]
    rw [hpteq] at this
    exact this
  refine ⟨{ c with tree := t', nextEid := c.nextEid + 1 }, n2, l1, l2, ?_, hfq2,
    hsplit, ?_, ht'wf, rfl⟩
  · rw [Cache.getOp]
    rw [hbind]
    dsimp only
    rw [hfound]
    dsimp only
    rw [hexp]
    simp only [Bool.false_eq_true, if_false]
    simp only [bind, Except.bind, pure, Except.pure] at hupd ⊢
    rw [hupd]
  · rw [hform, Node.lru_withDataLru, hn1def, Node.lru_withDataLru]

/-! Error paths of the mapping operations. -/

theorem getOp_notfound {c : Cache} {now : Int} {k : Nat}
    (h : dictGet c.keyNodes k = none ∨
      ∃ pt, dictGet c.keyNodes k = some pt ∧ c.tree.findPointQ pt = none) :
    c.getOp now k = .error .keyDoesNotExist := by
  rw [Cache.getOp]
  rcases h with h | ⟨pt, hbind, hfq⟩
  · rw [h]
  · rw [hbind]
    dsimp only
    rw [hfq]

theorem getOp_expired {c : Cache} {now : Int} {k : Nat} {pt : Int × Int} {n : Node}
    (hbind : dictGet c.keyNodes k = some pt) (hfq : c.tree.findPointQ pt = some n)
    (hexp : n.expired now = true) : c.getOp now k = .error .keyExpired := by
  rw [Cache.getOp, hbind]
  dsimp only
  rw [hfq]
  dsimp only
  rw [hexp]
  simp only [if_true]

theorem getOp_nokey {c : Cache} {now : Int} {k : Nat} {pt : Int × Int} {n : Node}
    (hbind : dictGet c.keyNodes k = some pt) (hfq : c.tree.findPointQ pt = some n)
    (hexp : n.expired now = false) (hdat : dictGet n.data k = none) :
    c.getOp now k = .error .keyError := by
  rcases hr : c.tree.root with _ | r
  · exfalso
    unfold Quadtree.findPointQ at hfq
    rw [hr] at hfq
    exact Option.noConfusion hfq
  have hfind : findPoint r pt.1 pt.2 = some n := by
    unfold Quadtree.findPointQ at hfq
    rw [hr] at hfq
    exact hfq
  have hacc : n.access_entry k now c.nextEid = .error .keyError := by
    rw [Node.access_entry]
    simp only [hdat]
  have hop : ((fun m => do
        let (v, m') ← m.access_entry k now c.nextEid
        pure (v, CleanOutcome.keep m')) : Node → Except Err (Nat × CleanOutcome)) n =
      .error .keyError := by
    simp only [hacc, bind, Except.bind]
  have herr := @updAtPointQ_err Nat
    (fun m => do
      let (v, m') ← m.access_entry k now c.nextEid
      pure (v, CleanOutcome.keep m')) c.tree r n pt hr hfind Err.keyError hop
  rw [Cache.getOp, hbind]
  dsimp only
  rw [hfq]
  dsimp only
  rw [hexp]
  simp only [Bool.false_eq_true, if_false]
  simp only [bind, Except.bind] at herr ⊢
  rw [herr]

theorem delOp_notfound {c : Cache} {k : Nat}
    (h : dictGet c.keyNodes k = none ∨
      ∃ pt, dictGet c.keyNodes k = some pt ∧ c.tree.findPointQ pt = none) :
    c.delOp k = .error .keyError := by
  rw [Cache.delOp]
  rcases h with h | ⟨pt, hbind, hfq⟩
  · rw [h]
  · rw [hbind]
    dsimp only
    rw [hfq]
    rfl

theorem delOp_nokey {c : Cache} {k : Nat} {pt : Int × Int} {n : Node}
    (hbind : dictGet c.keyNodes k = some pt) (hfq : c.tree.findPointQ pt = some n)
    (hdat : dictGet n.data k = none) : c.delOp k = .error .keyError := by
  rcases hr : c.tree.root with _ | r
  · exfalso
    unfold Quadtree.findPointQ at hfq
    rw [hr] at hfq
    exact Option.noConfusion hfq
  have hfind : findPoint r pt.1 pt.2 = some n := by
    unfold Quadtree.findPointQ at hfq
    rw [hr] at hfq
    exact hfq
  have hdele : n.delete_entry k true = .error .keyError := by
    rw [Node.delete_entry]
    simp only [Node.deleteEntryRaw, dictPop_of_get_none hdat, bind, Except.bind]
  have hop : ((fun m => do
        let out ← m.delete_entry k true
        pure ((), out)) : Node → Except Err (Unit × CleanOutcome)) n =
      .error .keyError := by
    simp only [hdele, bind, Except.bind]
  have herr := @updAtPointQ_err Unit
    (fun m => do
      let out ← m.delete_entry k true
      pure ((), out)) c.tree r n pt hr hfind Err.keyError hop
  rw [Cache.delOp, hbind]
  dsimp only
  rw [hfq]
  simp only [Option.isSome_some, eq_self_iff_true, if_true]
  simp only [bind, Except.bind] at herr ⊢
  rw [herr]

theorem setOp_assert {c : Cache} {now : Int} {k v : Nat}
    (hdur : ¬(0 < c.ctx_expiry_duration)) : c.setOp now k v = .error .assertFail := by
  rw [Cache.setOp]
  rw [if_pos (by omega : now + c.ctx_expiry_duration ≤ now)]

theorem setOp_stale {c : Cache} {now : Int} {k v : Nat} {pt : Int × Int} {n : Node}
    (hdur : 0 < c.ctx_expiry_duration)
    (hbind : dictGet c.keyNodes k = some pt) (hfq : c.tree.findPointQ pt = some n)
    (hdat : dictGet n.data k = none) : c.setOp now k v = .error .keyError := by
  have hna : ¬(now + c.ctx_expiry_duration ≤ now) := by omega
  have hdelerr := delOp_nokey hbind hfq hdat
  rw [Cache.setOp]
  simp only [if_neg hna]
  simp only [bind, Except.bind, pure, Except.pure] at hdelerr ⊢
  rw [hbind]
  dsimp only
  rw [hfq]
  simp only [Option.isSome_some, eq_self_iff_true, if_true]
  rw [hdelerr]

/-! Claim C7: the set/get algebraic laws. -/

/-- Claim C7: on a well-formed cache, immediately after `set(k, v)` a
`get(k)` returns `v`, and after `set(k, v1); set(k, v2)` a `get(k)` returns
`v2` — the overwrite wins.  The claim's provisos are the hypotheses: the
clock only moves forward, no eviction runs in between (the sequence is
exactly set/get resp. set/set/get), the reads happen before the written
entry's expiry (`hne1`/`hne2`), the context expiry duration is positive (the
`assert` in `__setitem__`), and a live stale binding for `k` still stores
`k` (`hkc`; otherwise the reference `delete_entry` call itself raises). -/
theorem C7_set_get_laws (c : Cache) (T now now' now2 now3 : Int) (k v v1 v2 : Nat)
    (hwf : c.wfB T = true) (hT : T ≤ now)
    (hdur : 0 < c.ctx_expiry_duration)
    (hkc : ∀ pt n, dictGet c.keyNodes k = some pt → c.tree.findPointQ pt = some n →
      (dictGet n.data k).isSome = true)
    (h1 : now ≤ now') (hne1 : ¬(now + c.ctx_expiry_duration < now'))
    (h2 : now ≤ now2) (h3 : now2 ≤ now3)
    (hne2 : ¬(now2 + c.ctx_expiry_duration < now3)) :
    (∃ c1 g1, c.setOp now k v = .ok c1 ∧ c1.getOp now' k = .ok (v, g1)) ∧
    (∃ d1 d2 g2, c.setOp now k v1 = .ok d1 ∧ d1.setOp now2 k v2 = .ok d2 ∧
      d2.getOp now3 k = .ok (v2, g2)) := by
  have hl := wfB_lite hwf
  constructor
  · obtain ⟨c1, hset, hlite1, hcd, hcp, _, _, hNE, hbindk, m', hfqm, hm'k⟩ :=
      setOp_post hl hT hdur hkc v
    have hex : m'.expiry = now + c.ctx_expiry_duration :=
      (findPointQ_sound hfqm).2.1
    have hexp : m'.expired now' = false := by
      rw [Node.expired, hex]
      simp only [decide_eq_false_iff_not]
      exact hne1
    obtain ⟨g1, m2, l1, l2, hget, _, _, _, _, _⟩ :=
      getOp_run hlite1 h1 hbindk hfqm hexp hm'k
    exact ⟨c1, g1, hset, hget⟩
  · obtain ⟨d1, hset1, hlite1, hcd, hcp, _, _, hNE, hbindk, m', hfqm, hm'k⟩ :=
      setOp_post hl hT hdur hkc v1
    have hdur2 : 0 < d1.ctx_expiry_duration := by
      rw [hcd]
      exact hdur
    have hkc2 : ∀ pt n, dictGet d1.keyNodes k = some pt →
        d1.tree.findPointQ pt = some n → (dictGet n.data k).isSome = true := by
      intro pt n hb hf
      rw [hbindk] at hb
      injection hb with hb
      subst hb
      rw [hfqm] at hf
      injection hf with hf
      subst hf
      rw [hm'k]
      rfl
    obtain ⟨d2, hset2, hlite2, hcd2, hcp2, _, _, hNE2, hbindk2, m2', hfqm2, hm2'k⟩ :=
      setOp_post hlite1 h2 hdur2 hkc2 v2
    have hex2 : m2'.expiry = now2 + d1.ctx_expiry_duration :=
      (findPointQ_sound hfqm2).2.1
    have hexp2 : m2'.expired now3 = false := by
      rw [Node.expired, hex2, hcd]
      simp only [decide_eq_false_iff_not]
      exact hne2
    obtain ⟨g2, m3, l1, l2, hget2, _, _, _, _, _⟩ :=
      getOp_run hlite2 h3 hbindk2 hfqm2 hexp2 hm2'k
    exact ⟨d1, d2, g2, hset1, hset2, hget2⟩

theorem c7init_wf : (Cache.init 100 0).wfB 0 = true := by
  simp [Cache.init, Cache.wfB, Quadtree.treeWF, Quadtree.nodesQ, Quadtree.findPointQ,
    nodupPoints, nodupKeys, dictGet, oPoints, oNodes, oAllNodes, oRegionWF]

/-- C7 witness: the laws on a fresh cache (defaults: duration 100,
priority 0) at clock 0. -/
theorem C7_set_get_laws_witness :
    (Cache.init 100 0).wfB 0 = true ∧
    ((∃ c1 g1, (Cache.init 100 0).setOp 0 1 7 = .ok c1 ∧
        c1.getOp 0 1 = .ok (7, g1)) ∧
     (∃ d1 d2 g2, (Cache.init 100 0).setOp 0 1 8 = .ok d1 ∧
        d1.setOp 0 1 9 = .ok d2 ∧ d2.getOp 0 1 = .ok (9, g2))) :=
  ⟨c7init_wf,
    C7_set_get_laws (Cache.init 100 0) 0 0 0 0 0 1 7 8 9 c7init_wf (le_refl _)
      (by decide)
      (by intro pt n h _; simp [Cache.init, dictGet] at h)
      (le_refl _) (by decide) (le_refl _) (le_refl _) (by decide)⟩

/-! Claim C8: the get trichotomy. -/

/-- The binding clause of `Cache.wfB`: a live binding's node either still
stores the key or has already expired relative to the invariant clock; a
dead binding's point lies strictly in the past. -/
theorem wfB_binding {c : Cache} {T : Int} (h : c.wfB T = true) {k : Nat}
    {pt : Int × Int} (hmem : (k, pt) ∈ c.keyNodes) :
    (∀ n, c.tree.findPointQ pt = some n →
      (dictGet n.data k).isSome = true ∨ n.expiry < T) ∧
    (c.tree.findPointQ pt = none → pt.1 < T) := by
  rw [Cache.wfB] at h
  simp only [Bool.and_eq_true] at h
  obtain ⟨_, _, hcl, _, _⟩ := h
  rw [List.all_eq_true] at hcl
  have h1 := hcl (k, pt) hmem
  constructor
  · intro n hn
    rw [hn] at h1
    simp only [Bool.or_eq_true, decide_eq_true_eq] at h1
    exact h1
  · intro hn
    rw [hn] at h1
    simp only [decide_eq_true_eq] at h1
    exact h1

/-- Claim C8: on a well-formed cache, `get(k)` fails with the missing-key
error exactly when `k` is absent from the (weak) key index — no binding, or
a binding whose node is gone from the tree; it fails with the expired-key
error when the binding's node has expired at the current clock; otherwise
it returns the stored value and re-places the entry at the tail of the
node's LRU queue, stamped with the current time. -/
theorem C8_get_error_trichotomy (c : Cache) (T now : Int) (k : Nat)
    (hwf : c.wfB T = true) (hT : T ≤ now) :
    ((dictGet c.keyNodes k = none ∨
      (∃ pt, dictGet c.keyNodes k = some pt ∧ c.tree.findPointQ pt = none)) →
      c.getOp now k = .error .keyDoesNotExist) ∧
    (∀ pt n, dictGet c.keyNodes k = some pt → c.tree.findPointQ pt = some n →
      n.expired now = true → c.getOp now k = .error .keyExpired) ∧
    (∀ pt n, dictGet c.keyNodes k = some pt → c.tree.findPointQ pt = some n →
      n.expired now = false →
      ∃ e m' c' l1 l2, dictGet n.data k = some e ∧
        c.getOp now k = .ok (e.value, c') ∧
        c'.tree.findPointQ pt = some m' ∧
        n.lru = l1 ++ e :: l2 ∧
        m'.lru = (l1 ++ l2) ++ [⟨now, k, e.value, c.nextEid⟩]) := by
  refine ⟨getOp_notfound, fun pt n hbind hfq hexp => getOp_expired hbind hfq hexp, ?_⟩
  intro pt n hbind hfq hexp
  have hdat : (dictGet n.data k).isSome = true := by
    obtain ⟨h1, _⟩ := wfB_binding hwf (dictGet_mem hbind)
    rcases h1 n hfq with h | h
    · exact h
    · exfalso
      rw [Node.expired, decide_eq_false_iff_not] at hexp
      exact hexp (by omega)
  obtain ⟨e, he⟩ := Option.isSome_iff_exists.mp hdat
  obtain ⟨c', m', l1, l2, hget, hfq', hsplit, hlru', _, _⟩ :=
    getOp_run (wfB_lite hwf) hT hbind hfq hexp he
  exact ⟨e, m', c', l1, l2, he, hget, hfq', hsplit, hlru'⟩

/-- C8 witness: the trichotomy on a fresh cache at clock 0. -/
theorem C8_get_error_trichotomy_witness :
    (Cache.init 100 0).wfB 0 = true ∧
    (((dictGet (Cache.init 100 0).keyNodes 1 = none ∨
       (∃ pt, dictGet (Cache.init 100 0).keyNodes 1 = some pt ∧
         (Cache.init 100 0).tree.findPointQ pt = none)) →
       (Cache.init 100 0).getOp 0 1 = .error .keyDoesNotExist) ∧
     (∀ pt n, dictGet (Cache.init 100 0).keyNodes 1 = some pt →
       (Cache.init 100 0).tree.findPointQ pt = some n →
       n.expired 0 = true → (Cache.init 100 0).getOp 0 1 = .error .keyExpired) ∧
     (∀ pt n, dictGet (Cache.init 100 0).keyNodes 1 = some pt →
       (Cache.init 100 0).tree.findPointQ pt = some n →
       n.expired 0 = false →
       ∃ e m' c' l1 l2, dictGet n.data 1 = some e ∧
         (Cache.init 100 0).getOp 0 1 = .ok (e.value, c') ∧
         c'.tree.findPointQ pt = some m' ∧
         n.lru = l1 ++ e :: l2 ∧
         m'.lru = (l1 ++ l2) ++ [⟨0, 1, e.value, (Cache.init 100 0).nextEid⟩])) :=
  ⟨c7init_wf, C8_get_error_trichotomy (Cache.init 100 0) 0 0 1 c7init_wf (le_refl _)⟩

/-! Claim C5: every cache operation preserves the quadrant invariant. -/

/-- The region invariant (each child subtree entirely inside its quadrant's
region) implies the claim's local quadrant invariant (each direct child's
comparison pair matches its slot). -/
theorem oQuadInv_of_regionWF : ∀ fuel (o : Option Node), osize o ≤ fuel →
    oRegionWF o = true → oQuadInv o = true := by
  intro fuel
  induction fuel with
  | zero =>
    intro o ho _
    cases o with
    | none => simp [oQuadInv]
    | some n => rw [osize_some] at ho; omega
  | succ f ih =>
    intro o ho hreg
    cases o with
    | none => simp [oQuadInv]
    | some n =>
      rw [oQuadInv_some]
      have hslot : ∀ i : QI, (n.getQuad i).all
          (fun m => inRegion n.expiry n.priority i (m.expiry, m.priority)) = true := by
        intro i
        rcases hq : n.getQuad i with _ | c
        · rfl
        · have hpts := oRegionWF_quad_points i hreg
          rw [hq, List.all_eq_true] at hpts
          simp only [Option.all_some]
          exact hpts _ (self_mem_oPoints c)
      have hrec : ∀ i : QI, oQuadInv (n.getQuad i) = true := by
        intro i
        refine ih (n.getQuad i) ?_ (oRegionWF_quad i hreg)
        have := osize_quad_lt n i
        omega
      rw [hslot .one, hslot .two, hslot .three, hslot .four,
        hrec .one, hrec .two, hrec .three, hrec .four]
      rfl

/-- The public cache operations (`__setitem__`, `__getitem__`,
`__delitem__`, `evict`). -/
inductive COp where
  | setitem (k v : Nat)
  | getitem (k : Nat)
  | delitem (k : Nat)
  | evict
  deriving Repr

/-- Dispatch of one public operation at one clock reading. -/
def Cache.applyOp (c : Cache) (now : Int) : COp → Except Err Cache
  | .setitem k v => c.setOp now k v
  | .getitem k => (c.getOp now k).map (fun p => p.2)
  | .delitem k => c.delOp k
  | .evict => c.evictOp now

/-- Claim C5: every cache operation that completes on a well-formed cache —
set, get, delete, evict, together with the tree operations they invoke
(insert, the cleaning rule's deletion and promotion, and both prunes) —
leaves a tree that is still well-formed and satisfies the quadrant
invariant: each child's comparison pair `(expiry ≤ parent, priority <
parent)` matches its quadrant slot. -/
theorem C5_ops_preserve_quadrant_invariant (c : Cache) (T now : Int) (op : COp)
    (hwf : c.wfB T = true) (hT : T ≤ now) {c' : Cache}
    (hrun : c.applyOp now op = .ok c') :
    c'.tree.treeWF = true ∧ oQuadInv c'.tree.root = true := by
  have hl := wfB_lite hwf
  have hmain : c'.tree.treeWF = true := by
    cases op with
    | setitem k v =>
      rw [Cache.applyOp] at hrun
      by_cases hdur : 0 < c.ctx_expiry_duration
      · rcases hbind : dictGet c.keyNodes k with _ | pt
        · obtain ⟨c1, hset, hlite1, _⟩ := setOp_post hl hT hdur
            (fun pt n h _ => by rw [hbind] at h; exact Option.noConfusion h) v
          rw [hset] at hrun
          injection hrun with hrun
          rw [← hrun]
          exact hlite1.wf
        · rcases hfq : c.tree.findPointQ pt with _ | n
          · obtain ⟨c1, hset, hlite1, _⟩ := setOp_post hl hT hdur
              (fun pt' n h hf => by
                rw [hbind] at h
                injection h with h
                subst h
                rw [hfq] at hf
                exact Option.noConfusion hf) v
            rw [hset] at hrun
            injection hrun with hrun
            rw [← hrun]
            exact hlite1.wf
          · rcases hdat : dictGet n.data k with _ | e
            · rw [setOp_stale hdur hbind hfq hdat] at hrun
              exact Except.noConfusion hrun
            · obtain ⟨c1, hset, hlite1, _⟩ := setOp_post hl hT hdur
                (fun pt' n' h hf => by
                  rw [hbind] at h
                  injection h with h
                  subst h
                  rw [hfq] at hf
                  injection hf with hf
                  subst hf
                  rw [hdat]
                  rfl) v
              rw [hset] at hrun
              injection hrun with hrun
              rw [← hrun]
              exact hlite1.wf
      · rw [setOp_assert hdur] at hrun
        exact Except.noConfusion hrun
    | getitem k =>
      rw [Cache.applyOp] at hrun
      rcases hbind : dictGet c.keyNodes k with _ | pt
      · rw [getOp_notfound (Or.inl hbind)] at hrun
        exact Except.noConfusion hrun
      · rcases hfq : c.tree.findPointQ pt with _ | n
        · rw [getOp_notfound (Or.inr ⟨pt, hbind, hfq⟩)] at hrun
          exact Except.noConfusion hrun
        · rcases hexp : n.expired now with _ | _
          · rcases hdat : dictGet n.data k with _ | e
            · rw [getOp_nokey hbind hfq hexp hdat] at hrun
              exact Except.noConfusion hrun
            · obtain ⟨c'', m', l1, l2, hget, _, _, _, hwf'', _⟩ :=
                getOp_run hl hT hbind hfq hexp hdat
              rw [hget] at hrun
              simp only [Except.map] at hrun
              injection hrun with hrun
              rw [← hrun]
              exact hwf''
          · rw [getOp_expired hbind hfq hexp] at hrun
            exact Except.noConfusion hrun
    | delitem k =>
      rw [Cache.applyOp] at hrun
      rcases hbind : dictGet c.keyNodes k with _ | pt
      · rw [delOp_notfound (Or.inl hbind)] at hrun
        exact Except.noConfusion hrun
      · rcases hfq : c.tree.findPointQ pt with _ | n
        · rw [delOp_notfound (Or.inr ⟨pt, hbind, hfq⟩)] at hrun
          exact Except.noConfusion hrun
        · rcases hdat : dictGet n.data k with _ | e
          · rw [delOp_nokey hbind hfq hdat] at hrun
            exact Except.noConfusion hrun
          · obtain ⟨c1, hdel, hlite1, _⟩ := delOp_run hl hbind hfq hdat
            rw [hdel] at hrun
            injection hrun with hrun
            rw [← hrun]
            exact hlite1.wf
    | evict =>
      rw [Cache.applyOp] at hrun
      obtain ⟨hreg, _, _⟩ := treeWF_parts hl.wf
      obtain ⟨b, t1, hpe, hpart, _⟩ := prune_expired_spec c.tree now hreg
      have ht1wf : t1.treeWF = true := prune_treeWF hl.wf hpart
      rw [Cache.evictOp] at hrun
      simp only [hpe, bind, Except.bind] at hrun
      cases b with
      | true =>
        simp only [if_true, pure, Except.pure] at hrun
        injection hrun with hrun
        rw [← hrun]
        exact ht1wf
      | false =>
        simp only [Bool.false_eq_true, if_false] at hrun
        obtain ⟨hemp, hfull⟩ := prune_lowest_spec t1 ht1wf
        by_cases hent : t1.entriesQ = []
        · rw [hemp hent] at hrun
          simp only [pure, Except.pure] at hrun
          injection hrun with hrun
          rw [← hrun]
          exact ht1wf
        · obtain ⟨L, e, t2, hok, _, _, _, _, _, _, ht2wf⟩ := hfull hent
          rw [hok] at hrun
          simp only [pure, Except.pure] at hrun
          injection hrun with hrun
          rw [← hrun]
          exact ht2wf
  refine ⟨hmain, ?_⟩
  exact oQuadInv_of_regionWF (osize c'.tree.root) c'.tree.root (le_refl _)
    (treeWF_parts hmain).1

/-- C5 witness: evicting from a fresh cache at clock 0 (the prune runs on
the empty tree and the empty-tree failure of the priority prune is
swallowed). -/
theorem C5_ops_preserve_quadrant_invariant_witness :
    ((Cache.init 100 0).wfB 0 = true ∧
      (Cache.init 100 0).applyOp 0 .evict = .ok (Cache.init 100 0)) ∧
    ((Cache.init 100 0).tree.treeWF = true ∧
      oQuadInv (Cache.init 100 0).tree.root = true) :=
  ⟨⟨c7init_wf, rfl⟩,
    C5_ops_preserve_quadrant_invariant (Cache.init 100 0) 0 0 .evict c7init_wf
      (le_refl _) rfl⟩

end PEC
